import Mathlib

/-!
# ADS_set: an unordered set as a hash table with separate chaining

Shallow embedding of `src/ADS_set.h` and proofs about it.

Modelling conventions.

* A `Node*` that points into a chain is the list of keys of the nodes reachable
  from it through `next`: `[]` is `nullptr`, `k :: rest` is a node with
  `key = k` and `next = rest`.  Two pointers into the same chain are equal
  exactly when the lists are equal (distinct suffixes of one list have distinct
  lengths).
* The bucket array `Node* table` is the list of its slots; only the field `head`
  of a slot is ever used, so a slot is the chain hanging from `head`.
* `size_t` is `Nat`: `curr_size` counts allocated nodes and `table_size` allocated
  slots, so the arithmetic of the source stays far below `2^64`.
* `std::hash<Key>` is a parameter `hash : Key → Nat`, `key_equal` is equality of
  `Key`, the template parameter `N` is a parameter `N : Nat`.
* The recursion `insert_ → reserve → rehash → insert_` is modelled with a fuel
  that bounds the nesting depth of `insert_`.  Range-`for` loops over a set get a
  fuel bounding the number of iterator steps.
* A function that allocates, frees or recurses returns an `Option`: `none` means
  that the call has no defined result, because the fuel ran out or because the
  code runs into undefined behaviour.  The one source of undefined behaviour that
  is modelled in the operations is the loop that frees a chain, in `rehash` and
  in the destructor: `for (no = head; no != nullptr; no = no->next) delete no;`
  reads `no->next` from the node it has just deleted (`free_chain`).  The modulus
  zero in `h` is tracked by `h_defined`.
-/

set_option autoImplicit false
set_option linter.unusedSectionVars false
set_option linter.unusedVariables false

namespace ADS

/-- The data members of `ADS_set`: `table`, `table_size`, `curr_size`. -/
structure ADS_set (Key : Type) where
  table : List (List Key)
  table_size : Nat
  curr_size : Nat
deriving DecidableEq, Repr

/-- The data members of `ADS_set::Iterator`: `pos`, `table`, `idx`, `table_size`. -/
structure Iterator (Key : Type) where
  pos : List Key
  table : List (List Key)
  idx : Nat
  table_size : Nat
deriving DecidableEq, Repr

section Definitions

variable {Key : Type} [DecidableEq Key]

/-- The chain `table[idx].head`. -/
def bucket (table : List (List Key)) (idx : Nat) : List Key :=
  table.getD idx []

/-- The assignment `table[idx].head = chain`. -/
def set_bucket (table : List (List Key)) (idx : Nat) (chain : List Key) : List (List Key) :=
  table.set idx chain

variable (N : Nat) (hash : Key → Nat)

/-- Member `h`: `hasher{}(key) % table_size`. -/
def h (s : ADS_set Key) (key : Key) : Nat :=
  hash key % s.table_size

/-- The `for` loop of `find_`: the first node of the chain whose key equals `key`. -/
def find_loop (key : Key) : List Key → List Key
  | [] => []
  | k :: next => if k = key then k :: next else find_loop key next

/-- Member `find_`: pointer to the node holding `key`, or `nullptr`. -/
def find_ (s : ADS_set Key) (key : Key) : List Key :=
  let idx := h hash s key
  if bucket s.table idx = [] then []
  else find_loop key (bucket s.table idx)

/-- The `do ... while` loop of `reserve`; the first argument counts the remaining
iterations, of which `reserve` grants `n` (`grow_loop_exit`: the loop ends earlier). -/
def grow_loop (n : Nat) : Nat → Nat → Nat
  | 0, new_table_size => new_table_size
  | fuel + 1, new_table_size =>
      if n > (new_table_size * 2 + 1) * 2 then grow_loop n fuel (new_table_size * 2 + 1)
      else new_table_size * 2 + 1

/-- The first two loops of `rehash`: the keys of all chains, bucket by bucket,
pushed to the vector `v`. -/
def collect (s : ADS_set Key) : List Key :=
  (List.range s.table_size).flatMap (fun idx => bucket s.table idx)

/-- The loop `for (idx < v.size()) insert_(v[idx])` of `rehash`, over an
`insert_` that may fail to return. -/
def reinsert (ins : ADS_set Key → Key → Option (ADS_set Key)) :
    List Key → ADS_set Key → Option (ADS_set Key)
  | [], s => some s
  | k :: v, s =>
      match ins s k with
      | none => none
      | some s1 => reinsert ins v s1

/-- The state of `rehash` before its reinsertion loop: `table = new Node[new_table_size]`,
`table_size = new_table_size`, `curr_size = 0`. -/
def fresh (new_table_size : Nat) : ADS_set Key :=
  { table := List.replicate new_table_size [], table_size := new_table_size, curr_size := 0 }

/-- The loop `for (Node* no = head; no != nullptr; no = no->next) { delete no; }`
on one chain: on a node it deletes `no` and then evaluates `no->next` on the
deleted node, which is undefined; only on an empty chain it does nothing and ends. -/
def free_chain : List Key → Option Unit
  | [] => some ()
  | _ :: _ => none

/-- The loop over `idx < table_size` around `free_chain`, from `idx` on; the first
argument is `table_size - idx`. -/
def free_table_loop (table : List (List Key)) : Nat → Nat → Option Unit
  | 0, _ => some ()
  | fuel + 1, idx =>
      match free_chain (bucket table idx) with
      | none => none
      | some _ => free_table_loop table fuel (idx + 1)

/-- The two nested loops that free the chains of a bucket array of `table_size`
slots, followed by `delete[]` of the array: the end of `rehash` (on the old
array) and the body of `~ADS_set`. -/
def free_table (table : List (List Key)) (table_size : Nat) : Option Unit :=
  free_table_loop table table_size 0

/-- The destructor `~ADS_set`. -/
def destroy (s : ADS_set Key) : Option Unit :=
  free_table s.table s.table_size

/-- Member `rehash`, over the `insert_` it calls: the keys are collected, the new
array is filled by reinsertion, then the chains of the old array are freed. -/
def rehash_with (ins : ADS_set Key → Key → Option (ADS_set Key))
    (s : ADS_set Key) (n : Nat) : Option (ADS_set Key) :=
  let v := collect s
  let new_table_size := max N (max n s.curr_size)
  match reinsert ins v (fresh new_table_size) with
  | none => none
  | some s1 =>
      match free_table s.table s.table_size with
      | none => none
      | some _ => some s1

/-- Member `reserve`, over the `insert_` that `rehash` calls. -/
def reserve_with (ins : ADS_set Key → Key → Option (ADS_set Key))
    (s : ADS_set Key) (n : Nat) : Option (ADS_set Key) :=
  if n > s.table_size * 2 then rehash_with N ins s (grow_loop n n s.table_size)
  else some s

/-- The first statements of `insert_`: a new node at the head of the chain of
bucket `h(key)` and `++curr_size`. -/
def push_head (s : ADS_set Key) (key : Key) : ADS_set Key :=
  let idx := h hash s key
  { s with
    table := set_bucket s.table idx (key :: bucket s.table idx)
    curr_size := s.curr_size + 1 }

/-- Member `insert_` (its returned pointer `table + idx` is used by no caller and
is left out).  The first argument bounds the nesting depth of `insert_`. -/
def insert_ : Nat → ADS_set Key → Key → Option (ADS_set Key)
  | 0 => fun _ _ => none
  | fuel + 1 => fun s key =>
      reserve_with N (insert_ fuel) (push_head hash s key) (push_head hash s key).curr_size

/-- Member `rehash` as called from an `insert_` that has `fuel + 1` left, or from
a constructor. -/
def rehash (fuel : Nat) (s : ADS_set Key) (n : Nat) : Option (ADS_set Key) :=
  rehash_with N (insert_ N hash fuel) s n

/-- Member `reserve` as called from an `insert_` that has `fuel + 1` left. -/
def reserve (fuel : Nat) (s : ADS_set Key) (n : Nat) : Option (ADS_set Key) :=
  reserve_with N (insert_ N hash fuel) s n

/-- The default member initialisers: `table{nullptr}`, `table_size{0}`, `curr_size{0}`. -/
def members_init : ADS_set Key :=
  { table := [], table_size := 0, curr_size := 0 }

/-- The default constructor `ADS_set() { rehash(N); }`. -/
def ctor (fuel : Nat) : Option (ADS_set Key) :=
  rehash N hash fuel members_init N

/-- Member `size`. -/
def size (s : ADS_set Key) : Nat := s.curr_size

/-- Member `empty`. -/
def empty (s : ADS_set Key) : Bool := s.curr_size == 0

/-- Member `count`: `!!find_(key)`. -/
def count (s : ADS_set Key) (key : Key) : Nat :=
  if find_ hash s key = [] then 0 else 1

/-- Member `end`: `const_iterator(nullptr)`, the other members defaulted. -/
def end_ : Iterator Key :=
  { pos := [], table := [], idx := 0, table_size := 0 }

/-- Member `find`. -/
def find (s : ADS_set Key) (key : Key) : Iterator Key :=
  if find_ hash s key ≠ [] then
    { pos := find_ hash s key, table := s.table, idx := h hash s key, table_size := s.table_size }
  else end_

/-- The loop of `begin`; the first argument is `table_size - i`. -/
def begin_loop (s : ADS_set Key) : Nat → Nat → Iterator Key
  | 0, _ => end_
  | fuel + 1, i =>
      if bucket s.table i ≠ [] then
        { pos := bucket s.table i, table := s.table, idx := i, table_size := s.table_size }
      else begin_loop s fuel (i + 1)

/-- Member `begin`. -/
def begin (s : ADS_set Key) : Iterator Key :=
  begin_loop s s.table_size 0

/-- The `while` loop of `Iterator::operator++`; the first argument is
`table_size - idx`, which drops by one in every iteration that does not return. -/
def Iterator.inc_loop : Nat → Iterator Key → Iterator Key
  | 0, it => it
  | fuel + 1, it =>
      if it.idx < it.table_size then
        if it.pos.tail ≠ [] then { it with pos := it.pos.tail }
        else if it.idx + 1 = it.table_size then { it with pos := [], idx := it.idx + 1 }
        else if bucket it.table (it.idx + 1) ≠ [] then
          { it with pos := bucket it.table (it.idx + 1), idx := it.idx + 1 }
        else Iterator.inc_loop fuel { it with idx := it.idx + 1 }
      else it

/-- The prefix `Iterator::operator++`. -/
def Iterator.increment (it : Iterator Key) : Iterator Key :=
  Iterator.inc_loop (it.table_size - it.idx) it

/-- The dereference `Iterator::operator*`: the key of the node `pos`, nothing at `nullptr`. -/
def Iterator.deref (it : Iterator Key) : Option Key :=
  it.pos.head?

/-- The comparison `operator==` of two iterators: `lhs.pos == rhs.pos`. -/
def Iterator.eq (lhs rhs : Iterator Key) : Bool :=
  decide (lhs.pos = rhs.pos)

/-- The `while (help2 != p)` loop of `erase` followed by `help->next = help2->next`,
on the chain that starts at `help`. -/
def unlink (p : List Key) : List Key → List Key
  | [] => []
  | k :: help2 => if help2 = p then k :: help2.tail else k :: unlink p help2

/-- Member `erase`: the new state and the returned number. -/
def erase (s : ADS_set Key) (key : Key) : ADS_set Key × Nat :=
  let p := find_ hash s key
  if p ≠ [] then
    let idx := h hash s key
    if p ≠ bucket s.table idx then
      ({ s with
         table := set_bucket s.table idx (unlink p (bucket s.table idx))
         curr_size := s.curr_size - 1 }, 1)
    else
      ({ s with
         table := set_bucket s.table idx (bucket s.table idx).tail
         curr_size := s.curr_size - 1 }, 1)
  else (s, 0)

/-- Member `insert(const key_type&)`: the new state, the returned iterator and the
returned flag. -/
def insert (fuel : Nat) (s : ADS_set Key) (key : Key) :
    Option (ADS_set Key × Iterator Key × Bool) :=
  if find_ hash s key ≠ [] then
    some (s, { pos := find_ hash s key, table := s.table, idx := h hash s key,
               table_size := s.table_size }, false)
  else
    match insert_ N hash fuel s key with
    | none => none
    | some s1 =>
        some (s1, { pos := find_ hash s1 key, table := s1.table, idx := h hash s1 key,
                    table_size := s1.table_size }, true)

/-- Member `insert(InputIt first, InputIt last)` on the keys of the range. -/
def insert_range (fuel : Nat) : List Key → ADS_set Key → Option (ADS_set Key)
  | [], s => some s
  | k :: rest, s =>
      if count hash s k = 0 then
        match insert_ N hash fuel s k with
        | none => none
        | some s1 => insert_range fuel rest s1
      else insert_range fuel rest s

/-- Member `swap`: the three data members of the two objects are exchanged. -/
def swap (s other : ADS_set Key) : ADS_set Key × ADS_set Key :=
  (other, s)

/-- Member `clear`: `ADS_set tmp; swap(tmp);`, after which `tmp`, which now holds
the old chains, is destroyed. -/
def clear (fuel : Nat) (s : ADS_set Key) : Option (ADS_set Key) :=
  match ctor N hash fuel with
  | none => none
  | some tmp =>
      match destroy (swap s tmp).2 with
      | none => none
      | some _ => some (swap s tmp).1

/-- The range-`for` loop of `operator==` from the iterator `it` of `rhs` on;
`steps` bounds the number of iterations. -/
def eq_loop (lhs : ADS_set Key) : Nat → Iterator Key → Option Bool
  | 0, _ => none
  | steps + 1, it =>
      match it.pos with
      | [] => some true
      | k :: _ => if count hash lhs k = 0 then some false else eq_loop lhs steps it.increment

/-- The friend `operator==` of two sets. -/
def eq (steps : Nat) (lhs rhs : ADS_set Key) : Option Bool :=
  if lhs.curr_size ≠ rhs.curr_size then some false
  else eq_loop hash lhs steps (begin rhs)

/-- The friend `operator!=` of two sets. -/
def ne (steps : Nat) (lhs rhs : ADS_set Key) : Option Bool :=
  (eq hash steps lhs rhs).map not

/-- The range-`for` loop of the copy constructor from the iterator `it` of `other` on. -/
def copy_loop (fuel : Nat) : Nat → Iterator Key → ADS_set Key → Option (ADS_set Key)
  | 0, _, _ => none
  | steps + 1, it, s =>
      match it.pos with
      | [] => some s
      | k :: _ =>
          match insert_ N hash fuel s k with
          | none => none
          | some s1 => copy_loop fuel steps it.increment s1

/-- The copy constructor `ADS_set(const ADS_set& other)`. -/
def copy (fuel steps : Nat) (other : ADS_set Key) : Option (ADS_set Key) :=
  match ctor N hash fuel with
  | none => none
  | some s0 =>
      match rehash N hash fuel s0 N with
      | none => none
      | some s1 => copy_loop N hash fuel steps (begin other) s1


/-- The keys stored in the table: all chains, bucket by bucket. -/
def keys (s : ADS_set Key) : List Key :=
  s.table.flatten

/-- The table invariant: the bucket array has `table_size` slots and at least one,
every entry sits in the bucket of its hash, no key is stored twice, and
`curr_size` counts the entries. -/
structure Wf (s : ADS_set Key) : Prop where
  len : s.table.length = s.table_size
  pos : 0 < s.table_size
  home : ∀ i k, k ∈ bucket s.table i → hash k % s.table_size = i
  nodup : (keys s).Nodup
  card : s.curr_size = (keys s).length

/-- The table invariant together with the bounds on the capacity: at least `N`
buckets, at most two entries per bucket on average. -/
structure Inv (s : ADS_set Key) : Prop where
  wf : Wf hash s
  cap : N ≤ s.table_size
  load : s.curr_size ≤ 2 * s.table_size

/-- The reinsertion loop of `rehash` when no nested `rehash` starts: every key is
pushed to the head of its bucket. -/
def push_all (s : ADS_set Key) (v : List Key) : ADS_set Key :=
  v.foldl (push_head hash) s

/-- The table that `insert_` has built when it returns, or when the `rehash` it
calls has filled the new array and reaches the loop that frees the old chains:
`insert_` with the recursion unrolled once and without that loop. -/
def insert_result (s : ADS_set Key) (key : Key) : ADS_set Key :=
  let s1 := push_head hash s key
  if s1.curr_size > s1.table_size * 2 then
    push_all hash
      (fresh (max N (max (grow_loop s1.curr_size s1.curr_size s1.table_size) s1.curr_size)))
      (collect s1)
  else s1

/-- The states a program can reach: a constructed set, and what `insert`,
`erase`, range `insert`, `clear` and the copy constructor make of reachable
sets (copy assignment and the list and range constructors are compositions of
these). -/
inductive Reachable : ADS_set Key → Prop
  | ctor (fuel : Nat) (s : ADS_set Key) :
      ctor N hash fuel = some s → Reachable s
  | insert (fuel : Nat) (s : ADS_set Key) (key : Key) (r : ADS_set Key × Iterator Key × Bool) :
      Reachable s → insert N hash fuel s key = some r → Reachable r.1
  | erase (s : ADS_set Key) (key : Key) :
      Reachable s → Reachable (erase hash s key).1
  | insert_range (fuel : Nat) (s : ADS_set Key) (ks : List Key) (s1 : ADS_set Key) :
      Reachable s → insert_range N hash fuel ks s = some s1 → Reachable s1
  | clear (fuel : Nat) (s s1 : ADS_set Key) :
      Reachable s → clear N hash fuel s = some s1 → Reachable s1
  | copy (fuel steps : Nat) (other s1 : ADS_set Key) :
      Reachable other → copy N hash fuel steps other = some s1 → Reachable s1

/-- The keys a cursor has yet to visit: its chain from `pos` on and the chains of
the buckets after `idx`. -/
def Iterator.remaining (it : Iterator Key) : List Key :=
  it.pos ++ (it.table.drop (it.idx + 1)).flatten

/-- A cursor that belongs to a bucket array of `table_size` slots: it stands on
a node of bucket `idx`, or it is past the last bucket with `pos = nullptr`. -/
structure Iterator.Valid (it : Iterator Key) : Prop where
  len : it.table.length = it.table_size
  inside : it.pos ≠ [] → it.idx < it.table_size
  past : it.pos = [] → it.table_size ≤ it.idx

/-- A call of `insert(key)` or of `erase(key)`. -/
inductive Op (Key : Type) where
  | insert (key : Key)
  | erase (key : Key)
deriving DecidableEq, Repr

/-- The calls of a sequence applied in order to the set `s`. -/
def run (fuel : Nat) : List (Op Key) → ADS_set Key → Option (ADS_set Key)
  | [], s => some s
  | Op.insert key :: ops, s =>
      match insert N hash fuel s key with
      | none => none
      | some r => run fuel ops r.1
  | Op.erase key :: ops, s => run fuel ops (erase hash s key).1

/-- The calls of a sequence applied in order to a freshly constructed set. -/
def run_fresh (fuel : Nat) (ops : List (Op Key)) : Option (ADS_set Key) :=
  match ctor N hash fuel with
  | none => none
  | some s => run N hash fuel ops s

/-- The wording of the specification: `k` was inserted and not erased after its
last insertion, that is, some `insert(k)` of the sequence has no `erase(k)` after it. -/
def inserted_and_not_erased (ops : List (Op Key)) (k : Key) : Prop :=
  ∃ pre post, ops = pre ++ Op.insert k :: post ∧ Op.erase k ∉ post

/-- Whether `k` is a member after the calls `ops` when `b` tells whether it was
one before: the last call that names `k` decides. -/
def track (k : Key) : List (Op Key) → Bool → Bool
  | [], b => b
  | Op.insert key :: ops, b => track k ops (if key = k then true else b)
  | Op.erase key :: ops, b => track k ops (if key = k then false else b)

/-- The cursor after `j` applications of `++` to `begin()`. -/
def cursor_after (s : ADS_set Key) (j : Nat) : Iterator Key :=
  Iterator.increment^[j] (begin s)

/-- The dereferences `*it` met on the first `size()` positions of a traversal
that starts at `begin()`. -/
def visited (s : ADS_set Key) : List (Option Key) :=
  (List.range (size s)).map (fun j => (cursor_after s j).deref)

/-- The wording of the specification: the capacities `c, 2c+1, 2(2c+1)+1, ...`. -/
def capacity_seq (c : Nat) (j : Nat) : Nat :=
  (fun x => 2 * x + 1)^[j] c

/-- A sample set for `N = 7` and the identity hash: the keys 1, 8 and 3, with 1
and 8 chained in bucket 1. -/
def sample_set : ADS_set Nat :=
  { table := [[], [8, 1], [], [3], [], [], []], table_size := 7, curr_size := 3 }

/-- A sample set for `N = 1` and the identity hash that is full: two keys in
one bucket, so that the next new key needs a larger table. -/
def full_set : ADS_set Nat :=
  { table := [[5, 4]], table_size := 1, curr_size := 2 }

/-- The keys of `sample_set` inserted in another order: bucket 1 is chained the
other way round. -/
def sample_set_reordered : ADS_set Nat :=
  { table := [[], [1, 8], [], [3], [], [], []], table_size := 7, curr_size := 3 }

/-- A sample set for `N = 7` and the identity hash that holds the key 1 only. -/
def singleton_set : ADS_set Nat :=
  { table := [[], [1], [], [], [], [], []], table_size := 7, curr_size := 1 }

/-- The copy assignment `operator=(const ADS_set& other)`: nothing happens when
`other` is the object itself (`same_object`), otherwise `ADS_set tmp{other};
swap(tmp);` leaves the copy in the left operand and `tmp`, which now holds the
old chains of the left operand, is destroyed. -/
def copy_assign (fuel steps : Nat) (this other : ADS_set Key) (same_object : Bool) :
    Option (ADS_set Key) :=
  if same_object then some this
  else
    match copy N hash fuel steps other with
    | none => none
    | some tmp =>
        match destroy (swap this tmp).2 with
        | none => none
        | some _ => some (swap this tmp).1

/-- A call of the public interface: `insert(key)`, `erase(key)`, `clear()`,
`count(key)`, `size()`, `empty()`. -/
inductive Call (Key : Type) where
  | insert (key : Key)
  | erase (key : Key)
  | clear
  | count (key : Key)
  | size
  | empty
deriving DecidableEq, Repr

/-- What a call returns: the flag of `insert`, the number of `erase`, `count`
and `size`, the truth value of `empty`, nothing for `clear`. -/
inductive Answer where
  | flag (b : Bool)
  | number (n : Nat)
  | truth (b : Bool)
  | nothing
deriving DecidableEq, Repr

/-- Whether `h(key)` is defined on the state: `hasher{}(key) % table_size` has a
modulus that is not zero. -/
def h_defined (s : ADS_set Key) : Bool :=
  decide (s.table_size ≠ 0)

/-- One call on the state `s`: the new state and the answer, or `none` when the
call has no defined result, because it evaluates `h(key)` with `table_size = 0`
(`insert`, `erase` and `count` start with `find_`), because it frees a chain
(see `free_chain`) or because the fuel ran out. -/
def call (fuel : Nat) (s : ADS_set Key) : Call Key → Option (ADS_set Key × Answer)
  | Call.insert key =>
      if h_defined s then
        match insert N hash fuel s key with
        | none => none
        | some r => some (r.1, Answer.flag r.2.2)
      else none
  | Call.erase key =>
      if h_defined s then some ((erase hash s key).1, Answer.number (erase hash s key).2)
      else none
  | Call.clear =>
      match clear N hash fuel s with
      | none => none
      | some s1 => some (s1, Answer.nothing)
  | Call.count key =>
      if h_defined s then some (s, Answer.number (count hash s key)) else none
  | Call.size => some (s, Answer.number (size s))
  | Call.empty => some (s, Answer.truth (empty s))

/-- The answers of a sequence of calls applied in order to the state `s`. -/
def calls (fuel : Nat) : List (Call Key) → ADS_set Key → Option (List Answer)
  | [], _ => some []
  | c :: cs, s =>
      match call N hash fuel s c with
      | none => none
      | some r =>
          match calls fuel cs r.1 with
          | none => none
          | some answers => some (r.2 :: answers)

/-- The answers of a sequence of calls applied to a freshly constructed set. -/
def calls_fresh (fuel : Nat) (cs : List (Call Key)) : Option (List Answer) :=
  match ctor N hash fuel with
  | none => none
  | some s => calls N hash fuel cs s

/-- The observable semantics of one call on a mathematical set of keys. -/
def model_call (S : Finset Key) : Call Key → Finset Key × Answer
  | Call.insert key => (Insert.insert key S, Answer.flag (decide (key ∉ S)))
  | Call.erase key => (S.erase key, Answer.number (if key ∈ S then 1 else 0))
  | Call.clear => (∅, Answer.nothing)
  | Call.count key => (S, Answer.number (if key ∈ S then 1 else 0))
  | Call.size => (S, Answer.number S.card)
  | Call.empty => (S, Answer.truth (S.card == 0))

/-- The observable semantics of a sequence of calls on a mathematical set of keys. -/
def model_calls : Finset Key → List (Call Key) → List Answer
  | _, [] => []
  | S, c :: cs => (model_call S c).2 :: model_calls (model_call S c).1 cs

/-- The indices `i` of the accesses `table[i]` in the loop of `begin`, in order;
the first argument is `table_size - i`. -/
def begin_loop_accesses (s : ADS_set Key) : Nat → Nat → List Nat
  | 0, _ => []
  | fuel + 1, i =>
      i :: (if bucket s.table i ≠ [] then [] else begin_loop_accesses s fuel (i + 1))

/-- The indices of the accesses `table[i]` of `begin`. -/
def begin_accesses (s : ADS_set Key) : List Nat :=
  begin_loop_accesses s s.table_size 0

/-- The indices `idx` of the accesses `table[idx]` in the loop of
`Iterator::operator++`, in order; the first argument is `table_size - idx`. -/
def Iterator.inc_loop_accesses : Nat → Iterator Key → List Nat
  | 0, _ => []
  | fuel + 1, it =>
      if it.idx < it.table_size then
        if it.pos.tail ≠ [] then []
        else if it.idx + 1 = it.table_size then []
        else (it.idx + 1) ::
          (if bucket it.table (it.idx + 1) ≠ [] then []
           else Iterator.inc_loop_accesses fuel { it with idx := it.idx + 1 })
      else []

/-- The indices of the accesses `table[idx]` of `Iterator::operator++`. -/
def Iterator.increment_accesses (it : Iterator Key) : List Nat :=
  Iterator.inc_loop_accesses (it.table_size - it.idx) it

/-- Whether a call stays within the defined behaviour of a table of `N` buckets
that holds the set `S` of keys: the `insert` of a new key needs room for it
(`|S| + 1 ≤ 2 * N`, otherwise the table has to grow), and `clear` needs a set
without keys (otherwise chains are freed). -/
def model_defined (S : Finset Key) : Call Key → Bool
  | Call.insert key => decide (key ∈ S ∨ S.card + 1 ≤ 2 * N)
  | Call.clear => decide (S.card = 0)
  | _ => true

/-- Whether every call of a sequence stays within the defined behaviour of a
table of `N` buckets that starts with the set `S` of keys. -/
def model_fits : Finset Key → List (Call Key) → Bool
  | _, [] => true
  | S, c :: cs => model_defined N S c && model_fits (model_call S c).1 cs

end Definitions

section ListLemmas

variable {Key : Type} [DecidableEq Key]

theorem bucket_of_lt (t : List (List Key)) (i : Nat) (hi : i < t.length) :
    bucket t i = t[i] := by
  simp [bucket, List.getD_eq_getElem?_getD, List.getElem?_eq_getElem hi]

theorem bucket_of_ge (t : List (List Key)) (i : Nat) (hi : t.length ≤ i) :
    bucket t i = [] := by
  simp [bucket, List.getD_eq_getElem?_getD, List.getElem?_eq_none hi]

theorem length_set_bucket (t : List (List Key)) (i : Nat) (c : List Key) :
    (set_bucket t i c).length = t.length := by
  simp [set_bucket]

theorem bucket_set_self (t : List (List Key)) (i : Nat) (c : List Key) (hi : i < t.length) :
    bucket (set_bucket t i c) i = c := by
  simp [bucket, set_bucket, List.getD_eq_getElem?_getD, List.getElem?_set, hi]

theorem bucket_set_ne (t : List (List Key)) (i j : Nat) (c : List Key) (hij : i ≠ j) :
    bucket (set_bucket t i c) j = bucket t j := by
  simp [bucket, set_bucket, List.getD_eq_getElem?_getD, List.getElem?_set, hij]

theorem table_split (t : List (List Key)) (i : Nat) (hi : i < t.length) :
    t = t.take i ++ bucket t i :: t.drop (i + 1) := by
  rw [bucket_of_lt t i hi, ← List.drop_eq_getElem_cons hi, List.take_append_drop]

theorem flatten_split (t : List (List Key)) (i : Nat) (hi : i < t.length) :
    t.flatten = (t.take i).flatten ++ (bucket t i ++ (t.drop (i + 1)).flatten) := by
  conv_lhs => rw [table_split t i hi]
  simp

theorem flatten_set_bucket (t : List (List Key)) (i : Nat) (c : List Key) (hi : i < t.length) :
    (set_bucket t i c).flatten = (t.take i).flatten ++ (c ++ (t.drop (i + 1)).flatten) := by
  simp [set_bucket, List.set_eq_take_append_cons_drop, hi]

theorem mem_bucket_imp_lt {t : List (List Key)} {i : Nat} {k : Key} (hk : k ∈ bucket t i) :
    i < t.length := by
  by_contra hge
  rw [bucket_of_ge t i (Nat.le_of_not_lt hge)] at hk
  simp at hk

theorem mem_flatten_iff_bucket (t : List (List Key)) (k : Key) :
    k ∈ t.flatten ↔ ∃ i, k ∈ bucket t i := by
  constructor
  · intro hk
    obtain ⟨c, hc, hkc⟩ := List.mem_flatten.mp hk
    obtain ⟨i, hi, rfl⟩ := List.mem_iff_getElem.mp hc
    exact ⟨i, by rw [bucket_of_lt t i hi]; exact hkc⟩
  · rintro ⟨i, hk⟩
    have hi := mem_bucket_imp_lt hk
    rw [bucket_of_lt t i hi] at hk
    exact List.mem_flatten.mpr ⟨t[i], List.getElem_mem hi, hk⟩

theorem flatMap_range_bucket (t : List (List Key)) (n : Nat) (hn : n ≤ t.length) :
    (List.range n).flatMap (fun idx => bucket t idx) = (t.take n).flatten := by
  induction n with
  | zero => simp
  | succ n ih =>
      have hlt : n < t.length := hn
      rw [List.range_succ, List.flatMap_append, ih (Nat.le_of_lt hlt), List.take_succ,
        List.getElem?_eq_getElem hlt, List.flatten_append]
      simp [bucket_of_lt t n hlt]

theorem collect_eq (s : ADS_set Key) (hlen : s.table.length = s.table_size) :
    collect s = s.table.flatten := by
  unfold collect
  rw [flatMap_range_bucket s.table s.table_size (by omega), ← hlen, List.take_length]

end ListLemmas
section CoreLemmas

variable {Key : Type} [DecidableEq Key] (N : Nat) (hash : Key → Nat)

theorem find_loop_nil_iff (key : Key) (c : List Key) : find_loop key c = [] ↔ key ∉ c := by
  induction c with
  | nil => simp [find_loop]
  | cons k c ih =>
      by_cases hk : k = key
      · simp [find_loop, hk]
      · simp [find_loop, hk, ih, Ne.symm hk]

theorem find_loop_split (key : Key) (c : List Key) :
    ∃ pre, c = pre ++ find_loop key c ∧ key ∉ pre := by
  induction c with
  | nil => exact ⟨[], by simp [find_loop]⟩
  | cons k c ih =>
      by_cases hk : k = key
      · exact ⟨[], by simp [find_loop, hk]⟩
      · obtain ⟨pre, hpre, hnot⟩ := ih
        refine ⟨k :: pre, ?_, ?_⟩
        · simp only [find_loop, hk, if_false, List.cons_append]
          rw [← hpre]
        · simp [hnot, Ne.symm hk]

theorem find_loop_head (key : Key) (c : List Key) (hne : find_loop key c ≠ []) :
    ∃ tl, find_loop key c = key :: tl := by
  induction c with
  | nil => simp [find_loop] at hne
  | cons k c ih =>
      by_cases hk : k = key
      · exact ⟨c, by simp [find_loop, hk]⟩
      · simp only [find_loop, hk, if_false] at hne ⊢
        exact ih hne

theorem find__eq (s : ADS_set Key) (key : Key) :
    find_ hash s key = find_loop key (bucket s.table (h hash s key)) := by
  unfold find_
  by_cases hb : bucket s.table (h hash s key) = []
  · simp [hb, find_loop]
  · simp [hb]

theorem h_lt (s : ADS_set Key) (key : Key) (hpos : 0 < s.table_size) :
    h hash s key < s.table_size :=
  Nat.mod_lt _ hpos

theorem find__ne_nil_iff {s : ADS_set Key} (hwf : Wf hash s) (key : Key) :
    find_ hash s key ≠ [] ↔ key ∈ keys s := by
  rw [find__eq, Ne, find_loop_nil_iff, not_not, keys, mem_flatten_iff_bucket]
  constructor
  · intro hk
    exact ⟨_, hk⟩
  · rintro ⟨i, hk⟩
    have := hwf.home i key hk
    unfold h
    rw [this]
    exact hk

theorem count_eq {s : ADS_set Key} (hwf : Wf hash s) (key : Key) :
    count hash s key = if key ∈ keys s then 1 else 0 := by
  unfold count
  by_cases hk : key ∈ keys s
  · have := (find__ne_nil_iff hash hwf key).mpr hk
    simp [hk, this]
  · have : find_ hash s key = [] := by
      by_contra hne
      exact hk ((find__ne_nil_iff hash hwf key).mp hne)
    simp [hk, this]

theorem push_head_table_size (s : ADS_set Key) (key : Key) :
    (push_head hash s key).table_size = s.table_size := rfl

theorem push_head_curr_size (s : ADS_set Key) (key : Key) :
    (push_head hash s key).curr_size = s.curr_size + 1 := rfl

theorem push_head_length (s : ADS_set Key) (key : Key) :
    (push_head hash s key).table.length = s.table.length := by
  simp [push_head, length_set_bucket]

theorem push_head_keys_perm (s : ADS_set Key) (key : Key)
    (hlen : s.table.length = s.table_size) (hpos : 0 < s.table_size) :
    (keys (push_head hash s key)).Perm (key :: keys s) := by
  have hi : h hash s key < s.table.length := by
    rw [hlen]; exact h_lt hash s key hpos
  unfold keys push_head
  simp only
  rw [flatten_set_bucket _ _ _ hi]
  conv_rhs => rw [flatten_split s.table _ hi]
  simp only [List.cons_append]
  exact List.perm_middle

theorem push_head_wf {s : ADS_set Key} (hwf : Wf hash s) (key : Key) (hk : key ∉ keys s) :
    Wf hash (push_head hash s key) := by
  have hi : h hash s key < s.table.length := by
    rw [hwf.len]; exact h_lt hash s key hwf.pos
  have hperm := push_head_keys_perm hash s key hwf.len hwf.pos
  refine ⟨?_, hwf.pos, ?_, ?_, ?_⟩
  · rw [push_head_length]; exact hwf.len
  · intro i k hmem
    rw [push_head_table_size]
    by_cases hih : h hash s key = i
    · subst hih
      simp only [push_head] at hmem
      rw [bucket_set_self _ _ _ hi] at hmem
      rcases List.mem_cons.mp hmem with rfl | hmem
      · rfl
      · exact hwf.home _ k hmem
    · simp only [push_head] at hmem
      rw [bucket_set_ne _ _ _ _ hih] at hmem
      exact hwf.home i k hmem
  · rw [hperm.nodup_iff]
    exact List.nodup_cons.mpr ⟨hk, hwf.nodup⟩
  · rw [push_head_curr_size, hperm.length_eq, List.length_cons, hwf.card]

end CoreLemmas
section FreeLemmas

variable {Key : Type} [DecidableEq Key]

theorem free_table_loop_eq (table : List (List Key)) :
    ∀ (fuel idx : Nat), free_table_loop table fuel idx =
      if (List.range' idx fuel).flatMap (fun i => bucket table i) = [] then some () else none := by
  intro fuel
  induction fuel with
  | zero => intro idx; simp [free_table_loop]
  | succ fuel ih =>
      intro idx
      rw [free_table_loop, List.range'_succ, List.flatMap_cons]
      cases hb : bucket table idx with
      | nil =>
          simp only [free_chain, List.nil_append]
          exact ih (idx + 1)
      | cons k c => simp [free_chain]

/-- The loops that free a bucket array are defined exactly when no chain of the
array holds a node. -/
theorem free_table_eq (s : ADS_set Key) :
    free_table s.table s.table_size = if collect s = [] then some () else none := by
  unfold free_table collect
  rw [free_table_loop_eq, List.range_eq_range']

theorem destroy_eq (s : ADS_set Key) :
    destroy s = if collect s = [] then some () else none :=
  free_table_eq s

theorem destroy_of_keys {s : ADS_set Key} (hlen : s.table.length = s.table_size) :
    destroy s = if keys s = [] then some () else none := by
  rw [destroy_eq, collect_eq s hlen]
  rfl

end FreeLemmas
section InsertLemmas

variable {Key : Type} [DecidableEq Key] (N : Nat) (hash : Key → Nat)

theorem push_all_nil (s : ADS_set Key) : push_all hash s [] = s := rfl

theorem push_all_cons (s : ADS_set Key) (k : Key) (v : List Key) :
    push_all hash s (k :: v) = push_all hash (push_head hash s k) v := rfl

theorem push_all_table_size (s : ADS_set Key) (v : List Key) :
    (push_all hash s v).table_size = s.table_size := by
  induction v generalizing s with
  | nil => rfl
  | cons k v ih => rw [push_all_cons, ih, push_head_table_size]

theorem push_all_curr_size (s : ADS_set Key) (v : List Key) :
    (push_all hash s v).curr_size = s.curr_size + v.length := by
  induction v generalizing s with
  | nil => rfl
  | cons k v ih => rw [push_all_cons, ih, push_head_curr_size, List.length_cons]; omega

theorem push_all_wf {s : ADS_set Key} (hwf : Wf hash s) (v : List Key) (hv : v.Nodup)
    (hdisj : ∀ k ∈ v, k ∉ keys s) :
    Wf hash (push_all hash s v) ∧ (keys (push_all hash s v)).Perm (v ++ keys s) := by
  induction v generalizing s with
  | nil => exact ⟨hwf, List.Perm.refl _⟩
  | cons k v ih =>
      have hk : k ∉ keys s := hdisj k (List.mem_cons_self _ _)
      have hwf1 := push_head_wf hash hwf k hk
      have hperm1 := push_head_keys_perm hash s k hwf.len hwf.pos
      have hnd := List.nodup_cons.mp hv
      have hdisj1 : ∀ x ∈ v, x ∉ keys (push_head hash s k) := by
        intro x hx hmem
        rcases List.mem_cons.mp (hperm1.subset hmem) with rfl | hmem1
        · exact hnd.1 hx
        · exact hdisj x (List.mem_cons_of_mem _ hx) hmem1
      obtain ⟨hwf2, hperm2⟩ := ih hwf1 hnd.2 hdisj1
      refine ⟨hwf2, ?_⟩
      rw [push_all_cons]
      refine hperm2.trans ?_
      refine (List.Perm.append_left v hperm1).trans ?_
      simp

theorem fresh_keys (m : Nat) : keys (fresh m : ADS_set Key) = [] := by
  simp [keys, fresh]

theorem fresh_wf (m : Nat) (hm : 0 < m) : Wf hash (fresh m : ADS_set Key) := by
  refine ⟨by simp [fresh], hm, ?_, ?_, ?_⟩
  · intro i k hk
    have hk2 : k ∈ keys (fresh m : ADS_set Key) :=
      (mem_flatten_iff_bucket _ k).mpr ⟨i, hk⟩
    rw [fresh_keys] at hk2
    simp at hk2
  · rw [fresh_keys]; exact List.nodup_nil
  · rw [fresh_keys]; rfl

theorem insert__zero (s : ADS_set Key) (key : Key) : insert_ N hash 0 s key = none := rfl

theorem insert__succ (fuel : Nat) (s : ADS_set Key) (key : Key) :
    insert_ N hash (fuel + 1) s key =
      reserve_with N (insert_ N hash fuel) (push_head hash s key)
        (push_head hash s key).curr_size := rfl

theorem insert__no_grow (fuel : Nat) (s : ADS_set Key) (key : Key)
    (hload : s.curr_size + 1 ≤ 2 * s.table_size) :
    insert_ N hash (fuel + 1) s key = some (push_head hash s key) := by
  rw [insert__succ, reserve_with, push_head_curr_size, push_head_table_size]
  have : ¬ s.curr_size + 1 > s.table_size * 2 := by omega
  simp [this]

theorem reinsert_push (fuel : Nat) (v : List Key) (s : ADS_set Key)
    (hload : s.curr_size + v.length ≤ 2 * s.table_size) :
    reinsert (insert_ N hash (fuel + 1)) v s = some (push_all hash s v) := by
  induction v generalizing s with
  | nil => rfl
  | cons k v ih =>
      simp only [List.length_cons] at hload
      rw [reinsert, insert__no_grow N hash fuel s k (by omega)]
      simp only
      rw [ih, push_all_cons]
      rw [push_head_curr_size, push_head_table_size]
      omega

theorem reinsert_zero (v : List Key) (s : ADS_set Key) (hv : v ≠ []) :
    reinsert (insert_ N hash 0) v s = none := by
  cases v with
  | nil => exact absurd rfl hv
  | cons k v => rfl

theorem collect_push_head_length {s : ADS_set Key} (hlen : s.table.length = s.table_size)
    (hpos : 0 < s.table_size) (key : Key) :
    (collect (push_head hash s key)).length = (keys s).length + 1 := by
  rw [collect_eq _ (by rw [push_head_length, push_head_table_size]; exact hlen)]
  exact (push_head_keys_perm hash s key hlen hpos).length_eq

theorem rehash_with_push_head_undefined (ins : ADS_set Key → Key → Option (ADS_set Key))
    (s : ADS_set Key) (hlen : s.table.length = s.table_size) (hpos : 0 < s.table_size)
    (key : Key) (n : Nat) :
    rehash_with N ins (push_head hash s key) n = none := by
  have hne : collect (push_head hash s key) ≠ [] := by
    intro hnil
    have hl := collect_push_head_length hash hlen hpos key
    rw [hnil] at hl
    simp at hl
  unfold rehash_with
  simp only
  cases reinsert ins (collect (push_head hash s key))
      (fresh (max N (max n (push_head hash s key).curr_size))) with
  | none => rfl
  | some s1 => simp [free_table_eq, hne]

/-- When the table is full (`curr_size + 1 > 2 * table_size`), `insert_` calls
`rehash` on a table that holds at least the new node, whose chain the free loop
of `rehash` walks after `delete`: the call has no defined result, whatever the
fuel. -/
theorem insert__grow_undefined (s : ADS_set Key) (hlen : s.table.length = s.table_size)
    (hpos : 0 < s.table_size) (key : Key) (hfull : ¬ s.curr_size + 1 ≤ 2 * s.table_size)
    (fuel : Nat) :
    insert_ N hash fuel s key = none := by
  cases fuel with
  | zero => rfl
  | succ f =>
      rw [insert__succ, reserve_with, push_head_curr_size, push_head_table_size,
        if_pos (by omega)]
      exact rehash_with_push_head_undefined N hash _ s hlen hpos key _

/-- With one level of `insert_` available, `insert_` returns exactly when the
table has room for one more entry, and then the new node is the head of its
bucket. -/
theorem insert__eq (s : ADS_set Key) (hlen : s.table.length = s.table_size)
    (hpos : 0 < s.table_size) (key : Key) (fuel : Nat) (hfuel : 1 ≤ fuel) :
    insert_ N hash fuel s key =
      if s.curr_size + 1 ≤ 2 * s.table_size then some (push_head hash s key) else none := by
  obtain ⟨f, rfl⟩ : ∃ f, fuel = f + 1 := ⟨fuel - 1, by omega⟩
  by_cases hl : s.curr_size + 1 ≤ 2 * s.table_size
  · rw [if_pos hl, insert__no_grow N hash f s key hl]
  · rw [if_neg hl, insert__grow_undefined N hash s hlen hpos key hl]

/-- Whatever fuel made `insert_` return, the table had room and the new node is
the head of its bucket. -/
theorem insert__returns {s : ADS_set Key} (hwf : Wf hash s) (key : Key) (fuel : Nat)
    (s1 : ADS_set Key) (hs : insert_ N hash fuel s key = some s1) :
    s.curr_size + 1 ≤ 2 * s.table_size ∧ s1 = push_head hash s key := by
  cases fuel with
  | zero => simp [insert__zero] at hs
  | succ f =>
      rw [insert__eq N hash s hwf.len hwf.pos key (f + 1) (by omega)] at hs
      by_cases hl : s.curr_size + 1 ≤ 2 * s.table_size
      · rw [if_pos hl] at hs
        exact ⟨hl, (Option.some.inj hs).symm⟩
      · rw [if_neg hl] at hs
        simp at hs

/-- Whatever fuel made `insert_` return, it returned the state `insert_result`. -/
theorem insert__result {s : ADS_set Key} (hwf : Wf hash s) (key : Key) (fuel : Nat)
    (s1 : ADS_set Key) (hs : insert_ N hash fuel s key = some s1) :
    s1 = insert_result N hash s key := by
  obtain ⟨hl, rfl⟩ := insert__returns N hash hwf key fuel s1 hs
  rw [insert_result]
  simp only [push_head_curr_size, push_head_table_size]
  rw [if_neg (by omega)]

end InsertLemmas
section InvLemmas

variable {Key : Type} [DecidableEq Key] (N : Nat) (hash : Key → Nat)

theorem grow_loop_once (c : Nat) : grow_loop (2 * c + 1) (2 * c + 1) c = 2 * c + 1 := by
  have : ¬ 2 * c + 1 > (c * 2 + 1) * 2 := by omega
  show grow_loop (2 * c + 1) (2 * c + 1) c = _
  rw [show 2 * c + 1 = (2 * c) + 1 from rfl]
  simp only [grow_loop]
  rw [if_neg (by omega)]
  omega

theorem insert_result_no_grow (s : ADS_set Key) (key : Key)
    (hload : s.curr_size + 1 ≤ 2 * s.table_size) :
    insert_result N hash s key = push_head hash s key := by
  rw [insert_result]
  simp only [push_head_curr_size, push_head_table_size]
  rw [if_neg (by omega)]

theorem insert_result_grow (s : ADS_set Key) (key : Key) (hcap : N ≤ s.table_size)
    (hload : s.curr_size = 2 * s.table_size) :
    insert_result N hash s key =
      push_all hash (fresh (2 * s.table_size + 1)) (collect (push_head hash s key)) := by
  rw [insert_result]
  simp only [push_head_curr_size, push_head_table_size]
  rw [if_pos (by omega), hload, grow_loop_once]
  congr 2
  omega

theorem insert_result_table_size {s : ADS_set Key} (hinv : Inv N hash s) (key : Key) :
    (insert_result N hash s key).table_size =
      if s.curr_size + 1 ≤ 2 * s.table_size then s.table_size else 2 * s.table_size + 1 := by
  by_cases hl : s.curr_size + 1 ≤ 2 * s.table_size
  · rw [if_pos hl, insert_result_no_grow N hash s key hl, push_head_table_size]
  · rw [if_neg hl, insert_result_grow N hash s key hinv.cap (by have := hinv.load; omega),
      push_all_table_size]
    rfl

theorem insert_result_inv {s : ADS_set Key} (hinv : Inv N hash s) (key : Key)
    (hk : key ∉ keys s) :
    Inv N hash (insert_result N hash s key) ∧
      (keys (insert_result N hash s key)).Perm (key :: keys s) := by
  have hwf1 := push_head_wf hash hinv.wf key hk
  have hperm1 := push_head_keys_perm hash s key hinv.wf.len hinv.wf.pos
  by_cases hl : s.curr_size + 1 ≤ 2 * s.table_size
  · rw [insert_result_no_grow N hash s key hl]
    refine ⟨⟨hwf1, ?_, ?_⟩, hperm1⟩
    · rw [push_head_table_size]; exact hinv.cap
    · rw [push_head_table_size, push_head_curr_size]; exact hl
  · have hfull : s.curr_size = 2 * s.table_size := by have := hinv.load; omega
    rw [insert_result_grow N hash s key hinv.cap hfull]
    have hcol : collect (push_head hash s key) = keys (push_head hash s key) :=
      collect_eq _ hwf1.len
    rw [hcol]
    obtain ⟨hwf2, hperm2⟩ := push_all_wf hash
      (fresh_wf hash (2 * s.table_size + 1) (by omega)) (keys (push_head hash s key))
      hwf1.nodup (by intro k _; rw [fresh_keys]; simp)
    rw [fresh_keys, List.append_nil] at hperm2
    refine ⟨⟨hwf2, ?_, ?_⟩, hperm2.trans hperm1⟩
    · rw [push_all_table_size]
      show N ≤ 2 * s.table_size + 1
      have := hinv.cap
      omega
    · rw [push_all_table_size, push_all_curr_size]
      show 0 + (keys (push_head hash s key)).length ≤ 2 * (2 * s.table_size + 1)
      rw [hperm1.length_eq, List.length_cons, ← hinv.wf.card]
      omega

theorem unlink_find_loop (key : Key) (c : List Key) (hk : key ∈ c)
    (hne : find_loop key c ≠ c) :
    unlink (find_loop key c) c = c.erase key := by
  induction c with
  | nil => simp at hk
  | cons k c ih =>
      by_cases hkk : k = key
      · exact absurd (by simp [find_loop, hkk]) hne
      · have hkc : key ∈ c := by
          rcases List.mem_cons.mp hk with rfl | hkc
          · exact absurd rfl hkk
          · exact hkc
        have hfl : find_loop key (k :: c) = find_loop key c := by simp [find_loop, hkk]
        rw [hfl, List.erase_cons]
        have hbeq : ¬ (k == key) = true := by simpa using hkk
        rw [if_neg hbeq, unlink]
        by_cases hp : c = find_loop key c
        · rw [if_pos hp]
          congr 1
          have hnil : find_loop key c ≠ [] := by
            rw [Ne, find_loop_nil_iff]; exact fun hx => hx hkc
          obtain ⟨tl, htl⟩ := find_loop_head key c hnil
          rw [htl] at hp
          rw [hp]
          simp
        · rw [if_neg hp]
          congr 1
          exact ih hkc (fun hx => hp hx.symm)

theorem tail_eq_erase (key : Key) (c : List Key) (hk : key ∈ c)
    (heq : find_loop key c = c) : c.tail = c.erase key := by
  have hnil : find_loop key c ≠ [] := by
    rw [Ne, find_loop_nil_iff]; exact fun hx => hx hk
  obtain ⟨tl, htl⟩ := find_loop_head key c hnil
  rw [heq] at htl
  rw [htl]
  simp

/-- The chain of bucket `h(key)` after `erase` when the key is stored. -/
theorem erase_present {s : ADS_set Key} (hwf : Wf hash s) (key : Key) (hk : key ∈ keys s) :
    erase hash s key =
      ({ s with
         table := set_bucket s.table (h hash s key)
           ((bucket s.table (h hash s key)).erase key)
         curr_size := s.curr_size - 1 }, 1) := by
  have hne := (find__ne_nil_iff hash hwf key).mpr hk
  have hmem : key ∈ bucket s.table (h hash s key) := by
    rw [find__eq, Ne, find_loop_nil_iff, not_not] at hne
    exact hne
  unfold erase
  simp only [hne, if_true, ne_eq, not_false_eq_true]
  rw [find__eq]
  by_cases hp : find_loop key (bucket s.table (h hash s key)) = bucket s.table (h hash s key)
  · simp only [hp, not_true_eq_false, if_false]
    rw [tail_eq_erase key _ hmem hp]
  · simp only [hp, not_false_eq_true, if_true]
    rw [unlink_find_loop key _ hmem hp]

theorem erase_absent {s : ADS_set Key} (hwf : Wf hash s) (key : Key) (hk : key ∉ keys s) :
    erase hash s key = (s, 0) := by
  have hnil : find_loop key (bucket s.table (h hash s key)) = [] := by
    have := (find__ne_nil_iff hash hwf key).not.mpr hk
    rw [find__eq] at this
    simpa using this
  unfold erase
  simp [find__eq, hnil]

theorem erase_keys {s : ADS_set Key} (hwf : Wf hash s) (key : Key) (hk : key ∈ keys s) :
    keys (erase hash s key).1 = (keys s).erase key := by
  have hi : h hash s key < s.table.length := by
    rw [hwf.len]; exact h_lt hash s key hwf.pos
  have hmem : key ∈ bucket s.table (h hash s key) := by
    have hne := (find__ne_nil_iff hash hwf key).mpr hk
    rw [find__eq, Ne, find_loop_nil_iff, not_not] at hne
    exact hne
  have hnd := hwf.nodup
  rw [erase_present hash hwf key hk]
  unfold keys at hnd ⊢
  simp only
  rw [flatten_set_bucket _ _ _ hi]
  rw [flatten_split s.table _ hi] at hnd ⊢
  have hnot : key ∉ (List.take (h hash s key) s.table).flatten := by
    intro hx
    exact (List.nodup_append.mp hnd).2.2 hx (List.mem_append_left _ hmem)
  rw [List.erase_append_right _ hnot, List.erase_append_left _ hmem]

end InvLemmas
section EraseInv

variable {Key : Type} [DecidableEq Key] (N : Nat) (hash : Key → Nat)

theorem erase_wf {s : ADS_set Key} (hwf : Wf hash s) (key : Key) :
    Wf hash (erase hash s key).1 := by
  by_cases hk : key ∈ keys s
  · have hkeys := erase_keys hash hwf key hk
    have hi : h hash s key < s.table.length := by
      rw [hwf.len]; exact h_lt hash s key hwf.pos
    refine ⟨?_, ?_, ?_, ?_, ?_⟩
    · rw [erase_present hash hwf key hk]
      simp only [length_set_bucket]
      exact hwf.len
    · rw [erase_present hash hwf key hk]
      exact hwf.pos
    · rw [erase_present hash hwf key hk]
      intro i k hmem
      simp only at hmem ⊢
      by_cases hih : h hash s key = i
      · subst hih
        rw [bucket_set_self _ _ _ hi] at hmem
        exact hwf.home _ k (List.mem_of_mem_erase hmem)
      · rw [bucket_set_ne _ _ _ _ hih] at hmem
        exact hwf.home i k hmem
    · rw [hkeys]
      exact hwf.nodup.erase key
    · rw [hkeys, List.length_erase_of_mem hk, erase_present hash hwf key hk]
      simp only
      rw [hwf.card]
  · rw [erase_absent hash hwf key hk]
    exact hwf

theorem erase_inv {s : ADS_set Key} (hinv : Inv N hash s) (key : Key) :
    Inv N hash (erase hash s key).1 := by
  refine ⟨erase_wf hash hinv.wf key, ?_, ?_⟩
  · by_cases hk : key ∈ keys s
    · rw [erase_present hash hinv.wf key hk]; exact hinv.cap
    · rw [erase_absent hash hinv.wf key hk]; exact hinv.cap
  · by_cases hk : key ∈ keys s
    · rw [erase_present hash hinv.wf key hk]
      have := hinv.load
      simp only
      omega
    · rw [erase_absent hash hinv.wf key hk]; exact hinv.load

end EraseInv

section IteratorLemmas

variable {Key : Type} [DecidableEq Key]

theorem end_valid : (end_ : Iterator Key).Valid :=
  ⟨rfl, fun hx => absurd rfl hx, fun _ => Nat.le_refl _⟩

theorem end_remaining : (end_ : Iterator Key).remaining = [] := rfl

theorem valid_remaining_of_pos_nil {it : Iterator Key} (hv : it.Valid) (hp : it.pos = []) :
    it.remaining = [] := by
  unfold Iterator.remaining
  rw [hp, List.nil_append, List.drop_of_length_le, List.flatten_nil]
  have := hv.past hp
  rw [hv.len]
  omega

theorem drop_flatten_succ (t : List (List Key)) (i : Nat) (hi : i < t.length) :
    (t.drop i).flatten = bucket t i ++ (t.drop (i + 1)).flatten := by
  rw [List.drop_eq_getElem_cons hi, List.flatten_cons, bucket_of_lt t i hi]

theorem begin_loop_spec (s : ADS_set Key) (hlen : s.table.length = s.table_size) :
    ∀ (fuel i : Nat), fuel + i = s.table_size →
      (begin_loop s fuel i).Valid ∧
        (begin_loop s fuel i).remaining = (s.table.drop i).flatten := by
  intro fuel
  induction fuel with
  | zero =>
      intro i hi
      refine ⟨end_valid, ?_⟩
      rw [begin_loop, end_remaining, List.drop_of_length_le (by omega), List.flatten_nil]
  | succ fuel ih =>
      intro i hi
      have hil : i < s.table.length := by omega
      rw [begin_loop]
      by_cases hb : bucket s.table i = []
      · simp only [hb, ne_eq, not_true_eq_false, if_false]
        obtain ⟨hv, hr⟩ := ih (i + 1) (by omega)
        refine ⟨hv, ?_⟩
        rw [hr, drop_flatten_succ s.table i hil, hb, List.nil_append]
      · simp only [hb, ne_eq, not_false_eq_true, if_true]
        refine ⟨⟨hlen, fun _ => by show i < s.table_size; omega, fun hx => absurd hx hb⟩, ?_⟩
        show bucket s.table i ++ (s.table.drop (i + 1)).flatten = _
        rw [drop_flatten_succ s.table i hil]

theorem begin_spec (s : ADS_set Key) (hlen : s.table.length = s.table_size) :
    (begin s).Valid ∧ (begin s).remaining = keys s := by
  have := begin_loop_spec s hlen s.table_size 0 (by omega)
  simpa [begin, keys] using this

theorem inc_loop_scan :
    ∀ (fuel : Nat) (it : Iterator Key), it.table.length = it.table_size →
      it.pos.tail = [] → fuel + it.idx = it.table_size → it.idx < it.table_size →
      (Iterator.inc_loop fuel it).Valid ∧
        (Iterator.inc_loop fuel it).remaining = (it.table.drop (it.idx + 1)).flatten := by
  intro fuel
  induction fuel with
  | zero =>
      intro it hlen htl hf hlt
      omega
  | succ fuel ih =>
      intro it hlen htl hf hlt
      rw [Iterator.inc_loop]
      simp only [hlt, if_true, htl, ne_eq, not_true_eq_false, if_false]
      by_cases he : it.idx + 1 = it.table_size
      · simp only [he, if_true]
        refine ⟨⟨hlen, fun hx => absurd rfl hx, fun _ => Nat.le_refl _⟩, ?_⟩
        show [] ++ (it.table.drop (it.table_size + 1)).flatten = _
        rw [List.drop_of_length_le (by omega), List.drop_of_length_le (by omega)]
        rfl
      · simp only [he, if_false]
        have hil : it.idx + 1 < it.table.length := by omega
        by_cases hb : bucket it.table (it.idx + 1) = []
        · simp only [hb, not_true_eq_false, if_false]
          obtain ⟨hv, hr⟩ := ih { it with idx := it.idx + 1 } hlen htl
            (by show fuel + (it.idx + 1) = it.table_size; omega)
            (by show it.idx + 1 < it.table_size; omega)
          refine ⟨hv, ?_⟩
          rw [hr]
          show (it.table.drop (it.idx + 1 + 1)).flatten = _
          rw [drop_flatten_succ it.table (it.idx + 1) hil, hb, List.nil_append]
        · simp only [hb, not_false_eq_true, if_true]
          refine ⟨⟨hlen, fun _ => by show it.idx + 1 < it.table_size; omega,
            fun hx => absurd hx hb⟩, ?_⟩
          show bucket it.table (it.idx + 1) ++ (it.table.drop (it.idx + 1 + 1)).flatten = _
          rw [drop_flatten_succ it.table (it.idx + 1) hil]

end IteratorLemmas
section Traversal

variable {Key : Type} [DecidableEq Key] (N : Nat) (hash : Key → Nat)

theorem increment_of_pos_nil {it : Iterator Key} (hv : it.Valid) (hp : it.pos = []) :
    it.increment = it := by
  have := hv.past hp
  unfold Iterator.increment
  rw [show it.table_size - it.idx = 0 by omega]
  rfl

theorem increment_spec {it : Iterator Key} (hv : it.Valid) (k : Key) (tl : List Key)
    (hp : it.pos = k :: tl) :
    it.increment.Valid ∧
      it.increment.remaining = tl ++ (it.table.drop (it.idx + 1)).flatten := by
  have hlt : it.idx < it.table_size := hv.inside (by rw [hp]; simp)
  obtain ⟨f, hf⟩ : ∃ f, it.table_size - it.idx = f + 1 := ⟨it.table_size - it.idx - 1, by omega⟩
  by_cases htl : tl = []
  · subst htl
    have := inc_loop_scan (it.table_size - it.idx) it hv.len (by rw [hp]; rfl) (by omega) hlt
    simpa [Iterator.increment] using this
  · unfold Iterator.increment
    rw [hf, Iterator.inc_loop]
    simp only [hlt, if_true, hp, List.tail_cons, ne_eq, htl, not_false_eq_true]
    exact ⟨⟨hv.len, fun _ => hlt, fun hx => absurd hx htl⟩, rfl⟩

theorem remaining_cons {it : Iterator Key} (hv : it.Valid) (k : Key) (l : List Key)
    (hr : it.remaining = k :: l) :
    ∃ tl, it.pos = k :: tl ∧ l = tl ++ (it.table.drop (it.idx + 1)).flatten := by
  cases hp : it.pos with
  | nil =>
      rw [valid_remaining_of_pos_nil hv hp] at hr
      simp at hr
  | cons k1 tl =>
      unfold Iterator.remaining at hr
      rw [hp, List.cons_append] at hr
      obtain ⟨rfl, rfl⟩ := List.cons.inj hr
      exact ⟨tl, rfl, rfl⟩

/-- The keys met by repeated `++` from a valid cursor are the keys it has yet to
visit, in order, and after them the cursor stays at `nullptr`. -/
theorem iterate_deref :
    ∀ (l : List Key) (it : Iterator Key), it.Valid → it.remaining = l →
      ∀ j, (Iterator.increment^[j] it).deref = l[j]? := by
  intro l
  induction l with
  | nil =>
      intro it hv hr j
      have hp : it.pos = [] := by
        cases hp : it.pos with
        | nil => rfl
        | cons k tl =>
            unfold Iterator.remaining at hr
            rw [hp] at hr
            simp at hr
      have hfix : ∀ j, Iterator.increment^[j] it = it := by
        intro j
        induction j with
        | zero => rfl
        | succ j ihj => rw [Function.iterate_succ_apply, increment_of_pos_nil hv hp, ihj]
      rw [hfix]
      simp [Iterator.deref, hp]
  | cons k l ih =>
      intro it hv hr j
      obtain ⟨tl, hp, hl⟩ := remaining_cons hv k l hr
      cases j with
      | zero => simp [Iterator.deref, hp]
      | succ j =>
          obtain ⟨hv1, hr1⟩ := increment_spec hv k tl hp
          rw [Function.iterate_succ_apply, ih it.increment hv1 (by rw [hr1, hl])]
          simp

theorem eq_loop_spec (lhs : ADS_set Key) :
    ∀ (l : List Key) (it : Iterator Key) (steps : Nat), it.Valid → it.remaining = l →
      l.length < steps →
      eq_loop hash lhs steps it = some (l.all (fun k => decide (count hash lhs k ≠ 0))) := by
  intro l
  induction l with
  | nil =>
      intro it steps hv hr hs
      obtain ⟨st, rfl⟩ : ∃ st, steps = st + 1 := ⟨steps - 1, by simp at hs; omega⟩
      have hp : it.pos = [] := by
        cases hp : it.pos with
        | nil => rfl
        | cons k tl =>
            unfold Iterator.remaining at hr
            rw [hp] at hr
            simp at hr
      simp [eq_loop, hp]
  | cons k l ih =>
      intro it steps hv hr hs
      obtain ⟨st, rfl⟩ : ∃ st, steps = st + 1 := ⟨steps - 1, by simp at hs; omega⟩
      obtain ⟨tl, hp, hl⟩ := remaining_cons hv k l hr
      obtain ⟨hv1, hr1⟩ := increment_spec hv k tl hp
      rw [eq_loop]
      simp only [hp]
      by_cases hc : count hash lhs k = 0
      · simp [hc]
      · rw [if_neg hc, ih it.increment st hv1 (by rw [hr1, hl])
          (by simp only [List.length_cons] at hs; omega)]
        simp [hc]

theorem copy_loop_spec (fuel : Nat) :
    ∀ (l : List Key) (it : Iterator Key) (steps : Nat) (s : ADS_set Key), it.Valid →
      it.remaining = l → l.length < steps →
      copy_loop N hash fuel steps it s = reinsert (insert_ N hash fuel) l s := by
  intro l
  induction l with
  | nil =>
      intro it steps s hv hr hs
      obtain ⟨st, rfl⟩ : ∃ st, steps = st + 1 := ⟨steps - 1, by simp at hs; omega⟩
      have hp : it.pos = [] := by
        cases hp : it.pos with
        | nil => rfl
        | cons k tl =>
            unfold Iterator.remaining at hr
            rw [hp] at hr
            simp at hr
      simp [copy_loop, hp, reinsert]
  | cons k l ih =>
      intro it steps s hv hr hs
      obtain ⟨st, rfl⟩ : ∃ st, steps = st + 1 := ⟨steps - 1, by simp at hs; omega⟩
      obtain ⟨tl, hp, hl⟩ := remaining_cons hv k l hr
      obtain ⟨hv1, hr1⟩ := increment_spec hv k tl hp
      rw [copy_loop, reinsert]
      simp only [hp]
      cases hins : insert_ N hash fuel s k with
      | none => rfl
      | some s1 =>
          simp only
          exact ih it.increment st s1 hv1 (by rw [hr1, hl])
            (by simp only [List.length_cons] at hs; omega)

/-- Whenever the copy loop returns, it returns what reinserting the remaining keys
returns. -/
theorem copy_loop_some (fuel : Nat) :
    ∀ (steps : Nat) (l : List Key) (it : Iterator Key) (s s1 : ADS_set Key), it.Valid →
      it.remaining = l → copy_loop N hash fuel steps it s = some s1 →
      reinsert (insert_ N hash fuel) l s = some s1 := by
  intro steps
  induction steps with
  | zero =>
      intro l it s s1 hv hr hc
      simp [copy_loop] at hc
  | succ st ih =>
      intro l it s s1 hv hr hc
      cases l with
      | nil =>
          have hp : it.pos = [] := by
            cases hp : it.pos with
            | nil => rfl
            | cons k tl =>
                unfold Iterator.remaining at hr
                rw [hp] at hr
                simp at hr
          rw [copy_loop] at hc
          simp only [hp] at hc
          rw [reinsert]
          exact hc
      | cons k l =>
          obtain ⟨tl, hp, hl⟩ := remaining_cons hv k l hr
          obtain ⟨hv1, hr1⟩ := increment_spec hv k tl hp
          rw [copy_loop] at hc
          simp only [hp] at hc
          rw [reinsert]
          cases hins : insert_ N hash fuel s k with
          | none => rw [hins] at hc; simp at hc
          | some s2 =>
              rw [hins] at hc
              simp only at hc ⊢
              exact ih l it.increment s2 s1 hv1 (by rw [hr1, hl]) hc

end Traversal
section GrowLoop

theorem capacity_seq_succ (t j : Nat) :
    capacity_seq t (j + 1) = capacity_seq (2 * t + 1) j := by
  unfold capacity_seq
  rw [Function.iterate_succ_apply]

/-- The `do ... while` loop of `reserve` ends before its countdown does: the
result is the first value after `t` of the sequence `t, 2t+1, ...` that meets
the exit condition `n ≤ 2 * new_table_size`. -/
theorem grow_loop_spec (n : Nat) :
    ∀ (fuel t : Nat), 0 < fuel → n ≤ 2 * t + fuel + 1 →
      ∃ j, 1 ≤ j ∧ grow_loop n fuel t = capacity_seq t j ∧ n ≤ 2 * capacity_seq t j ∧
        ∀ i, 1 ≤ i → i < j → ¬ n ≤ 2 * capacity_seq t i := by
  intro fuel
  induction fuel with
  | zero => intro t hf; omega
  | succ f ih =>
      intro t _ hn
      rw [grow_loop]
      by_cases hg : n > (t * 2 + 1) * 2
      · rw [if_pos hg]
        have hf : 0 < f := by omega
        obtain ⟨j, hj1, hj2, hj3, hj4⟩ := ih (t * 2 + 1) hf (by omega)
        have h21 : t * 2 + 1 = 2 * t + 1 := by omega
        rw [h21] at hj2 hj3 hj4
        refine ⟨j + 1, by omega, ?_, ?_, ?_⟩
        · rw [capacity_seq_succ, h21]; exact hj2
        · rw [capacity_seq_succ]; exact hj3
        · intro i hi1 hi2
          obtain ⟨i0, rfl⟩ : ∃ i0, i = i0 + 1 := ⟨i - 1, by omega⟩
          rw [capacity_seq_succ]
          cases i0 with
          | zero =>
              show ¬ n ≤ 2 * (2 * t + 1)
              omega
          | succ i1 => exact hj4 (i1 + 1) (by omega) (by omega)
      · rw [if_neg hg]
        refine ⟨1, Nat.le_refl _, ?_, ?_, ?_⟩
        · show t * 2 + 1 = 2 * t + 1
          omega
        · show n ≤ 2 * (2 * t + 1)
          omega
        · intro i hi1 hi2
          omega

/-- The loop of `reserve` as `reserve` runs it: `n` iterations are enough. -/
theorem grow_loop_exit (n t : Nat) (hn : n > t * 2) :
    n ≤ 2 * grow_loop n n t := by
  obtain ⟨j, _, hj2, hj3, _⟩ := grow_loop_spec n n t (by omega) (by omega)
  rw [hj2]
  exact hj3

end GrowLoop

section ReachableInv

variable {Key : Type} [DecidableEq Key] (N : Nat) (hash : Key → Nat)

theorem ctor_eq (fuel : Nat) : ctor N hash fuel = some (fresh N : ADS_set Key) := by
  simp [ctor, rehash, rehash_with, collect, members_init, reinsert, free_table,
    free_table_loop]

theorem fresh_inv (hN : 0 < N) : Inv N hash (fresh N : ADS_set Key) :=
  ⟨fresh_wf hash N hN, Nat.le_refl _, Nat.zero_le _⟩

theorem rehash_fresh (fuel : Nat) :
    rehash N hash fuel (fresh N : ADS_set Key) N = some (fresh N) := by
  have hc : collect (fresh N : ADS_set Key) = [] := by
    rw [collect_eq _ (by simp [fresh])]
    exact fresh_keys N
  unfold rehash rehash_with
  simp only
  rw [hc, reinsert, free_table_eq, hc]
  have : max N (max N (fresh N : ADS_set Key).curr_size) = N := by simp [fresh]
  rw [this]
  rfl

theorem clear_eq (fuel : Nat) (s : ADS_set Key) :
    clear N hash fuel s = if collect s = [] then some (fresh N) else none := by
  unfold clear
  rw [ctor_eq]
  simp only [swap, destroy_eq]
  by_cases hc : collect s = [] <;> simp [hc]

theorem clear_some (fuel : Nat) (s s1 : ADS_set Key) (hc : clear N hash fuel s = some s1) :
    s1 = fresh N ∧ collect s = [] := by
  rw [clear_eq] at hc
  by_cases hnil : collect s = []
  · rw [if_pos hnil] at hc
    exact ⟨(Option.some.inj hc).symm, hnil⟩
  · rw [if_neg hnil] at hc
    simp at hc

theorem reinsert_inv (fuel : Nat) :
    ∀ (l : List Key) (s s1 : ADS_set Key), Inv N hash s → l.Nodup →
      (∀ k ∈ l, k ∉ keys s) → reinsert (insert_ N hash fuel) l s = some s1 →
      Inv N hash s1 ∧ (keys s1).Perm (l ++ keys s) := by
  intro l
  induction l with
  | nil =>
      intro s s1 hinv _ _ hr
      rw [reinsert] at hr
      obtain rfl := Option.some.inj hr
      exact ⟨hinv, List.Perm.refl _⟩
  | cons k l ih =>
      intro s s1 hinv hnd hdisj hr
      rw [reinsert] at hr
      cases hins : insert_ N hash fuel s k with
      | none => rw [hins] at hr; simp at hr
      | some s2 =>
          rw [hins] at hr
          simp only at hr
          have hs2 := insert__result N hash hinv.wf k fuel s2 hins
          have hk : k ∉ keys s := hdisj k (List.mem_cons_self _ _)
          obtain ⟨hinv2, hperm2⟩ := insert_result_inv N hash hinv k hk
          rw [← hs2] at hinv2 hperm2
          have hnd2 := List.nodup_cons.mp hnd
          have hdisj2 : ∀ x ∈ l, x ∉ keys s2 := by
            intro x hx hmem
            rcases List.mem_cons.mp (hperm2.subset hmem) with rfl | hmem1
            · exact hnd2.1 hx
            · exact hdisj x (List.mem_cons_of_mem _ hx) hmem1
          obtain ⟨hinv3, hperm3⟩ := ih s2 s1 hinv2 hnd2.2 hdisj2 hr
          refine ⟨hinv3, hperm3.trans ?_⟩
          refine (List.Perm.append_left l hperm2).trans ?_
          simp

theorem insert_present {s : ADS_set Key} (hwf : Wf hash s) (key : Key) (hk : key ∈ keys s)
    (fuel : Nat) :
    insert N hash fuel s key =
      some (s, { pos := find_ hash s key, table := s.table, idx := h hash s key,
                 table_size := s.table_size }, false) := by
  have hne := (find__ne_nil_iff hash hwf key).mpr hk
  unfold insert
  rw [if_pos hne]

theorem insert_absent_eq {s : ADS_set Key} (hwf : Wf hash s) (key : Key) (hk : key ∉ keys s)
    (fuel : Nat) :
    insert N hash fuel s key =
      match insert_ N hash fuel s key with
      | none => none
      | some s1 =>
          some (s1, { pos := find_ hash s1 key, table := s1.table, idx := h hash s1 key,
                      table_size := s1.table_size }, true) := by
  have hne := (find__ne_nil_iff hash hwf key).not.mpr hk
  unfold insert
  rw [if_neg hne]

/-- A call of `insert` with a new key on a table that has room returns with the
flag true. -/
theorem insert_absent {s : ADS_set Key} (hwf : Wf hash s) (key : Key) (hk : key ∉ keys s)
    (hroom : s.curr_size + 1 ≤ 2 * s.table_size) (fuel : Nat) (hfuel : 1 ≤ fuel) :
    insert N hash fuel s key =
      some (push_head hash s key,
        { pos := find_ hash (push_head hash s key) key,
          table := (push_head hash s key).table,
          idx := h hash (push_head hash s key) key,
          table_size := (push_head hash s key).table_size }, true) := by
  rw [insert_absent_eq N hash hwf key hk, insert__eq N hash s hwf.len hwf.pos key fuel hfuel,
    if_pos hroom]

/-- A call of `insert` with a new key on a table that is full has no defined
result: the `rehash` it starts frees the old chains with a read after `delete`. -/
theorem insert_full_undefined {s : ADS_set Key} (hwf : Wf hash s) (key : Key)
    (hk : key ∉ keys s) (hfull : ¬ s.curr_size + 1 ≤ 2 * s.table_size) (fuel : Nat) :
    insert N hash fuel s key = none := by
  rw [insert_absent_eq N hash hwf key hk, insert__grow_undefined N hash s hwf.len hwf.pos key
    hfull]

/-- Whenever `insert` returns, the key was present and nothing changed, or the
table had room and the new node is the head of its bucket. -/
theorem insert_returns {s : ADS_set Key} (hwf : Wf hash s) (key : Key) (fuel : Nat)
    (r : ADS_set Key × Iterator Key × Bool) (hr : insert N hash fuel s key = some r) :
    (key ∈ keys s ∧ r.1 = s ∧ r.2.2 = false) ∨
      (key ∉ keys s ∧ s.curr_size + 1 ≤ 2 * s.table_size ∧ r.1 = push_head hash s key ∧
        r.2.2 = true) := by
  by_cases hk : key ∈ keys s
  · left
    have hne := (find__ne_nil_iff hash hwf key).mpr hk
    unfold insert at hr
    rw [if_pos hne] at hr
    rw [← Option.some.inj hr]
    exact ⟨hk, rfl, rfl⟩
  · right
    rw [insert_absent_eq N hash hwf key hk] at hr
    cases hins : insert_ N hash fuel s key with
    | none => rw [hins] at hr; simp at hr
    | some s1 =>
        rw [hins] at hr
        simp only at hr
        obtain ⟨hl, hs1⟩ := insert__returns N hash hwf key fuel s1 hins
        rw [← Option.some.inj hr]
        exact ⟨hk, hl, hs1, rfl⟩

theorem insert_state {s : ADS_set Key} (hwf : Wf hash s) (key : Key) (fuel : Nat)
    (r : ADS_set Key × Iterator Key × Bool) (hr : insert N hash fuel s key = some r) :
    r.1 = if key ∈ keys s then s else insert_result N hash s key := by
  by_cases hk : key ∈ keys s
  · rw [insert_present N hash hwf key hk] at hr
    rw [if_pos hk, ← Option.some.inj hr]
  · rw [insert_absent_eq N hash hwf key hk] at hr
    rw [if_neg hk]
    cases hins : insert_ N hash fuel s key with
    | none => rw [hins] at hr; simp at hr
    | some s1 =>
        rw [hins] at hr
        simp only at hr
        rw [← Option.some.inj hr]
        exact insert__result N hash hwf key fuel s1 hins

theorem insert_state_inv {s : ADS_set Key} (hinv : Inv N hash s) (key : Key) :
    Inv N hash (if key ∈ keys s then s else insert_result N hash s key) ∧
      ∀ k, k ∈ keys (if key ∈ keys s then s else insert_result N hash s key) ↔
        k = key ∨ k ∈ keys s := by
  by_cases hk : key ∈ keys s
  · simp only [if_pos hk]
    refine ⟨hinv, fun k => ⟨fun hx => Or.inr hx, ?_⟩⟩
    rintro (rfl | hx)
    · exact hk
    · exact hx
  · simp only [if_neg hk]
    obtain ⟨hinv1, hperm⟩ := insert_result_inv N hash hinv key hk
    refine ⟨hinv1, fun k => ?_⟩
    rw [hperm.mem_iff, List.mem_cons]

theorem insert_range_inv (fuel : Nat) :
    ∀ (ks : List Key) (s s1 : ADS_set Key), Inv N hash s →
      insert_range N hash fuel ks s = some s1 →
      Inv N hash s1 ∧ ∀ k, k ∈ keys s1 ↔ k ∈ keys s ∨ k ∈ ks := by
  intro ks
  induction ks with
  | nil =>
      intro s s1 hinv hr
      rw [insert_range] at hr
      obtain rfl := Option.some.inj hr
      exact ⟨hinv, fun k => by simp⟩
  | cons k0 ks ih =>
      intro s s1 hinv hr
      rw [insert_range, count_eq hash hinv.wf] at hr
      by_cases hk : k0 ∈ keys s
      · simp only [hk, if_true, one_ne_zero, if_false] at hr
        obtain ⟨hinv1, hmem⟩ := ih s s1 hinv hr
        refine ⟨hinv1, fun k => ?_⟩
        rw [hmem, List.mem_cons]
        constructor
        · rintro (hx | hx)
          · exact Or.inl hx
          · exact Or.inr (Or.inr hx)
        · rintro (hx | rfl | hx)
          · exact Or.inl hx
          · exact Or.inl hk
          · exact Or.inr hx
      · simp only [hk, if_false, if_true] at hr
        cases hins : insert_ N hash fuel s k0 with
        | none => rw [hins] at hr; simp at hr
        | some s2 =>
            rw [hins] at hr
            simp only at hr
            have hs2 := insert__result N hash hinv.wf k0 fuel s2 hins
            obtain ⟨hinv2, hperm2⟩ := insert_result_inv N hash hinv k0 hk
            rw [← hs2] at hinv2 hperm2
            obtain ⟨hinv1, hmem⟩ := ih s2 s1 hinv2 hr
            refine ⟨hinv1, fun k => ?_⟩
            rw [hmem, hperm2.mem_iff, List.mem_cons, List.mem_cons]
            tauto

theorem copy_inv (hN : 0 < N) (fuel steps : Nat) (other s1 : ADS_set Key)
    (hother : Inv N hash other) (hc : copy N hash fuel steps other = some s1) :
    Inv N hash s1 ∧ (keys s1).Perm (keys other) := by
  unfold copy at hc
  rw [ctor_eq] at hc
  simp only at hc
  rw [rehash_fresh] at hc
  simp only at hc
  obtain ⟨hv, hr⟩ := begin_spec other hother.wf.len
  have hre := copy_loop_some N hash fuel steps (keys other) (begin other) _ s1 hv hr hc
  obtain ⟨hinv1, hperm⟩ := reinsert_inv N hash fuel (keys other) _ s1 (fresh_inv N hash hN)
    hother.wf.nodup (by intro k _; rw [fresh_keys]; simp) hre
  rw [fresh_keys, List.append_nil] at hperm
  exact ⟨hinv1, hperm⟩

/-- Every reachable state satisfies the table invariant and the capacity bounds. -/
theorem reachable_inv (hN : 0 < N) {s : ADS_set Key} (hr : Reachable N hash s) :
    Inv N hash s := by
  induction hr with
  | ctor fuel s hc =>
      rw [ctor_eq] at hc
      rw [← Option.some.inj hc]
      exact fresh_inv N hash hN
  | insert fuel s key r _ hins ih =>
      rw [insert_state N hash ih.wf key fuel r hins]
      exact (insert_state_inv N hash ih key).1
  | erase s key _ ih => exact erase_inv N hash ih key
  | insert_range fuel s ks s1 _ hins ih => exact (insert_range_inv N hash fuel ks s s1 ih hins).1
  | clear fuel s s1 _ hc _ =>
      rw [(clear_some N hash fuel s s1 hc).1]
      exact fresh_inv N hash hN
  | copy fuel steps other s1 _ hc ih => exact (copy_inv N hash hN fuel steps other s1 ih hc).1

end ReachableInv
section ReachableInduction

variable {Key : Type} [DecidableEq Key] (N : Nat) (hash : Key → Nat)

theorem push_head_inv {s : ADS_set Key} (hinv : Inv N hash s) (key : Key) (hk : key ∉ keys s)
    (hroom : s.curr_size + 1 ≤ 2 * s.table_size) :
    Inv N hash (push_head hash s key) ∧ (keys (push_head hash s key)).Perm (key :: keys s) := by
  have := insert_result_inv N hash hinv key hk
  rw [insert_result_no_grow N hash s key hroom] at this
  exact this

theorem reinsert_preserves (P : ADS_set Key → Prop)
    (hstep : ∀ s k, Inv N hash s → k ∉ keys s → s.curr_size + 1 ≤ 2 * s.table_size → P s →
      P (push_head hash s k))
    (fuel : Nat) :
    ∀ (l : List Key) (s s1 : ADS_set Key), Inv N hash s → l.Nodup →
      (∀ k ∈ l, k ∉ keys s) → P s → reinsert (insert_ N hash fuel) l s = some s1 → P s1 := by
  intro l
  induction l with
  | nil =>
      intro s s1 _ _ _ hp hr
      rw [reinsert] at hr
      rw [← Option.some.inj hr]
      exact hp
  | cons k l ih =>
      intro s s1 hinv hnd hdisj hp hr
      rw [reinsert] at hr
      cases hins : insert_ N hash fuel s k with
      | none => rw [hins] at hr; simp at hr
      | some s2 =>
          rw [hins] at hr
          simp only at hr
          obtain ⟨hroom, rfl⟩ := insert__returns N hash hinv.wf k fuel s2 hins
          have hk : k ∉ keys s := hdisj k (List.mem_cons_self _ _)
          obtain ⟨hinv2, hperm2⟩ := push_head_inv N hash hinv k hk hroom
          have hnd2 := List.nodup_cons.mp hnd
          refine ih _ s1 hinv2 hnd2.2 ?_ (hstep s k hinv hk hroom hp) hr
          intro x hx hmem
          rcases List.mem_cons.mp (hperm2.subset hmem) with rfl | hmem1
          · exact hnd2.1 hx
          · exact hdisj x (List.mem_cons_of_mem _ hx) hmem1

theorem insert_range_preserves (P : ADS_set Key → Prop)
    (hstep : ∀ s k, Inv N hash s → k ∉ keys s → s.curr_size + 1 ≤ 2 * s.table_size → P s →
      P (push_head hash s k))
    (fuel : Nat) :
    ∀ (ks : List Key) (s s1 : ADS_set Key), Inv N hash s → P s →
      insert_range N hash fuel ks s = some s1 → P s1 := by
  intro ks
  induction ks with
  | nil =>
      intro s s1 _ hp hr
      rw [insert_range] at hr
      rw [← Option.some.inj hr]
      exact hp
  | cons k ks ih =>
      intro s s1 hinv hp hr
      rw [insert_range, count_eq hash hinv.wf] at hr
      by_cases hk : k ∈ keys s
      · simp only [hk, if_true, one_ne_zero, if_false] at hr
        exact ih s s1 hinv hp hr
      · simp only [hk, if_false, if_true] at hr
        cases hins : insert_ N hash fuel s k with
        | none => rw [hins] at hr; simp at hr
        | some s2 =>
            rw [hins] at hr
            simp only at hr
            obtain ⟨hroom, rfl⟩ := insert__returns N hash hinv.wf k fuel s2 hins
            exact ih _ s1 (push_head_inv N hash hinv k hk hroom).1
              (hstep s k hinv hk hroom hp) hr

/-- A property of the fresh state that is preserved by the insertion of a new key
into a table with room and by `erase` holds in every reachable state. -/
theorem reachable_induction (hN : 0 < N) (P : ADS_set Key → Prop)
    (hfresh : P (fresh N))
    (hstep : ∀ s k, Inv N hash s → k ∉ keys s → s.curr_size + 1 ≤ 2 * s.table_size → P s →
      P (push_head hash s k))
    (herase : ∀ s k, Inv N hash s → P s → P (erase hash s k).1)
    {s : ADS_set Key} (hr : Reachable N hash s) : P s := by
  induction hr with
  | ctor fuel s hc =>
      rw [ctor_eq] at hc
      rw [← Option.some.inj hc]
      exact hfresh
  | insert fuel s key r hs hins ih =>
      have hinv := reachable_inv N hash hN hs
      rcases insert_returns N hash hinv.wf key fuel r hins with ⟨_, hr1, _⟩ | ⟨hk, hroom, hr1, _⟩
      · rw [hr1]; exact ih
      · rw [hr1]; exact hstep s key hinv hk hroom ih
  | erase s key hs ih => exact herase s key (reachable_inv N hash hN hs) ih
  | insert_range fuel s ks s1 hs hins ih =>
      exact insert_range_preserves N hash P hstep fuel ks s s1 (reachable_inv N hash hN hs) ih
        hins
  | clear fuel s s1 _ hc _ =>
      rw [(clear_some N hash fuel s s1 hc).1]
      exact hfresh
  | copy fuel steps other s1 ho hc _ =>
      have hio := reachable_inv N hash hN ho
      unfold copy at hc
      rw [ctor_eq] at hc
      simp only at hc
      rw [rehash_fresh] at hc
      simp only at hc
      obtain ⟨hv, hrem⟩ := begin_spec other hio.wf.len
      have hre := copy_loop_some N hash fuel steps (keys other) (begin other) _ s1 hv hrem hc
      exact reinsert_preserves N hash P hstep fuel (keys other) _ s1 (fresh_inv N hash hN)
        hio.wf.nodup (by intro k _; rw [fresh_keys]; simp) hfresh hre

/-- In the code as it is, no call that returns changes the capacity: every
reachable table has exactly `N` buckets. -/
theorem reachable_capacity_eq (hN : 0 < N) {s : ADS_set Key} (hr : Reachable N hash s) :
    s.table_size = N := by
  refine reachable_induction N hash hN (fun s => s.table_size = N) rfl ?_ ?_ hr
  · intro s k _ _ _ hp
    rw [push_head_table_size]; exact hp
  · intro s k hinv hp
    by_cases hk : k ∈ keys s
    · rw [erase_present hash hinv.wf k hk]; exact hp
    · rw [erase_absent hash hinv.wf k hk]; exact hp

end ReachableInduction
section RunLemmas

variable {Key : Type} [DecidableEq Key] (N : Nat) (hash : Key → Nat)

theorem insert_some {s : ADS_set Key} (hwf : Wf hash s) (key : Key)
    (hroom : key ∈ keys s ∨ s.curr_size + 1 ≤ 2 * s.table_size) (fuel : Nat)
    (hfuel : 1 ≤ fuel) : ∃ r, insert N hash fuel s key = some r := by
  by_cases hk : key ∈ keys s
  · exact ⟨_, insert_present N hash hwf key hk fuel⟩
  · rcases hroom with hk1 | hroom
    · exact absurd hk1 hk
    · exact ⟨_, insert_absent N hash hwf key hk hroom fuel hfuel⟩

theorem erase_mem {s : ADS_set Key} (hwf : Wf hash s) (key k : Key) :
    k ∈ keys (erase hash s key).1 ↔ k ≠ key ∧ k ∈ keys s := by
  by_cases hk : key ∈ keys s
  · rw [erase_keys hash hwf key hk]
    exact hwf.nodup.mem_erase_iff
  · rw [erase_absent hash hwf key hk]
    constructor
    · intro hx
      exact ⟨fun heq => hk (heq ▸ hx), hx⟩
    · exact fun hx => hx.2

/-- Whenever all calls of a sequence return, the final state satisfies the
invariant and holds the keys whose last call was an `insert`. -/
theorem run_spec (fuel : Nat) :
    ∀ (ops : List (Op Key)) (s s1 : ADS_set Key), Inv N hash s →
      run N hash fuel ops s = some s1 →
      Inv N hash s1 ∧ ∀ k, k ∈ keys s1 ↔ track k ops (decide (k ∈ keys s)) = true := by
  intro ops
  induction ops with
  | nil =>
      intro s s1 hinv hrun
      rw [run] at hrun
      rw [← Option.some.inj hrun]
      exact ⟨hinv, fun k => by simp [track]⟩
  | cons op ops ih =>
      intro s s1 hinv hrun
      cases op with
      | insert key =>
          rw [run] at hrun
          cases hr : insert N hash fuel s key with
          | none => rw [hr] at hrun; simp at hrun
          | some r =>
              rw [hr] at hrun
              simp only at hrun
              have hst := insert_state N hash hinv.wf key fuel r hr
              obtain ⟨hinv1, hmem1⟩ := insert_state_inv N hash hinv key
              rw [← hst] at hinv1 hmem1
              obtain ⟨hinv2, hmem2⟩ := ih r.1 s1 hinv1 hrun
              refine ⟨hinv2, fun k => ?_⟩
              rw [hmem2 k, track]
              by_cases hkk : key = k
              · simp [hkk, hmem1]
              · have : ¬ k = key := fun hx => hkk hx.symm
                simp [hkk, hmem1, this]
      | erase key =>
          rw [run] at hrun
          have hinv1 := erase_inv N hash hinv key
          obtain ⟨hinv2, hmem2⟩ := ih _ s1 hinv1 hrun
          refine ⟨hinv2, fun k => ?_⟩
          rw [hmem2 k, track]
          by_cases hkk : key = k
          · simp [hkk, erase_mem hash hinv.wf]
          · have : ¬ k = key := fun hx => hkk hx.symm
            simp [hkk, erase_mem hash hinv.wf, this]

theorem run_fresh_spec (hN : 0 < N) (fuel : Nat) (ops : List (Op Key)) (s1 : ADS_set Key)
    (hrun : run_fresh N hash fuel ops = some s1) :
    Inv N hash s1 ∧ ∀ k, k ∈ keys s1 ↔ track k ops false = true := by
  unfold run_fresh at hrun
  rw [ctor_eq] at hrun
  obtain ⟨hinv, hmem⟩ := run_spec N hash fuel ops _ s1 (fresh_inv N hash hN) hrun
  refine ⟨hinv, fun k => ?_⟩
  rw [hmem k, fresh_keys]
  simp

theorem track_inserts (k : Key) (l : List Key) (b : Bool) :
    track k (l.map Op.insert) b = true ↔ (b = true ∨ k ∈ l) := by
  induction l generalizing b with
  | nil => simp [track]
  | cons x l ih =>
      rw [List.map_cons, track, ih]
      by_cases hx : x = k
      · simp [hx]
      · have : ¬ k = x := fun hk => hx hk.symm
        simp [hx, this]

/-- Whenever the insertions of a list of keys into a fresh set all return, the
size is the number of distinct keys of the list. -/
theorem run_fresh_inserts_size (hN : 0 < N) (fuel : Nat) (l : List Key) (s : ADS_set Key)
    (hrun : run_fresh N hash fuel (l.map Op.insert) = some s) :
    size s = l.toFinset.card := by
  obtain ⟨hinv, hmem⟩ := run_fresh_spec N hash hN fuel (l.map Op.insert) s hrun
  have hset : (keys s).toFinset = l.toFinset := by
    ext k
    rw [List.mem_toFinset, List.mem_toFinset, hmem k, track_inserts]
    simp
  rw [← hset, List.toFinset_card_of_nodup hinv.wf.nodup]
  exact hinv.wf.card

theorem reachable_run (fuel : Nat) :
    ∀ (ops : List (Op Key)) (s s1 : ADS_set Key), Reachable N hash s →
      run N hash fuel ops s = some s1 → Reachable N hash s1 := by
  intro ops
  induction ops with
  | nil =>
      intro s s1 hs hrun
      rw [run] at hrun
      rw [← Option.some.inj hrun]
      exact hs
  | cons op ops ih =>
      intro s s1 hs hrun
      cases op with
      | insert key =>
          rw [run] at hrun
          cases hins : insert N hash fuel s key with
          | none => rw [hins] at hrun; simp at hrun
          | some r =>
              rw [hins] at hrun
              exact ih r.1 s1 (Reachable.insert fuel s key r hs hins) hrun
      | erase key =>
          rw [run] at hrun
          exact ih _ s1 (Reachable.erase s key hs) hrun

theorem reachable_run_fresh (fuel : Nat) (ops : List (Op Key)) (s : ADS_set Key)
    (hrun : run_fresh N hash fuel ops = some s) : Reachable N hash s := by
  unfold run_fresh at hrun
  rw [ctor_eq] at hrun
  exact reachable_run N hash fuel ops _ s (Reachable.ctor fuel _ (ctor_eq N hash fuel)) hrun

/-- More than `2 * N` distinct keys cannot be inserted: the insertion that would
make the table grow has no defined result, so the sequence of calls has none. -/
theorem run_fresh_inserts_overflow (hN : 0 < N) (fuel : Nat) (l : List Key)
    (hmany : 2 * N < l.toFinset.card) :
    run_fresh N hash fuel (l.map Op.insert) = none := by
  cases hrun : run_fresh N hash fuel (l.map Op.insert) with
  | none => rfl
  | some s =>
      exfalso
      have hsize := run_fresh_inserts_size N hash hN fuel l s hrun
      have hreach := reachable_run_fresh N hash fuel _ s hrun
      have hload := (reachable_inv N hash hN hreach).load
      have hcap := reachable_capacity_eq N hash hN hreach
      unfold size at hsize
      omega

/-- Keys for which the table has room are inserted one after the other, with one
level of `insert_`. -/
theorem run_inserts_some (fuel : Nat) (hfuel : 1 ≤ fuel) :
    ∀ (l : List Key) (s : ADS_set Key), Inv N hash s →
      s.curr_size + l.length ≤ 2 * s.table_size →
      ∃ s1, run N hash fuel (l.map Op.insert) s = some s1 := by
  intro l
  induction l with
  | nil => intro s _ _; exact ⟨s, rfl⟩
  | cons k l ih =>
      intro s hinv hroom
      simp only [List.length_cons] at hroom
      rw [List.map_cons, run]
      by_cases hk : k ∈ keys s
      · rw [insert_present N hash hinv.wf k hk fuel]
        exact ih s hinv (by omega)
      · rw [insert_absent N hash hinv.wf k hk (by omega) fuel hfuel]
        simp only
        refine ih _ (push_head_inv N hash hinv k hk (by omega)).1 ?_
        rw [push_head_curr_size, push_head_table_size]
        omega

/-- The range `insert` of keys for which the table has room returns, with one
level of `insert_`. -/
theorem insert_range_some (fuel : Nat) (hfuel : 1 ≤ fuel) :
    ∀ (ks : List Key) (s : ADS_set Key), Inv N hash s →
      s.curr_size + ks.length ≤ 2 * s.table_size →
      ∃ s1, insert_range N hash fuel ks s = some s1 := by
  intro ks
  induction ks with
  | nil => intro s _ _; exact ⟨s, rfl⟩
  | cons k ks ih =>
      intro s hinv hroom
      simp only [List.length_cons] at hroom
      rw [insert_range, count_eq hash hinv.wf]
      by_cases hk : k ∈ keys s
      · simp only [hk, if_true, one_ne_zero, if_false]
        exact ih s hinv (by omega)
      · simp only [hk, if_false, if_true]
        rw [insert__eq N hash s hinv.wf.len hinv.wf.pos k fuel hfuel, if_pos (by omega)]
        simp only
        refine ih _ (push_head_inv N hash hinv k hk (by omega)).1 ?_
        rw [push_head_curr_size, push_head_table_size]
        omega

theorem run_fresh_inserts_some (hN : 0 < N) (fuel : Nat) (hfuel : 1 ≤ fuel) (l : List Key)
    (hlen : l.length ≤ 2 * N) :
    ∃ s1, run_fresh N hash fuel (l.map Op.insert) = some s1 := by
  unfold run_fresh
  rw [ctor_eq]
  exact run_inserts_some N hash fuel hfuel l _ (fresh_inv N hash hN)
    (by show 0 + l.length ≤ 2 * N; omega)

theorem run_append (fuel : Nat) (ops1 ops2 : List (Op Key)) (s : ADS_set Key) :
    run N hash fuel (ops1 ++ ops2) s =
      match run N hash fuel ops1 s with
      | none => none
      | some s1 => run N hash fuel ops2 s1 := by
  induction ops1 generalizing s with
  | nil => rfl
  | cons op ops1 ih =>
      cases op with
      | insert key =>
          simp only [List.cons_append, run]
          cases insert N hash fuel s key with
          | none => rfl
          | some r => exact ih r.1
      | erase key =>
          simp only [List.cons_append, run]
          exact ih _

theorem run_fresh_append (fuel : Nat) (ops1 ops2 : List (Op Key)) :
    run_fresh N hash fuel (ops1 ++ ops2) =
      match run_fresh N hash fuel ops1 with
      | none => none
      | some s1 => run N hash fuel ops2 s1 := by
  unfold run_fresh
  rw [ctor_eq]
  exact run_append N hash fuel ops1 ops2 _

theorem sample_set_reachable : Reachable 7 (fun k : Nat => k) sample_set :=
  reachable_run_fresh 7 (fun k : Nat => k) 2 [Op.insert 1, Op.insert 8, Op.insert 3] sample_set
    (by decide)

theorem full_set_reachable : Reachable 1 (fun k : Nat => k) full_set :=
  reachable_run_fresh 1 (fun k : Nat => k) 2 [Op.insert 4, Op.insert 5] full_set (by decide)

theorem sample_set_reordered_reachable :
    Reachable 7 (fun k : Nat => k) sample_set_reordered :=
  reachable_run_fresh 7 (fun k : Nat => k) 2 [Op.insert 3, Op.insert 8, Op.insert 1]
    sample_set_reordered (by decide)

theorem singleton_set_reachable : Reachable 7 (fun k : Nat => k) singleton_set :=
  reachable_run_fresh 7 (fun k : Nat => k) 2 [Op.insert 1] singleton_set (by decide)

theorem inserted_cons (op : Op Key) (ops : List (Op Key)) (k : Key) :
    inserted_and_not_erased (op :: ops) k ↔
      (op = Op.insert k ∧ Op.erase k ∉ ops) ∨ inserted_and_not_erased ops k := by
  constructor
  · rintro ⟨pre, post, heq, hne⟩
    cases pre with
    | nil =>
        simp only [List.nil_append] at heq
        obtain ⟨rfl, rfl⟩ := List.cons.inj heq
        exact Or.inl ⟨rfl, hne⟩
    | cons p pre =>
        simp only [List.cons_append] at heq
        obtain ⟨rfl, rfl⟩ := List.cons.inj heq
        exact Or.inr ⟨pre, post, rfl, hne⟩
  · rintro (⟨rfl, hne⟩ | ⟨pre, post, rfl, hne⟩)
    · exact ⟨[], ops, rfl, hne⟩
    · exact ⟨op :: pre, post, rfl, hne⟩

theorem track_iff (k : Key) (ops : List (Op Key)) (b : Bool) :
    track k ops b = true ↔
      inserted_and_not_erased ops k ∨ (b = true ∧ Op.erase k ∉ ops) := by
  induction ops generalizing b with
  | nil =>
      simp only [track, List.not_mem_nil, not_false_eq_true, and_true]
      constructor
      · exact fun hb => Or.inr hb
      · rintro (⟨pre, post, heq, _⟩ | hb)
        · simp at heq
        · exact hb
  | cons op ops ih =>
      rw [inserted_cons]
      cases op with
      | insert key =>
          rw [track, ih]
          by_cases hkk : key = k
          · subst hkk
            simp
            tauto
          · have : ¬ k = key := fun hx => hkk hx.symm
            simp [hkk, this]
      | erase key =>
          rw [track, ih]
          by_cases hkk : key = k
          · subst hkk
            simp
          · have : ¬ k = key := fun hx => hkk hx.symm
            simp [hkk, this]

theorem find_eq_end_iff (s : ADS_set Key) (k : Key) :
    (find hash s k).eq end_ = true ↔ find_ hash s k = [] := by
  unfold find Iterator.eq
  by_cases hf : find_ hash s k = []
  · simp [hf, end_]
  · simp [hf, end_]

end RunLemmas

section Claims

variable {Key : Type} [DecidableEq Key] (N : Nat) (hash : Key → Nat)

/-- Whenever all calls of a sequence on a fresh set return (with `N ≥ 1`), `count`
and `find` report exactly the keys that were inserted and not erased after their
last insertion. -/
theorem run_fresh_membership (hN : 0 < N) (ops : List (Op Key)) (fuel : Nat)
    (s : ADS_set Key) (hrun : run_fresh N hash fuel ops = some s) (k : Key) :
    (inserted_and_not_erased ops k →
      count hash s k = 1 ∧ (find hash s k).eq end_ = false) ∧
    (¬ inserted_and_not_erased ops k →
      count hash s k = 0 ∧ (find hash s k).eq end_ = true) := by
  obtain ⟨hinv, hmem⟩ := run_fresh_spec N hash hN fuel ops s hrun
  have htr := track_iff k ops false
  simp only [Bool.false_eq_true, false_and, or_false] at htr
  rw [← htr, ← hmem k]
  constructor
  · intro hk
    have hne := (find__ne_nil_iff hash hinv.wf k).mpr hk
    refine ⟨by rw [count_eq hash hinv.wf, if_pos hk], ?_⟩
    rw [Bool.eq_false_iff, Ne, find_eq_end_iff]
    exact hne
  · intro hk
    have hnil : find_ hash s k = [] := by
      by_contra hne
      exact hk ((find__ne_nil_iff hash hinv.wf k).mp hne)
    refine ⟨by rw [count_eq hash hinv.wf, if_neg hk], ?_⟩
    rw [find_eq_end_iff]
    exact hnil

/-- Claim C1, where the code fails it: with the default `N = 7` and any hash
function the first 14 of the calls `insert(0), ..., insert(14)` return, and the
key 14 is then inserted and never erased, so that `count(14)` should be 1; but
the 15th call has to grow the table, `rehash` frees the old chains with a read
after `delete`, and the sequence has no defined result, whatever the fuel. -/
theorem C1_fifteenth_key_is_not_inserted (hash : Nat → Nat) :
    (∃ s, run_fresh 7 hash 1 ((List.range 14).map Op.insert) = some s) ∧
    inserted_and_not_erased ((List.range 15).map Op.insert) 14 ∧
    ∀ fuel, run_fresh 7 hash fuel ((List.range 15).map Op.insert) = none :=
  ⟨run_fresh_inserts_some 7 hash (by decide) 1 (by decide) (List.range 14) (by decide),
    ⟨(List.range 14).map Op.insert, [], by decide, by simp⟩,
    fun fuel => run_fresh_inserts_overflow 7 hash (by decide) fuel (List.range 15) (by decide)⟩

/-- Claim C2, where the code fails it: with the default `N = 7` and any hash
function the list `0, ..., 13, 0` is inserted and `size()` is then 14, the number
of its distinct keys; the list `0, ..., 14, 0` has 15 distinct keys, its 15th
insertion has to rehash, and the sequence has no defined result, whatever the
fuel. -/
theorem C2_first_rehash_is_not_survived (hash : Nat → Nat) :
    (∃ s, run_fresh 7 hash 1 ((List.range 14 ++ [0]).map Op.insert) = some s ∧ size s = 14) ∧
    (List.range 15 ++ [0]).toFinset.card = 15 ∧
    ∀ fuel, run_fresh 7 hash fuel ((List.range 15 ++ [0]).map Op.insert) = none := by
  refine ⟨?_, by decide, fun fuel =>
    run_fresh_inserts_overflow 7 hash (by decide) fuel (List.range 15 ++ [0]) (by decide)⟩
  have hlist : (List.range 14 ++ [0]).map Op.insert =
      (List.range 14).map Op.insert ++ [Op.insert 0] := by simp
  obtain ⟨s, hs⟩ := run_fresh_inserts_some 7 hash (by decide) 1 (by decide) (List.range 14)
    (by decide)
  obtain ⟨hinv, hmem⟩ := run_fresh_spec 7 hash (by decide) 1 _ s hs
  have h0 : (0 : Nat) ∈ keys s := by
    rw [hmem 0, track_inserts]
    right
    decide
  refine ⟨s, ?_, ?_⟩
  · rw [hlist, run_fresh_append, hs]
    simp only [run]
    rw [insert_present 7 hash hinv.wf 0 h0 1]
  · rw [run_fresh_inserts_size 7 hash (by decide) 1 (List.range 14) s hs]
    decide

end Claims
section Claims2

variable {Key : Type} [DecidableEq Key] (N : Nat) (hash : Key → Nat)

theorem cursor_after_deref {s : ADS_set Key} (hwf : Wf hash s) (j : Nat) :
    (cursor_after s j).deref = (keys s)[j]? := by
  obtain ⟨hv, hr⟩ := begin_spec s hwf.len
  exact iterate_deref (keys s) (begin s) hv hr j

theorem visited_eq {s : ADS_set Key} (hwf : Wf hash s) :
    visited s = (keys s).map some := by
  unfold visited size
  rw [hwf.card]
  apply List.ext_getElem?
  intro j
  by_cases hj : j < (keys s).length
  · simp [hj, cursor_after_deref hash hwf, List.getElem?_eq_getElem]
  · have h1 : (List.range (keys s).length)[j]? = none :=
      List.getElem?_eq_none (by rw [List.length_range]; omega)
    have h2 : (keys s)[j]? = none := List.getElem?_eq_none (by omega)
    simp [h1, h2]

theorem cursor_eq_end_iff (s : ADS_set Key) (j : Nat) :
    (cursor_after s j).eq end_ = true ↔ (cursor_after s j).deref = none := by
  unfold Iterator.eq Iterator.deref
  cases (cursor_after s j).pos with
  | nil => simp [end_]
  | cons k tl => simp [end_]

/-- Claim C3: on every reachable set (with `N ≥ 1`), the cursor reached from
`begin()` by `j` applications of `++` is `end()` exactly when `j ≥ size()`, so
`end()` is reached after exactly `size()` steps; the keys dereferenced on the way
are `size()` keys (no dereference hits `nullptr`) and contain every key as often
as `count` says (once if present, never if absent); `begin()` is `end()` when the
set is empty. -/
theorem C3_iteration_visits_each_key_once (hN : 0 < N) (s : ADS_set Key)
    (hr : Reachable N hash s) :
    (∀ j, (cursor_after s j).eq end_ = true ↔ size s ≤ j) ∧
    (∃ l : List Key, visited s = l.map some ∧ l.length = size s ∧
      ∀ k, l.count k = count hash s k) ∧
    (empty s = true → (begin s).eq end_ = true) := by
  have hinv := reachable_inv N hash hN hr
  have hwf := hinv.wf
  have hend : ∀ j, (cursor_after s j).eq end_ = true ↔ size s ≤ j := by
    intro j
    rw [cursor_eq_end_iff, cursor_after_deref hash hwf, List.getElem?_eq_none_iff]
    unfold size
    rw [hwf.card]
  refine ⟨hend, ⟨keys s, visited_eq hash hwf, hwf.card.symm, ?_⟩, ?_⟩
  · intro k
    rw [count_eq hash hwf]
    by_cases hk : k ∈ keys s
    · rw [if_pos hk]
      exact List.count_eq_one_of_mem hwf.nodup hk
    · rw [if_neg hk]
      exact List.count_eq_zero_of_not_mem hk
  · intro he
    have h0 : size s = 0 := by simpa [empty, size] using he
    have := (hend 0).mpr (by omega)
    exact this

end Claims2
section Claims3

variable {Key : Type} [DecidableEq Key] (N : Nat) (hash : Key → Nat)

/-- Instance of C3: the traversal of the sample set. -/
theorem C3_iteration_visits_each_key_once_witness :
    (0 < 7 ∧ Reachable 7 (fun k : Nat => k) sample_set) ∧
    ((∀ j, (cursor_after sample_set j).eq end_ = true ↔ size sample_set ≤ j) ∧
    (∃ l : List Nat, visited sample_set = l.map some ∧ l.length = size sample_set ∧
      ∀ k, l.count k = count (fun k : Nat => k) sample_set k) ∧
    (empty sample_set = true → (begin sample_set).eq end_ = true)) :=
  ⟨⟨by decide, sample_set_reachable⟩,
    C3_iteration_visits_each_key_once 7 (fun k : Nat => k) (by decide) sample_set
      sample_set_reachable⟩

/-- Claim C4: on every reachable set (with `N ≥ 1`) and for every key, whenever
`insert` returns, `curr_size ≤ 2 * table_size` holds right after it, whether the
key was new or not; and `insert` does return (with one level of `insert_`) when
the key is present or the table has room for it.  (An `insert` that has to
rehash does not return, see C10.) -/
theorem C4_load_bound_after_insert (hN : 0 < N) (s : ADS_set Key) (hr : Reachable N hash s)
    (key : Key) (fuel : Nat) :
    (∀ r, insert N hash fuel s key = some r → r.1.curr_size ≤ 2 * r.1.table_size) ∧
    (count hash s key = 1 ∨ s.curr_size + 1 ≤ 2 * s.table_size → 1 ≤ fuel →
      ∃ r, insert N hash fuel s key = some r) := by
  have hinv := reachable_inv N hash hN hr
  refine ⟨fun r hins => ?_, fun hroom hfuel => ?_⟩
  · exact (reachable_inv N hash hN (Reachable.insert fuel s key r hr hins)).load
  · refine insert_some N hash hinv.wf key ?_ fuel hfuel
    rcases hroom with hc | hroom
    · left
      rw [count_eq hash hinv.wf] at hc
      by_contra hk
      rw [if_neg hk] at hc
      exact absurd hc (by decide)
    · exact Or.inr hroom

/-- Instance of C4: a new key inserted into the sample set, which has room. -/
theorem C4_load_bound_after_insert_witness :
    (0 < 7 ∧ Reachable 7 (fun k : Nat => k) sample_set) ∧
    ((∀ r, insert 7 (fun k : Nat => k) 1 sample_set 10 = some r →
      r.1.curr_size ≤ 2 * r.1.table_size) ∧
    (count (fun k : Nat => k) sample_set 10 = 1 ∨
        sample_set.curr_size + 1 ≤ 2 * sample_set.table_size → 1 ≤ 1 →
      ∃ r, insert 7 (fun k : Nat => k) 1 sample_set 10 = some r)) ∧
    insert 7 (fun k : Nat => k) 1 sample_set 10 =
      some ({ table := [[], [8, 1], [], [10, 3], [], [], []], table_size := 7, curr_size := 4 },
        { pos := [10, 3], table := [[], [8, 1], [], [10, 3], [], [], []], idx := 3,
          table_size := 7 }, true) :=
  ⟨⟨by decide, sample_set_reachable⟩,
    C4_load_bound_after_insert 7 (fun k : Nat => k) (by decide) sample_set
      sample_set_reachable 10 1,
    by decide⟩

end Claims3
section EqualityClaim

variable {Key : Type} [DecidableEq Key] (N : Nat) (hash : Key → Nat)

theorem count_eq_iff_mem {a b : ADS_set Key} (ha : Wf hash a) (hb : Wf hash b) :
    (∀ k, count hash a k = count hash b k) ↔ ∀ k, k ∈ keys a ↔ k ∈ keys b := by
  constructor
  · intro hc k
    have := hc k
    rw [count_eq hash ha, count_eq hash hb] at this
    by_cases h1 : k ∈ keys a <;> by_cases h2 : k ∈ keys b <;> simp_all
  · intro hm k
    rw [count_eq hash ha, count_eq hash hb]
    by_cases h1 : k ∈ keys a
    · rw [if_pos h1, if_pos ((hm k).mp h1)]
    · rw [if_neg h1, if_neg (fun hx => h1 ((hm k).mpr hx))]

theorem same_keys_iff {a b : ADS_set Key} (ha : Wf hash a) (hb : Wf hash b) :
    (a.curr_size = b.curr_size ∧ ∀ k ∈ keys b, k ∈ keys a) ↔
      ∀ k, k ∈ keys a ↔ k ∈ keys b := by
  constructor
  · rintro ⟨hsz, hsub⟩
    have hperm : (keys b).Perm (keys a) :=
      (List.subperm_of_subset hb.nodup hsub).perm_of_length_le
        (by rw [← ha.card, ← hb.card, hsz])
    exact fun k => (hperm.mem_iff).symm
  · intro hm
    have hperm : (keys a).Perm (keys b) :=
      (List.perm_ext_iff_of_nodup ha.nodup hb.nodup).mpr hm
    exact ⟨by rw [ha.card, hb.card, hperm.length_eq], fun k hk => (hm k).mpr hk⟩

/-- The value of `lhs == rhs` on two tables that satisfy the table invariant. -/
theorem eq_spec {a b : ADS_set Key} (ha : Wf hash a) (hb : Wf hash b) (steps : Nat)
    (hsteps : b.curr_size < steps) :
    ∃ r, eq hash steps a b = some r ∧ (r = true ↔ ∀ k, count hash a k = count hash b k) := by
  unfold eq
  by_cases hsz : a.curr_size = b.curr_size
  · obtain ⟨hv, hr⟩ := begin_spec b hb.len
    rw [if_neg (by simpa using hsz),
      eq_loop_spec hash a (keys b) (begin b) steps hv hr (by rw [← hb.card]; exact hsteps)]
    refine ⟨_, rfl, ?_⟩
    rw [List.all_eq_true, count_eq_iff_mem hash ha hb, ← same_keys_iff hash ha hb]
    constructor
    · intro hall
      refine ⟨hsz, fun k hk => ?_⟩
      have := hall k hk
      rw [decide_eq_true_iff, count_eq hash ha] at this
      by_contra hna
      rw [if_neg hna] at this
      exact this rfl
    · rintro ⟨_, hsub⟩ k hk
      rw [decide_eq_true_iff, count_eq hash ha, if_pos (hsub k hk)]
      exact one_ne_zero
  · rw [if_pos (by simpa using hsz)]
    refine ⟨false, rfl, ?_⟩
    rw [count_eq_iff_mem hash ha hb, ← same_keys_iff hash ha hb]
    constructor
    · intro hx
      exact absurd hx (by decide)
    · exact fun hx => absurd hx.1 hsz

end EqualityClaim
section Claims5

variable {Key : Type} [DecidableEq Key] (N : Nat) (hash : Key → Nat)

/-- Claim C5: for two reachable sets `a` and `b` (with `N ≥ 1`, and enough steps
for the loop over `b`), `a == b` returns, and returns true exactly when
`a.count(k) = b.count(k)` for every key `k`; hence `b == a` returns the same as
`a == b`, and two sets of equal size of which one lacks a key of the other
compare unequal.  The insertions of a duplicate-free list of at most `2 * N` keys
into a fresh set return, and whenever two sets were built by inserting
permutations of one duplicate-free list they compare equal. -/
theorem C5_equality_is_same_keys (hN : 0 < N) (a b : ADS_set Key)
    (ha : Reachable N hash a) (hb : Reachable N hash b) (steps : Nat)
    (hsteps : b.curr_size < steps) :
    (∃ r, eq hash steps a b = some r ∧ (r = true ↔ ∀ k, count hash a k = count hash b k)) ∧
    (∀ steps2, a.curr_size < steps2 → eq hash steps2 b a = eq hash steps a b) ∧
    (size a = size b → (∃ k, count hash a k ≠ count hash b k) →
      eq hash steps a b = some false) ∧
    (∀ (l1 l2 : List Key) (fuel : Nat), l1.Nodup → l1.Perm l2 →
      (l1.length ≤ 2 * N → 1 ≤ fuel →
        ∃ a1 b1, run_fresh N hash fuel (l1.map Op.insert) = some a1 ∧
          run_fresh N hash fuel (l2.map Op.insert) = some b1) ∧
      ∀ a1 b1, run_fresh N hash fuel (l1.map Op.insert) = some a1 →
        run_fresh N hash fuel (l2.map Op.insert) = some b1 →
        ∀ st, b1.curr_size < st → eq hash st a1 b1 = some true) := by
  have hia := (reachable_inv N hash hN ha).wf
  have hib := (reachable_inv N hash hN hb).wf
  obtain ⟨r, hr, hiff⟩ := eq_spec hash hia hib steps hsteps
  refine ⟨⟨r, hr, hiff⟩, ?_, ?_, ?_⟩
  · intro steps2 hs2
    obtain ⟨r2, hr2, hiff2⟩ := eq_spec hash hib hia steps2 hs2
    rw [hr, hr2]
    congr 1
    rw [Bool.eq_iff_iff, hiff, hiff2]
    exact ⟨fun hx k => (hx k).symm, fun hx k => (hx k).symm⟩
  · rintro _ ⟨k, hk⟩
    rw [hr]
    congr 1
    rw [Bool.eq_false_iff, Ne, hiff]
    exact fun hx => hk (hx k)
  · intro l1 l2 fuel _ hperm
    refine ⟨fun hlen hfuel => ?_, fun a1 b1 hra hrb st hst => ?_⟩
    · obtain ⟨a1, hra⟩ := run_fresh_inserts_some N hash hN fuel hfuel l1 hlen
      obtain ⟨b1, hrb⟩ := run_fresh_inserts_some N hash hN fuel hfuel l2
        (by rw [← hperm.length_eq]; exact hlen)
      exact ⟨a1, b1, hra, hrb⟩
    · obtain ⟨hinva, hma⟩ := run_fresh_spec N hash hN fuel _ a1 hra
      obtain ⟨hinvb, hmb⟩ := run_fresh_spec N hash hN fuel _ b1 hrb
      obtain ⟨r1, hr1, hiff1⟩ := eq_spec hash hinva.wf hinvb.wf st hst
      rw [hr1]
      congr 1
      rw [hiff1, count_eq_iff_mem hash hinva.wf hinvb.wf]
      intro k
      rw [hma k, hmb k, track_inserts, track_inserts, hperm.mem_iff]

/-- Instance of C5: the sample set against the same keys inserted in another order. -/
theorem C5_equality_is_same_keys_witness :
    (0 < 7 ∧ Reachable 7 (fun k : Nat => k) sample_set ∧
      Reachable 7 (fun k : Nat => k) sample_set_reordered ∧
      sample_set_reordered.curr_size < 4) ∧
    ((∃ r, eq (fun k : Nat => k) 4 sample_set sample_set_reordered = some r ∧
      (r = true ↔ ∀ k, count (fun k : Nat => k) sample_set k =
        count (fun k : Nat => k) sample_set_reordered k)) ∧
    (∀ steps2, sample_set.curr_size < steps2 →
      eq (fun k : Nat => k) steps2 sample_set_reordered sample_set =
        eq (fun k : Nat => k) 4 sample_set sample_set_reordered) ∧
    (size sample_set = size sample_set_reordered →
      (∃ k, count (fun k : Nat => k) sample_set k ≠
        count (fun k : Nat => k) sample_set_reordered k) →
      eq (fun k : Nat => k) 4 sample_set sample_set_reordered = some false) ∧
    (∀ (l1 l2 : List Nat) (fuel : Nat), l1.Nodup → l1.Perm l2 →
      (l1.length ≤ 2 * 7 → 1 ≤ fuel →
        ∃ a1 b1, run_fresh 7 (fun k : Nat => k) fuel (l1.map Op.insert) = some a1 ∧
          run_fresh 7 (fun k : Nat => k) fuel (l2.map Op.insert) = some b1) ∧
      ∀ a1 b1, run_fresh 7 (fun k : Nat => k) fuel (l1.map Op.insert) = some a1 →
        run_fresh 7 (fun k : Nat => k) fuel (l2.map Op.insert) = some b1 →
        ∀ st, b1.curr_size < st → eq (fun k : Nat => k) st a1 b1 = some true)) ∧
    eq (fun k : Nat => k) 4 sample_set sample_set_reordered = some true :=
  ⟨⟨by decide, sample_set_reachable, sample_set_reordered_reachable, by decide⟩,
    C5_equality_is_same_keys 7 (fun k : Nat => k) (by decide) sample_set sample_set_reordered
      sample_set_reachable sample_set_reordered_reachable 4 (by decide),
    by decide⟩

/-- Claim C6: on every reachable set (with `N ≥ 1`), `erase(k)` of an absent key
returns 0 and leaves the state as it is; `erase(k)` of a present key returns 1,
lowers `curr_size` by one, keeps `table_size` and the number of slots, turns the
chain of bucket `h(k)` from `pre ++ k :: post` into `pre ++ post` (where `k` is
neither in `pre` nor in `post`) and leaves every other bucket as it is. -/
theorem C6_erase_unlinks_one_entry (hN : 0 < N) (s : ADS_set Key) (hr : Reachable N hash s)
    (k : Key) :
    (count hash s k = 0 → erase hash s k = (s, 0)) ∧
    (count hash s k = 1 →
      (erase hash s k).2 = 1 ∧
      (erase hash s k).1.curr_size + 1 = s.curr_size ∧
      (erase hash s k).1.table_size = s.table_size ∧
      (erase hash s k).1.table.length = s.table.length ∧
      (∃ pre post, bucket s.table (h hash s k) = pre ++ k :: post ∧ k ∉ pre ∧ k ∉ post ∧
        bucket (erase hash s k).1.table (h hash s k) = pre ++ post) ∧
      ∀ i, i ≠ h hash s k → bucket (erase hash s k).1.table i = bucket s.table i) := by
  have hinv := reachable_inv N hash hN hr
  have hwf := hinv.wf
  have hi : h hash s k < s.table.length := by
    rw [hwf.len]; exact h_lt hash s k hwf.pos
  constructor
  · intro hc
    rw [count_eq hash hwf] at hc
    by_cases hk : k ∈ keys s
    · rw [if_pos hk] at hc
      exact absurd hc one_ne_zero
    · exact erase_absent hash hwf k hk
  · intro hc
    rw [count_eq hash hwf] at hc
    have hk : k ∈ keys s := by
      by_contra hk
      rw [if_neg hk] at hc
      exact absurd hc (by decide)
    have hmem : k ∈ bucket s.table (h hash s k) := by
      have hne := (find__ne_nil_iff hash hwf k).mpr hk
      rw [find__eq, Ne, find_loop_nil_iff, not_not] at hne
      exact hne
    have hpos : 0 < s.curr_size := by
      rw [hwf.card]
      exact List.length_pos_of_mem hk
    have hnd : (bucket s.table (h hash s k)).Nodup := by
      have := hwf.nodup
      unfold keys at this
      rw [flatten_split s.table _ hi] at this
      exact ((List.nodup_append.mp (List.nodup_append.mp this).2.1).1)
    rw [erase_present hash hwf k hk]
    refine ⟨rfl, ?_, rfl, ?_, ?_, ?_⟩
    · show s.curr_size - 1 + 1 = s.curr_size
      omega
    · simp only [length_set_bucket]
    · obtain ⟨pre, post, hsplit⟩ := List.append_of_mem hmem
      have hnd2 := hnd
      rw [hsplit] at hnd2
      have hpre : k ∉ pre := by
        intro hx
        have := (List.nodup_append.mp hnd2).2.2 hx (List.mem_cons_self _ _)
        exact this
      have hpost : k ∉ post := by
        have := (List.nodup_append.mp hnd2).2.1
        exact (List.nodup_cons.mp this).1
      refine ⟨pre, post, hsplit, hpre, hpost, ?_⟩
      simp only
      rw [bucket_set_self _ _ _ hi, hsplit, List.erase_append_right _ hpre]
      simp
    · intro i hne
      simp only
      exact bucket_set_ne _ _ _ _ (Ne.symm hne)

/-- Instance of C6: erasing the interior entry 1 of the chain of bucket 1. -/
theorem C6_erase_unlinks_one_entry_witness :
    (0 < 7 ∧ Reachable 7 (fun k : Nat => k) sample_set) ∧
    ((count (fun k : Nat => k) sample_set 1 = 0 →
      erase (fun k : Nat => k) sample_set 1 = (sample_set, 0)) ∧
    (count (fun k : Nat => k) sample_set 1 = 1 →
      (erase (fun k : Nat => k) sample_set 1).2 = 1 ∧
      (erase (fun k : Nat => k) sample_set 1).1.curr_size + 1 = sample_set.curr_size ∧
      (erase (fun k : Nat => k) sample_set 1).1.table_size = sample_set.table_size ∧
      (erase (fun k : Nat => k) sample_set 1).1.table.length = sample_set.table.length ∧
      (∃ pre post, bucket sample_set.table (h (fun k : Nat => k) sample_set 1) =
          pre ++ 1 :: post ∧ 1 ∉ pre ∧ 1 ∉ post ∧
        bucket (erase (fun k : Nat => k) sample_set 1).1.table
          (h (fun k : Nat => k) sample_set 1) = pre ++ post) ∧
      ∀ i, i ≠ h (fun k : Nat => k) sample_set 1 →
        bucket (erase (fun k : Nat => k) sample_set 1).1.table i =
          bucket sample_set.table i)) :=
  ⟨⟨by decide, sample_set_reachable⟩,
    C6_erase_unlinks_one_entry 7 (fun k : Nat => k) (by decide) sample_set
      sample_set_reachable 1⟩

end Claims5
section Claims7

variable {Key : Type} [DecidableEq Key] (N : Nat) (hash : Key → Nat)

theorem find__cursor {s : ADS_set Key} (hwf : Wf hash s) (k : Key) (hk : k ∈ keys s) :
    (find_ hash s k).head? = some k ∧
      ∃ pre, bucket s.table (h hash s k) = pre ++ find_ hash s k := by
  have hne := (find__ne_nil_iff hash hwf k).mpr hk
  rw [find__eq] at hne ⊢
  obtain ⟨tl, htl⟩ := find_loop_head k _ hne
  obtain ⟨pre, hpre, _⟩ := find_loop_split k (bucket s.table (h hash s k))
  exact ⟨by rw [htl]; rfl, pre, hpre⟩

theorem count_one_iff {s : ADS_set Key} (hwf : Wf hash s) (k : Key) :
    count hash s k = 1 ↔ k ∈ keys s := by
  rw [count_eq hash hwf]
  by_cases hk : k ∈ keys s <;> simp [hk]

theorem count_zero_iff {s : ADS_set Key} (hwf : Wf hash s) (k : Key) :
    count hash s k = 0 ↔ k ∉ keys s := by
  rw [count_eq hash hwf]
  by_cases hk : k ∈ keys s <;> simp [hk]

/-- Claim C7: on every reachable set (with `N ≥ 1`), `insert(k)` of a present key
returns, whatever the fuel; and whenever `insert(k)` returns, its flag is false
exactly when `k` was present before the call, and then the state is the old
state (same chains in the same order, same count, same capacity) and the
returned cursor stands on a node of bucket `h(k)` of that table whose key is
`k`.  A new key is inserted with the flag true when the table has room. -/
theorem C7_insert_of_present_key_changes_nothing (hN : 0 < N) (s : ADS_set Key)
    (hr : Reachable N hash s) (k : Key) (fuel : Nat) :
    (count hash s k = 1 → ∃ r, insert N hash fuel s k = some r ∧ r.2.2 = false) ∧
    (count hash s k = 0 → s.curr_size + 1 ≤ 2 * s.table_size → 1 ≤ fuel →
      ∃ r, insert N hash fuel s k = some r ∧ r.2.2 = true) ∧
    (∀ r, insert N hash fuel s k = some r →
      (r.2.2 = false ↔ count hash s k = 1) ∧
      (r.2.2 = false →
        r.1 = s ∧ r.2.1.deref = some k ∧ r.2.1.table = s.table ∧
        r.2.1.table_size = s.table_size ∧ r.2.1.idx = hash k % s.table_size ∧
        ∃ pre, bucket s.table r.2.1.idx = pre ++ r.2.1.pos)) := by
  have hwf := (reachable_inv N hash hN hr).wf
  refine ⟨fun hc => ?_, fun hc hroom hfuel => ?_, fun r hins => ?_⟩
  · exact ⟨_, insert_present N hash hwf k ((count_one_iff hash hwf k).mp hc) fuel, rfl⟩
  · exact ⟨_, insert_absent N hash hwf k ((count_zero_iff hash hwf k).mp hc) hroom fuel hfuel,
      rfl⟩
  · by_cases hk : k ∈ keys s
    · obtain ⟨hhead, pre, hpre⟩ := find__cursor hash hwf k hk
      rw [insert_present N hash hwf k hk fuel] at hins
      rw [← Option.some.inj hins]
      refine ⟨?_, fun _ => ⟨rfl, hhead, rfl, rfl, rfl, pre, hpre⟩⟩
      simp only [true_iff]
      exact (count_one_iff hash hwf k).mpr hk
    · rcases insert_returns N hash hwf k fuel r hins with ⟨hk1, _, _⟩ | ⟨_, _, _, hflag⟩
      · exact absurd hk1 hk
      · refine ⟨?_, fun hx => ?_⟩
        · rw [hflag]
          simp only [Bool.true_eq_false, false_iff]
          exact fun hc => hk ((count_one_iff hash hwf k).mp hc)
        · rw [hflag] at hx
          simp at hx

/-- Instance of C7: the key 8 of the sample set inserted again. -/
theorem C7_insert_of_present_key_changes_nothing_witness :
    (0 < 7 ∧ Reachable 7 (fun k : Nat => k) sample_set) ∧
    ((count (fun k : Nat => k) sample_set 8 = 1 →
      ∃ r, insert 7 (fun k : Nat => k) 1 sample_set 8 = some r ∧ r.2.2 = false) ∧
    (count (fun k : Nat => k) sample_set 8 = 0 →
      sample_set.curr_size + 1 ≤ 2 * sample_set.table_size → 1 ≤ 1 →
      ∃ r, insert 7 (fun k : Nat => k) 1 sample_set 8 = some r ∧ r.2.2 = true) ∧
    (∀ r, insert 7 (fun k : Nat => k) 1 sample_set 8 = some r →
      (r.2.2 = false ↔ count (fun k : Nat => k) sample_set 8 = 1) ∧
      (r.2.2 = false →
        r.1 = sample_set ∧ r.2.1.deref = some 8 ∧ r.2.1.table = sample_set.table ∧
        r.2.1.table_size = sample_set.table_size ∧
        r.2.1.idx = (fun k : Nat => k) 8 % sample_set.table_size ∧
        ∃ pre, bucket sample_set.table r.2.1.idx = pre ++ r.2.1.pos))) ∧
    insert 7 (fun k : Nat => k) 1 sample_set 8 =
      some (sample_set,
        { pos := [8, 1], table := sample_set.table, idx := 1, table_size := 7 }, false) :=
  ⟨⟨by decide, sample_set_reachable⟩,
    C7_insert_of_present_key_changes_nothing 7 (fun k : Nat => k) (by decide) sample_set
      sample_set_reachable 8 1,
    by decide⟩

/-- The part of C8 that the code delivers: on every reachable set (with `N ≥ 1`)
that has room, `insert(k)` of an absent key returns with the flag true and
`curr_size` one higher; the capacity is unchanged, the new entry is the head of
bucket `h(k)` followed by the old chain, the returned cursor refers to the new
bucket array, has `idx = h(k)` and stands on that head, and every other bucket is
unchanged. -/
theorem insert_of_absent_key_with_room (hN : 0 < N) (s : ADS_set Key)
    (hr : Reachable N hash s) (k : Key) (hk : count hash s k = 0)
    (hroom : s.curr_size + 1 ≤ 2 * s.table_size) (fuel : Nat) (hfuel : 1 ≤ fuel) :
    ∃ r, insert N hash fuel s k = some r ∧
      r.2.2 = true ∧ r.1.curr_size = s.curr_size + 1 ∧
      r.2.1.deref = some k ∧ r.2.1.table = r.1.table ∧
      r.2.1.table_size = r.1.table_size ∧ r.2.1.idx = hash k % r.1.table_size ∧
      r.1.table_size = s.table_size ∧
      bucket r.1.table (h hash s k) = k :: bucket s.table (h hash s k) ∧
      r.2.1.pos = bucket r.1.table (h hash s k) ∧
      ∀ i, i ≠ h hash s k → bucket r.1.table i = bucket s.table i := by
  have hinv := reachable_inv N hash hN hr
  have hwf := hinv.wf
  have hk1 : k ∉ keys s := (count_zero_iff hash hwf k).mp hk
  have hi : h hash s k < s.table.length := by
    rw [hwf.len]; exact h_lt hash s k hwf.pos
  have hb : bucket (push_head hash s k).table (h hash s k) =
      k :: bucket s.table (h hash s k) := by
    simp only [push_head]
    exact bucket_set_self _ _ _ hi
  have hpos : find_ hash (push_head hash s k) k = bucket (push_head hash s k).table
      (h hash s k) := by
    rw [find__eq]
    have hh : h hash (push_head hash s k) k = h hash s k := rfl
    rw [hh, hb]
    simp [find_loop]
  refine ⟨_, insert_absent N hash hwf k hk1 hroom fuel hfuel, rfl, rfl, ?_, rfl, rfl, rfl, rfl,
    hb, hpos, fun i hne => ?_⟩
  · show (find_ hash (push_head hash s k) k).head? = some k
    rw [hpos, hb]
    rfl
  · simp only [push_head]
    exact bucket_set_ne _ _ _ _ (Ne.symm hne)

/-- Claim C8, where the code fails it: with the default `N = 7` and any hash
function, the set that holds the keys `0, ..., 13` is built, the key 14 is
absent from it, and `insert(14)`, which has to rehash, has no defined result,
whatever the fuel: `rehash` frees the old chains with a read after `delete`. -/
theorem C8_insert_that_rehashes_has_no_result (hash : Nat → Nat) :
    ∃ s, run_fresh 7 hash 1 ((List.range 14).map Op.insert) = some s ∧
      count hash s 14 = 0 ∧ s.curr_size = 14 ∧ s.table_size = 7 ∧
      ∀ fuel, insert 7 hash fuel s 14 = none := by
  obtain ⟨s, hs⟩ := run_fresh_inserts_some 7 hash (by decide) 1 (by decide) (List.range 14)
    (by decide)
  obtain ⟨hinv, hmem⟩ := run_fresh_spec 7 hash (by decide) 1 _ s hs
  have hreach := reachable_run_fresh 7 hash 1 _ s hs
  have hcap := reachable_capacity_eq 7 hash (by decide) hreach
  have hsize := run_fresh_inserts_size 7 hash (by decide) 1 (List.range 14) s hs
  have hcard : (List.range 14).toFinset.card = 14 := by decide
  rw [hcard] at hsize
  have hk : (14 : Nat) ∉ keys s := by
    rw [hmem 14, track_inserts]
    simp
  refine ⟨s, hs, (count_zero_iff hash hinv.wf 14).mpr hk, hsize, hcap, fun fuel => ?_⟩
  refine insert_full_undefined 7 hash hinv.wf 14 hk ?_ fuel
  unfold size at hsize
  omega

end Claims7
section Claims9

variable {Key : Type} [DecidableEq Key] (N : Nat) (hash : Key → Nat)

theorem erase_size {s : ADS_set Key} (hwf : Wf hash s) (k : Key) (hk : k ∈ keys s) :
    size (erase hash s k).1 + 1 = size s := by
  have hpos : 0 < s.curr_size := by
    rw [hwf.card]
    exact List.length_pos_of_mem hk
  rw [erase_present hash hwf k hk]
  show s.curr_size - 1 + 1 = s.curr_size
  omega

theorem erase_count_zero {s : ADS_set Key} (hwf : Wf hash s) (k : Key) :
    count hash (erase hash s k).1 k = 0 := by
  rw [count_zero_iff hash (erase_wf hash hwf k), erase_mem hash hwf]
  exact fun hx => hx.1 rfl

/-- Counterexample to C9 as stated: the set that holds the key 1 only is reachable,
`insert(1)` leaves it as it is, and after `erase(1)` the size is 0 although it
was 1 before the insert. -/
theorem C9_present_key_counterexample :
    Reachable 7 (fun k : Nat => k) singleton_set ∧
    insert 7 (fun k : Nat => k) 2 singleton_set 1 =
      some (singleton_set,
        { pos := [1], table := singleton_set.table, idx := 1, table_size := 7 }, false) ∧
    size singleton_set = 1 ∧
    size (erase (fun k : Nat => k) singleton_set 1).1 = 0 :=
  ⟨singleton_set_reachable, by decide, by decide, by decide⟩

/-- Claim C9, amended: on every reachable set (with `N ≥ 1`, and one level of
`insert_`), for every key whose insertion does not have to grow the table (the
key is present, or `curr_size + 1 ≤ 2 * table_size`): `insert(k)` returns, and
after the following `erase(k)` the value of `count(k)` is 0; `size()` is what it
was before the insert when `k` was absent then, and one less when `k` was
present then. -/
theorem C9_insert_then_erase (hN : 0 < N) (s : ADS_set Key) (hr : Reachable N hash s)
    (k : Key) (hroom : count hash s k = 1 ∨ s.curr_size + 1 ≤ 2 * s.table_size)
    (fuel : Nat) (hfuel : 1 ≤ fuel) :
    ∃ r, insert N hash fuel s k = some r ∧
      count hash (erase hash r.1 k).1 k = 0 ∧
      (count hash s k = 0 → size (erase hash r.1 k).1 = size s) ∧
      (count hash s k = 1 → size (erase hash r.1 k).1 + 1 = size s) := by
  have hinv := reachable_inv N hash hN hr
  have hwf := hinv.wf
  have hroom1 : k ∈ keys s ∨ s.curr_size + 1 ≤ 2 * s.table_size := by
    rcases hroom with hc | hroom
    · exact Or.inl ((count_one_iff hash hwf k).mp hc)
    · exact Or.inr hroom
  obtain ⟨r, hins⟩ := insert_some N hash hwf k hroom1 fuel hfuel
  have hst := insert_state N hash hwf k fuel r hins
  have hinv1 := reachable_inv N hash hN (Reachable.insert fuel s k r hr hins)
  refine ⟨r, hins, erase_count_zero hash hinv1.wf k, fun hc => ?_, fun hc => ?_⟩
  · have hk : k ∉ keys s := (count_zero_iff hash hwf k).mp hc
    rw [if_neg hk] at hst
    obtain ⟨_, hperm⟩ := insert_result_inv N hash hinv k hk
    rw [← hst] at hperm
    have hk1 : k ∈ keys r.1 := hperm.mem_iff.mpr (List.mem_cons_self _ _)
    have hsz := erase_size hash hinv1.wf k hk1
    have : size r.1 = size s + 1 := by
      unfold size
      rw [hinv1.wf.card, hperm.length_eq, List.length_cons, hwf.card]
    omega
  · have hk : k ∈ keys s := (count_one_iff hash hwf k).mp hc
    rw [if_pos hk] at hst
    rw [hst]
    exact erase_size hash hwf k hk

/-- Instance of C9: an absent key inserted into the sample set and erased again. -/
theorem C9_insert_then_erase_witness :
    (0 < 7 ∧ Reachable 7 (fun k : Nat => k) sample_set ∧
      (count (fun k : Nat => k) sample_set 10 = 1 ∨
        sample_set.curr_size + 1 ≤ 2 * sample_set.table_size) ∧ 1 ≤ 1) ∧
    ∃ r, insert 7 (fun k : Nat => k) 1 sample_set 10 = some r ∧
      count (fun k : Nat => k) (erase (fun k : Nat => k) r.1 10).1 10 = 0 ∧
      (count (fun k : Nat => k) sample_set 10 = 0 →
        size (erase (fun k : Nat => k) r.1 10).1 = size sample_set) ∧
      (count (fun k : Nat => k) sample_set 10 = 1 →
        size (erase (fun k : Nat => k) r.1 10).1 + 1 = size sample_set) :=
  ⟨⟨by decide, sample_set_reachable, by decide, by decide⟩,
    C9_insert_then_erase 7 (fun k : Nat => k) (by decide) sample_set sample_set_reachable 10
      (by decide) 1 (by decide)⟩

/-- The part of C10 that the code delivers: on every reachable set (with `N ≥ 1`),
whenever `insert` returns, the capacity is what it was, and the table had room
for the key if it was new. -/
theorem capacity_after_returning_insert (hN : 0 < N) (s : ADS_set Key)
    (hr : Reachable N hash s) (k : Key) (fuel : Nat) (r : ADS_set Key × Iterator Key × Bool)
    (hins : insert N hash fuel s k = some r) :
    r.1.table_size = s.table_size ∧
      (count hash s k = 0 → s.curr_size + 1 ≤ 2 * s.table_size) := by
  have hwf := (reachable_inv N hash hN hr).wf
  rcases insert_returns N hash hwf k fuel r hins with ⟨hk, hr1, _⟩ | ⟨_, hroom, hr1, _⟩
  · refine ⟨by rw [hr1], fun hc => ?_⟩
    exact absurd hk ((count_zero_iff hash hwf k).mp hc)
  · exact ⟨by rw [hr1, push_head_table_size], fun _ => hroom⟩

/-- Claim C10, where the code fails it: the set `full_set` (`N = 1`, keys 4 and 5
in the one bucket) is reachable, has capacity `c = 1` and count `n = 2`, and the
key 9 is absent; `n + 1 > 2c`, and the first capacity of `1, 3, 7, ...` with
`n + 1 ≤ 2 * capacity` is 3, which is what `reserve` requests; but `insert(9)`
has no defined result, whatever the fuel, because `rehash(3)` frees the old
chain with a read after `delete`. -/
theorem C10_growth_has_no_result :
    Reachable 1 (fun k : Nat => k) full_set ∧
    count (fun k : Nat => k) full_set 9 = 0 ∧
    full_set.table_size = 1 ∧ full_set.curr_size = 2 ∧
    ¬ full_set.curr_size + 1 ≤ 2 * capacity_seq full_set.table_size 0 ∧
    full_set.curr_size + 1 ≤ 2 * capacity_seq full_set.table_size 1 ∧
    grow_loop (full_set.curr_size + 1) (full_set.curr_size + 1) full_set.table_size =
      capacity_seq full_set.table_size 1 ∧
    ∀ fuel, insert 1 (fun k : Nat => k) fuel full_set 9 = none :=
  ⟨full_set_reachable, by decide, rfl, rfl, by decide, by decide, by decide,
    fun fuel => insert_full_undefined 1 (fun k : Nat => k)
      (reachable_inv 1 (fun k : Nat => k) (by decide) full_set_reachable).wf 9 (by decide)
      (by decide) fuel⟩

end Claims9
section Claims11

variable {Key : Type} [DecidableEq Key] (N : Nat) (hash : Key → Nat)

/-- The set after the keys `0, ..., m - 1` were inserted in order into a fresh set
with `N = 7`, for `m ≤ 14`: the insertions return, the set holds these keys and
its capacity is 7. -/
theorem run_first_keys (hash : Nat → Nat) (fuel : Nat) (hfuel : 1 ≤ fuel) (m : Nat)
    (hm : m ≤ 14) :
    ∃ s, run_fresh 7 hash fuel ((List.range m).map Op.insert) = some s ∧
      Inv 7 hash s ∧ (∀ k, k ∈ keys s ↔ k < m) ∧ s.curr_size = m ∧ s.table_size = 7 := by
  obtain ⟨s, hs⟩ := run_fresh_inserts_some 7 hash (by decide) fuel hfuel (List.range m)
    (by rw [List.length_range]; omega)
  obtain ⟨hinv, hmem⟩ := run_fresh_spec 7 hash (by decide) fuel _ s hs
  have hsize := run_fresh_inserts_size 7 hash (by decide) fuel (List.range m) s hs
  refine ⟨s, hs, hinv, fun k => ?_, ?_,
    reachable_capacity_eq 7 hash (by decide) (reachable_run_fresh 7 hash fuel _ s hs)⟩
  · rw [hmem k, track_inserts]
    simp
  · unfold size at hsize
    rw [hsize, List.toFinset_card_of_nodup (List.nodup_range m), List.length_range]

/-- Claim C11, where the code fails it: with `N = 7` and any hash function a
fresh set has capacity 7, and after the first `m ≤ 14` of the keys `0, ..., 14`
were inserted in order the capacity is still 7, `size()` is `m` and `count(k)`
is 1 for every `k < m`; the 15th insertion requests the capacity 15, the first
value of `7, 15, 31, ...` with `15 ≤ 2 * capacity`, but it has no defined
result, whatever the fuel, because `rehash(15)` frees the old chains with a
read after `delete`: the state with capacity 15 and size 15 is never returned. -/
theorem C11_fifteenth_insertion_has_no_result (hash : Nat → Nat) :
    (∃ s, ctor 7 hash 1 = some s ∧ s.table_size = 7) ∧
    (∀ m, m ≤ 14 →
      ∃ s, run_fresh 7 hash 1 ((List.range m).map Op.insert) = some s ∧
        s.table_size = 7 ∧ size s = m ∧ ∀ k, k < m → count hash s k = 1) ∧
    grow_loop 15 15 7 = 15 ∧ capacity_seq 7 1 = 15 ∧
    ¬ 15 ≤ 2 * capacity_seq 7 0 ∧ 15 ≤ 2 * capacity_seq 7 1 ∧
    (∀ fuel, run_fresh 7 hash fuel ((List.range 15).map Op.insert) = none) ∧
    (∀ fuel s, run_fresh 7 hash fuel ((List.range 14).map Op.insert) = some s →
      insert 7 hash fuel s 14 = none) := by
  refine ⟨⟨fresh 7, ctor_eq 7 hash 1, rfl⟩, fun m hm => ?_, by decide, by decide, by decide,
    by decide, fun fuel =>
      run_fresh_inserts_overflow 7 hash (by decide) fuel (List.range 15) (by decide),
    fun fuel s hs => ?_⟩
  · obtain ⟨s, hs, hinv, hmem, hsz, hcap⟩ := run_first_keys hash 1 (by decide) m hm
    refine ⟨s, hs, hcap, hsz, fun k hk => ?_⟩
    rw [count_eq hash hinv.wf, if_pos ((hmem k).mpr hk)]
  · obtain ⟨hinv, hmem⟩ := run_fresh_spec 7 hash (by decide) fuel _ s hs
    have hsize := run_fresh_inserts_size 7 hash (by decide) fuel (List.range 14) s hs
    have hcard : (List.range 14).toFinset.card = 14 := by decide
    have hcap := reachable_capacity_eq 7 hash (by decide)
      (reachable_run_fresh 7 hash fuel _ s hs)
    have hk : (14 : Nat) ∉ keys s := by
      rw [hmem 14, track_inserts]
      simp
    refine insert_full_undefined 7 hash hinv.wf 14 hk ?_ fuel
    unfold size at hsize
    omega

end Claims11
section Claims12

variable {Key : Type} [DecidableEq Key] (N : Nat) (hash : Key → Nat)

theorem begin_eq_end_of_keys_nil {s : ADS_set Key} (hlen : s.table.length = s.table_size)
    (hk : keys s = []) : (begin s).eq end_ = true := by
  obtain ⟨_, hr⟩ := begin_spec s hlen
  rw [hk] at hr
  unfold Iterator.remaining at hr
  have hp : (begin s).pos = [] := (List.append_eq_nil.mp hr).1
  simp [Iterator.eq, hp, end_]

theorem count_fresh (m : Nat) (k : Key) : count hash (fresh m : ADS_set Key) k = 0 := by
  have hnil : ∀ i, bucket (fresh m : ADS_set Key).table i = [] := by
    intro i
    by_contra hne
    obtain ⟨x, hx⟩ := List.exists_mem_of_ne_nil _ hne
    have hmem : x ∈ keys (fresh m : ADS_set Key) := (mem_flatten_iff_bucket _ x).mpr ⟨i, hx⟩
    rw [fresh_keys] at hmem
    simp at hmem
  simp [count, find_, hnil]

/-- The part of C12 that the code delivers: on a reachable set that is empty
(with `N ≥ 1`), `clear()` returns and leaves the state of a freshly constructed
set: `size()` is 0, `empty()` is true, `count(k)` is 0 for every key, `begin()`
is `end()` and the capacity is `N`. -/
theorem clear_of_empty_set (hN : 0 < N) (s : ADS_set Key) (hr : Reachable N hash s)
    (hempty : size s = 0) (fuel : Nat) :
    ∃ s1, clear N hash fuel s = some s1 ∧ ctor N hash fuel = some s1 ∧
      size s1 = 0 ∧ empty s1 = true ∧ (∀ k, count hash s1 k = 0) ∧
      (begin s1).eq end_ = true ∧ s1.table_size = N := by
  have hwf := (reachable_inv N hash hN hr).wf
  have hnil : collect s = [] := by
    rw [collect_eq s hwf.len]
    apply List.eq_nil_of_length_eq_zero
    have := hwf.card
    unfold size at hempty
    unfold keys at this
    omega
  refine ⟨fresh N, ?_, ctor_eq N hash fuel, rfl, rfl, fun k => count_fresh hash N k, ?_, rfl⟩
  · rw [clear_eq, if_pos hnil]
  · exact begin_eq_end_of_keys_nil (by simp [fresh]) (fresh_keys N)

/-- On a reachable set that holds a key, `clear()` has no defined result: the
destructor of `tmp` walks the old chains with a read after `delete`. -/
theorem clear_of_nonempty_set (hN : 0 < N) (s : ADS_set Key) (hr : Reachable N hash s)
    (hne : size s ≠ 0) (fuel : Nat) : clear N hash fuel s = none := by
  have hwf := (reachable_inv N hash hN hr).wf
  have hnil : collect s ≠ [] := by
    rw [collect_eq s hwf.len]
    intro hx
    have := hwf.card
    unfold keys at this
    rw [hx] at this
    exact hne this
  rw [clear_eq, if_neg hnil]

/-- Claim C12, where the code fails it: the set that holds the key 1 only (`N = 7`,
identity hash) is reachable, and `clear()` on it has no defined result, whatever
the fuel, because `clear` destroys `tmp`, which then owns the old chain, and
`~ADS_set` frees a chain with a read after `delete`; the claim says that the
set is afterwards empty with capacity 7.  On the fresh set `clear()` returns. -/
theorem C12_clear_of_nonempty_set_has_no_result :
    Reachable 7 (fun k : Nat => k) singleton_set ∧ size singleton_set = 1 ∧
    destroy singleton_set = none ∧
    (∀ fuel, clear 7 (fun k : Nat => k) fuel singleton_set = none) ∧
    (∀ fuel, clear 7 (fun k : Nat => k) fuel (fresh 7 : ADS_set Nat) = some (fresh 7)) :=
  ⟨singleton_set_reachable, rfl, by decide,
    fun fuel => clear_of_nonempty_set 7 (fun k : Nat => k) (by decide) singleton_set
      singleton_set_reachable (by decide) fuel,
    fun fuel => by rw [clear_eq]; rfl⟩

theorem copy_eq (hN : 0 < N) {s : ADS_set Key} (hr : Reachable N hash s) (fuel steps : Nat)
    (hfuel : 1 ≤ fuel) (hsteps : s.curr_size < steps) :
    copy N hash fuel steps s = some (push_all hash (fresh N) (keys s)) := by
  have hinv := reachable_inv N hash hN hr
  have hcap := reachable_capacity_eq N hash hN hr
  obtain ⟨hv, hrem⟩ := begin_spec s hinv.wf.len
  obtain ⟨f, rfl⟩ : ∃ f, fuel = f + 1 := ⟨fuel - 1, by omega⟩
  unfold copy
  rw [ctor_eq]
  simp only
  rw [rehash_fresh]
  simp only
  rw [copy_loop_spec N hash (f + 1) (keys s) (begin s) steps _ hv hrem
    (by rw [← hinv.wf.card]; exact hsteps)]
  apply reinsert_push
  show 0 + (keys s).length ≤ 2 * N
  have := hinv.load
  rw [← hinv.wf.card]
  omega

/-- The part of C13 that the code delivers: for every reachable set `s` (with
`N ≥ 1`, one level of `insert_` and enough steps for the loop over `s`), the
copy constructor returns, and so does copy assignment to a left operand without
keys, and to the object itself; the copy has the size of `s`, the same
`count(k)` for every key, compares `==` to `s`, satisfies the table invariant
and `curr_size ≤ 2 * table_size`, and has `N` buckets like `s`. -/
theorem copy_has_the_same_keys (hN : 0 < N) (s : ADS_set Key) (hr : Reachable N hash s)
    (fuel steps : Nat) (hfuel : 1 ≤ fuel) (hsteps : s.curr_size < steps) :
    ∃ c, copy N hash fuel steps s = some c ∧
      (∀ this, collect this = [] → copy_assign N hash fuel steps this s false = some c) ∧
      copy_assign N hash fuel steps s s true = some s ∧
      size c = size s ∧ (∀ k, count hash c k = count hash s k) ∧
      (∀ st, s.curr_size < st → eq hash st c s = some true) ∧
      Wf hash c ∧ c.curr_size ≤ 2 * c.table_size ∧ c.table_size = s.table_size := by
  have hinv := reachable_inv N hash hN hr
  have hc := copy_eq N hash hN hr fuel steps hfuel hsteps
  obtain ⟨hinvc, hperm⟩ := copy_inv N hash hN fuel steps s _ hinv hc
  have hcount : ∀ k, count hash (push_all hash (fresh N) (keys s)) k = count hash s k :=
    (count_eq_iff_mem hash hinvc.wf hinv.wf).mpr (fun k => hperm.mem_iff)
  refine ⟨_, hc, fun this hthis => ?_, rfl, ?_, hcount, fun st hst => ?_, hinvc.wf, hinvc.load,
    ?_⟩
  · simp [copy_assign, hc, swap, destroy_eq, hthis]
  · unfold size
    rw [hinvc.wf.card, hperm.length_eq, ← hinv.wf.card]
  · obtain ⟨r, hreq, hiff⟩ := eq_spec hash hinvc.wf hinv.wf st hst
    rw [hreq]
    congr 1
    exact hiff.mpr hcount
  · rw [push_all_table_size, reachable_capacity_eq N hash hN hr]
    rfl

/-- Copy assignment to a left operand that holds a node has no defined result:
the destructor of `tmp` walks the old chains of the left operand with a read
after `delete`. -/
theorem copy_assign_to_nonempty (fuel steps : Nat) (this other : ADS_set Key)
    (hthis : collect this ≠ []) :
    copy_assign N hash fuel steps this other false = none := by
  unfold copy_assign
  simp only [Bool.false_eq_true, if_false]
  cases copy N hash fuel steps other with
  | none => rfl
  | some tmp => simp [swap, destroy_eq, hthis]

/-- Claim C13, where the code fails it: the sets `singleton_set` and `sample_set`
(`N = 7`, identity hash) are reachable; the copy constructor on `sample_set`
returns a set with the same three keys (bucket 1 chained the other way round),
but the copy assignment `singleton_set = sample_set` has no defined result,
whatever the fuel, because `tmp`, which holds the old chain of the left operand
after `swap`, is destroyed and `~ADS_set` frees a chain with a read after
`delete`. -/
theorem C13_copy_assignment_to_nonempty_set_has_no_result :
    Reachable 7 (fun k : Nat => k) singleton_set ∧
    Reachable 7 (fun k : Nat => k) sample_set ∧
    copy 7 (fun k : Nat => k) 1 4 sample_set = some sample_set_reordered ∧
    destroy singleton_set = none ∧
    ∀ fuel steps,
      copy_assign 7 (fun k : Nat => k) fuel steps singleton_set sample_set false = none :=
  ⟨singleton_set_reachable, sample_set_reachable, by decide, by decide,
    fun fuel steps => copy_assign_to_nonempty 7 (fun k : Nat => k) fuel steps singleton_set
      sample_set (by decide)⟩

end Claims12
section Claims14

variable {Key : Type} [DecidableEq Key] (N : Nat) (hash : Key → Nat)

theorem h_defined_of_wf {s : ADS_set Key} (hwf : Wf hash s) : h_defined s = true := by
  have := hwf.pos
  simp [h_defined]
  omega

theorem size_eq_card {s : ADS_set Key} (hwf : Wf hash s) :
    size s = (keys s).toFinset.card := by
  rw [List.toFinset_card_of_nodup hwf.nodup]
  exact hwf.card

/-- One call that stays within defined behaviour, on a reachable state, returns
what the model returns on the set of its keys, and the new state is reachable
and holds the model's new set. -/
theorem call_model (hN : 0 < N) (fuel : Nat) (hfuel : 1 ≤ fuel) {s : ADS_set Key}
    (hr : Reachable N hash s) (c : Call Key)
    (hdef : model_defined N (keys s).toFinset c = true) :
    ∃ s1, call N hash fuel s c = some (s1, (model_call (keys s).toFinset c).2) ∧
      Reachable N hash s1 ∧ (keys s1).toFinset = (model_call (keys s).toFinset c).1 := by
  have hinv := reachable_inv N hash hN hr
  have hwf := hinv.wf
  have hcap := reachable_capacity_eq N hash hN hr
  have hh := h_defined_of_wf hash hwf
  have hcard := size_eq_card hash hwf
  unfold size at hcard
  cases c with
  | insert key =>
      by_cases hk : key ∈ keys s
      · refine ⟨s, ?_, hr, ?_⟩
        · simp [call, hh, insert_present N hash hwf key hk fuel, model_call, hk]
        · simp [model_call, hk]
      · have hroom : s.curr_size + 1 ≤ 2 * s.table_size := by
          simp only [model_defined, decide_eq_true_eq, List.mem_toFinset] at hdef
          rcases hdef with hx | hx
          · exact absurd hx hk
          · rw [hcap, hcard]; exact hx
        have hins := insert_absent N hash hwf key hk hroom fuel hfuel
        refine ⟨push_head hash s key, ?_, Reachable.insert fuel s key _ hr hins, ?_⟩
        · simp [call, hh, hins, model_call, hk]
        · ext k
          simp [model_call, (push_head_inv N hash hinv key hk hroom).2.mem_iff]
  | erase key =>
      refine ⟨(erase hash s key).1, ?_, Reachable.erase s key hr, ?_⟩
      · by_cases hk : key ∈ keys s
        · simp [call, hh, erase_present hash hwf key hk, model_call, hk]
        · simp [call, hh, erase_absent hash hwf key hk, model_call, hk]
      · ext k
        simp [model_call, erase_mem hash hwf]
  | clear =>
      have hnil : collect s = [] := by
        simp only [model_defined, decide_eq_true_eq] at hdef
        rw [collect_eq s hwf.len]
        apply List.eq_nil_of_length_eq_zero
        have := hwf.card
        unfold keys at this
        omega
      have hcl : clear N hash fuel s = some (fresh N) := by rw [clear_eq, if_pos hnil]
      refine ⟨fresh N, ?_, Reachable.clear fuel s _ hr hcl, ?_⟩
      · simp [call, hcl, model_call]
      · simp [model_call, fresh_keys]
  | count key =>
      refine ⟨s, ?_, hr, rfl⟩
      simp [call, hh, model_call, count_eq hash hwf]
  | size =>
      refine ⟨s, ?_, hr, rfl⟩
      simp [call, model_call, size_eq_card hash hwf]
  | empty =>
      refine ⟨s, ?_, hr, rfl⟩
      simp [call, model_call, empty, hcard]

/-- One call that leaves defined behaviour, on a reachable state, has no defined
result. -/
theorem call_undefined (hN : 0 < N) (fuel : Nat) {s : ADS_set Key}
    (hr : Reachable N hash s) (c : Call Key)
    (hdef : model_defined N (keys s).toFinset c = false) :
    call N hash fuel s c = none := by
  have hinv := reachable_inv N hash hN hr
  have hwf := hinv.wf
  have hcap := reachable_capacity_eq N hash hN hr
  have hh := h_defined_of_wf hash hwf
  have hcard := size_eq_card hash hwf
  unfold size at hcard
  cases c with
  | insert key =>
      simp only [model_defined, decide_eq_false_iff_not, List.mem_toFinset, not_or] at hdef
      have hfull : ¬ s.curr_size + 1 ≤ 2 * s.table_size := by
        rw [hcap, hcard]; exact hdef.2
      simp [call, hh, insert_full_undefined N hash hwf key hdef.1 hfull fuel]
  | clear =>
      simp only [model_defined, decide_eq_false_iff_not] at hdef
      have hcl := clear_of_nonempty_set N hash hN s hr (by unfold size; omega) fuel
      simp [call, hcl]
  | erase key => simp [model_defined] at hdef
  | count key => simp [model_defined] at hdef
  | size => simp [model_defined] at hdef
  | empty => simp [model_defined] at hdef

/-- The answers of a sequence of calls on a reachable state: those of the model
when every call stays within defined behaviour, none otherwise. -/
theorem calls_eq (hN : 0 < N) (fuel : Nat) (hfuel : 1 ≤ fuel) :
    ∀ (cs : List (Call Key)) (s : ADS_set Key), Reachable N hash s →
      calls N hash fuel cs s =
        if model_fits N (keys s).toFinset cs = true then
          some (model_calls (keys s).toFinset cs)
        else none := by
  intro cs
  induction cs with
  | nil => intro s _; rfl
  | cons c cs ih =>
      intro s hr
      rw [calls]
      cases hdef : model_defined N (keys s).toFinset c with
      | false =>
          rw [call_undefined N hash hN fuel hr c hdef]
          simp [model_fits, hdef]
      | true =>
          obtain ⟨s1, hcall, hr1, hkeys⟩ := call_model N hash hN fuel hfuel hr c hdef
          rw [hcall]
          simp only
          rw [ih s1 hr1, hkeys]
          by_cases hfit : model_fits N (model_call (keys s).toFinset c).1 cs = true
          · simp [model_fits, hdef, hfit, model_calls]
          · simp [model_fits, hdef, hfit]

theorem calls_fresh_eq (hN : 0 < N) (fuel : Nat) (hfuel : 1 ≤ fuel) (cs : List (Call Key)) :
    calls_fresh N hash fuel cs =
      if model_fits N ∅ cs = true then some (model_calls ∅ cs) else none := by
  unfold calls_fresh
  rw [ctor_eq]
  simp only
  rw [calls_eq N hash hN fuel hfuel cs _ (Reachable.ctor fuel _ (ctor_eq N hash fuel)),
    fresh_keys]
  rfl

/-- Counterexample to C14 as stated: with `N = 0` a fresh set has no bucket, so
the first `insert` evaluates `h(key)` with the modulus 0 and has no defined
result, while with `N = 7` the same call returns the flag true. -/
theorem C14_zero_buckets_counterexample :
    (∃ s, ctor 0 (fun k : Nat => k) 2 = some s ∧ s.table_size = 0 ∧ h_defined s = false) ∧
    calls_fresh 0 (fun k : Nat => k) 2 [Call.insert 0] = none ∧
    calls_fresh 7 (fun k : Nat => k) 2 [Call.insert 0] = some [Answer.flag true] :=
  ⟨⟨fresh 0, by decide, by decide, by decide⟩, by decide, by decide⟩

/-- Claim C14, amended: for every two values `N1 ≥ 1` and `N2 ≥ 1` of the
parameter `N`, every hash function and every sequence of `insert`, `erase`,
`clear`, `count`, `size` and `empty` calls on a freshly constructed set in which,
under `N1` and under `N2`, no `insert` has to grow the table and no `clear`
meets a key: every call is defined (with one level of `insert_`) and the
answers under `N1` are the answers under `N2`, namely those of a mathematical
set of keys. -/
theorem C14_answers_do_not_depend_on_N (N1 N2 : Nat) (hN1 : 0 < N1) (hN2 : 0 < N2)
    (cs : List (Call Key)) (hfit1 : model_fits N1 ∅ cs = true)
    (hfit2 : model_fits N2 ∅ cs = true) (fuel : Nat) (hfuel : 1 ≤ fuel) :
    ∃ answers, calls_fresh N1 hash fuel cs = some answers ∧
      calls_fresh N2 hash fuel cs = some answers ∧ answers = model_calls ∅ cs := by
  refine ⟨model_calls ∅ cs, ?_, ?_, rfl⟩
  · rw [calls_fresh_eq N1 hash hN1 fuel hfuel cs, if_pos hfit1]
  · rw [calls_fresh_eq N2 hash hN2 fuel hfuel cs, if_pos hfit2]

/-- Instance of C14: one bucket against seven buckets. -/
theorem C14_answers_do_not_depend_on_N_witness :
    (0 < 1 ∧ 0 < 7 ∧
      model_fits 1 ∅
        [Call.insert 4, Call.insert 5, Call.insert 4, Call.size, Call.erase 5, Call.count 5,
          Call.insert 9, Call.erase 4, Call.erase 9, Call.clear, Call.empty] = true ∧
      model_fits 7 ∅
        [Call.insert 4, Call.insert 5, Call.insert 4, Call.size, Call.erase 5, Call.count 5,
          Call.insert 9, Call.erase 4, Call.erase 9, Call.clear, Call.empty] = true ∧
      1 ≤ 1) ∧
    (∃ answers,
      calls_fresh 1 (fun k : Nat => k) 1
        [Call.insert 4, Call.insert 5, Call.insert 4, Call.size, Call.erase 5, Call.count 5,
          Call.insert 9, Call.erase 4, Call.erase 9, Call.clear, Call.empty] = some answers ∧
      calls_fresh 7 (fun k : Nat => k) 1
        [Call.insert 4, Call.insert 5, Call.insert 4, Call.size, Call.erase 5, Call.count 5,
          Call.insert 9, Call.erase 4, Call.erase 9, Call.clear, Call.empty] = some answers ∧
      answers = model_calls ∅
        [Call.insert 4, Call.insert 5, Call.insert 4, Call.size, Call.erase 5, Call.count 5,
          Call.insert 9, Call.erase 4, Call.erase 9, Call.clear, Call.empty]) ∧
    calls_fresh 1 (fun k : Nat => k) 1
        [Call.insert 4, Call.insert 5, Call.insert 4, Call.size, Call.erase 5, Call.count 5,
          Call.insert 9, Call.erase 4, Call.erase 9, Call.clear, Call.empty] =
      some [Answer.flag true, Answer.flag true, Answer.flag false, Answer.number 2,
        Answer.number 1, Answer.number 0, Answer.flag true, Answer.number 1, Answer.number 1,
        Answer.nothing, Answer.truth true] :=
  ⟨⟨by decide, by decide, by decide, by decide, by decide⟩,
    C14_answers_do_not_depend_on_N (fun k : Nat => k) 1 7 (by decide) (by decide) _
      (by decide) (by decide) 1 (by decide),
    by decide⟩

end Claims14
section Claims15

variable {Key : Type} [DecidableEq Key] (N : Nat) (hash : Key → Nat)

theorem copy_assign_some (fuel steps : Nat) (this other c : ADS_set Key) (same : Bool)
    (hc : copy_assign N hash fuel steps this other same = some c) :
    (same = true ∧ c = this) ∨ (same = false ∧ copy N hash fuel steps other = some c) := by
  unfold copy_assign at hc
  cases same with
  | true =>
      simp only [if_true] at hc
      exact Or.inl ⟨rfl, (Option.some.inj hc).symm⟩
  | false =>
      simp only [Bool.false_eq_true, if_false] at hc
      right
      cases hcopy : copy N hash fuel steps other with
      | none => rw [hcopy] at hc; simp at hc
      | some tmp =>
          rw [hcopy] at hc
          simp only [swap] at hc
          cases hd : destroy this with
          | none => rw [hd] at hc; simp at hc
          | some u =>
              rw [hd] at hc
              exact ⟨rfl, hc⟩

/-- Claim C15: on every reachable set (with `N ≥ 1`), whenever `insert`, range
`insert`, `clear` or copy assignment from a reachable set returns, the capacity
after it is greater than or equal to the capacity before it, and `erase`, which
always returns, keeps the capacity; with one level of `insert_`, `insert`
returns when the key is present or the table has room, range `insert` when the
table has room for the keys of the range, `clear` on a set without keys, and
copy assignment to a set without keys (with enough steps for the loop over the
right operand).  (In the code as
it is the capacity of a reachable set is always `N`: an `insert` that has to
grow the table does not return, see C10, nor does a `clear` or a copy assignment
that has to free a chain, see C12 and C13.) -/
theorem C15_capacity_under_mutation (hN : 0 < N) (s : ADS_set Key)
    (hr : Reachable N hash s) (fuel : Nat) :
    (∀ k r, insert N hash fuel s k = some r → s.table_size ≤ r.1.table_size) ∧
    (∀ ks s1, insert_range N hash fuel ks s = some s1 → s.table_size ≤ s1.table_size) ∧
    (∀ k, s.table_size ≤ (erase hash s k).1.table_size) ∧
    (∀ s1, clear N hash fuel s = some s1 → s.table_size ≤ s1.table_size) ∧
    (∀ other steps same c, Reachable N hash other →
      copy_assign N hash fuel steps s other same = some c → s.table_size ≤ c.table_size) ∧
    (∀ k, count hash s k = 1 ∨ s.curr_size + 1 ≤ 2 * s.table_size → 1 ≤ fuel →
      ∃ r, insert N hash fuel s k = some r) ∧
    (∀ ks, s.curr_size + ks.length ≤ 2 * s.table_size → 1 ≤ fuel →
      ∃ s1, insert_range N hash fuel ks s = some s1) ∧
    (size s = 0 → ∃ s1, clear N hash fuel s = some s1) ∧
    (∀ other steps, Reachable N hash other → size s = 0 → 1 ≤ fuel →
      other.curr_size < steps →
      ∃ c, copy_assign N hash fuel steps s other false = some c) ∧
    s.table_size = N := by
  have hinv := reachable_inv N hash hN hr
  have hcap := reachable_capacity_eq N hash hN hr
  refine ⟨fun k r hins => ?_, fun ks s1 hins => ?_, fun k => ?_, fun s1 hc => ?_,
    fun other steps same c ho hc => ?_, fun k hroom hfuel => ?_,
    fun ks hroom hfuel => insert_range_some N hash fuel hfuel ks s hinv hroom,
    fun hempty => ?_, fun other steps ho hempty hfuel hsteps => ?_, hcap⟩
  · rw [hcap, reachable_capacity_eq N hash hN (Reachable.insert fuel s k r hr hins)]
  · rw [hcap, reachable_capacity_eq N hash hN (Reachable.insert_range fuel s ks s1 hr hins)]
  · rw [hcap, reachable_capacity_eq N hash hN (Reachable.erase s k hr)]
  · rw [hcap, reachable_capacity_eq N hash hN (Reachable.clear fuel s s1 hr hc)]
  · rcases copy_assign_some N hash fuel steps s other c same hc with ⟨_, rfl⟩ | ⟨_, hcopy⟩
    · exact Nat.le_refl _
    · rw [hcap, reachable_capacity_eq N hash hN (Reachable.copy fuel steps other c ho hcopy)]
  · refine insert_some N hash hinv.wf k ?_ fuel hfuel
    rcases hroom with hc | hroom
    · exact Or.inl ((count_one_iff hash hinv.wf k).mp hc)
    · exact Or.inr hroom
  · obtain ⟨s1, hs1, _⟩ := clear_of_empty_set N hash hN s hr hempty fuel
    exact ⟨s1, hs1⟩
  · obtain ⟨c, _, hassign, _⟩ := copy_has_the_same_keys N hash hN other ho fuel steps hfuel
      hsteps
    refine ⟨c, hassign s ?_⟩
    rw [collect_eq s hinv.wf.len]
    apply List.eq_nil_of_length_eq_zero
    have := hinv.wf.card
    unfold size at hempty
    unfold keys at this
    omega

/-- Instance of C15: the operations on the sample set. -/
theorem C15_capacity_under_mutation_witness :
    (0 < 7 ∧ Reachable 7 (fun k : Nat => k) sample_set) ∧
    ((∀ k r, insert 7 (fun k : Nat => k) 1 sample_set k = some r →
      sample_set.table_size ≤ r.1.table_size) ∧
    (∀ ks s1, insert_range 7 (fun k : Nat => k) 1 ks sample_set = some s1 →
      sample_set.table_size ≤ s1.table_size) ∧
    (∀ k, sample_set.table_size ≤ (erase (fun k : Nat => k) sample_set k).1.table_size) ∧
    (∀ s1, clear 7 (fun k : Nat => k) 1 sample_set = some s1 →
      sample_set.table_size ≤ s1.table_size) ∧
    (∀ other steps same c, Reachable 7 (fun k : Nat => k) other →
      copy_assign 7 (fun k : Nat => k) 1 steps sample_set other same = some c →
      sample_set.table_size ≤ c.table_size) ∧
    (∀ k, count (fun k : Nat => k) sample_set k = 1 ∨
        sample_set.curr_size + 1 ≤ 2 * sample_set.table_size → 1 ≤ 1 →
      ∃ r, insert 7 (fun k : Nat => k) 1 sample_set k = some r) ∧
    (∀ ks, sample_set.curr_size + ks.length ≤ 2 * sample_set.table_size → 1 ≤ 1 →
      ∃ s1, insert_range 7 (fun k : Nat => k) 1 ks sample_set = some s1) ∧
    (size sample_set = 0 → ∃ s1, clear 7 (fun k : Nat => k) 1 sample_set = some s1) ∧
    (∀ other steps, Reachable 7 (fun k : Nat => k) other → size sample_set = 0 → 1 ≤ 1 →
      other.curr_size < steps →
      ∃ c, copy_assign 7 (fun k : Nat => k) 1 steps sample_set other false = some c) ∧
    sample_set.table_size = 7) ∧
    (∃ r, insert 7 (fun k : Nat => k) 1 sample_set 10 = some r ∧ r.1.table_size = 7) ∧
    (∃ s1, insert_range 7 (fun k : Nat => k) 1 [10, 1, 11] sample_set = some s1 ∧
      s1.table_size = 7) :=
  ⟨⟨by decide, sample_set_reachable⟩,
    C15_capacity_under_mutation 7 (fun k : Nat => k) (by decide) sample_set
      sample_set_reachable 1,
    ⟨_, rfl, rfl⟩, ⟨_, rfl, rfl⟩⟩

end Claims15
section Claims16

variable {Key : Type} [DecidableEq Key] (N : Nat) (hash : Key → Nat)

/-- The state `insert_` returns for a new key satisfies the table invariant
whenever the old state does, and holds the new key besides the old ones. -/
theorem insert_result_wf {s : ADS_set Key} (hwf : Wf hash s) (key : Key)
    (hk : key ∉ keys s) :
    Wf hash (insert_result N hash s key) ∧
      (keys (insert_result N hash s key)).Perm (key :: keys s) := by
  have hwf1 := push_head_wf hash hwf key hk
  have hperm1 := push_head_keys_perm hash s key hwf.len hwf.pos
  unfold insert_result
  simp only
  by_cases hg : (push_head hash s key).curr_size > (push_head hash s key).table_size * 2
  · rw [if_pos hg, collect_eq _ hwf1.len]
    have hm : 0 < max N (max (grow_loop (push_head hash s key).curr_size
        (push_head hash s key).curr_size (push_head hash s key).table_size)
        (push_head hash s key).curr_size) := by
      have h1 : 0 < (push_head hash s key).curr_size := by
        rw [push_head_curr_size]; omega
      exact lt_of_lt_of_le h1 (le_trans (le_max_right _ _) (le_max_right _ _))
    obtain ⟨hwf2, hperm2⟩ := push_all_wf hash (fresh_wf hash _ hm)
      (keys (push_head hash s key)) hwf1.nodup (by intro k _; rw [fresh_keys]; simp)
    rw [fresh_keys, List.append_nil] at hperm2
    exact ⟨hwf2, hperm2.trans hperm1⟩
  · rw [if_neg hg]
    exact ⟨hwf1, hperm1⟩

theorem insert_wf {s : ADS_set Key} (hwf : Wf hash s) (key : Key) (fuel : Nat)
    (r : ADS_set Key × Iterator Key × Bool) (hr : insert N hash fuel s key = some r) :
    Wf hash r.1 := by
  rw [insert_state N hash hwf key fuel r hr]
  by_cases hk : key ∈ keys s
  · rw [if_pos hk]; exact hwf
  · rw [if_neg hk]; exact (insert_result_wf N hash hwf key hk).1

theorem reinsert_wf (fuel : Nat) :
    ∀ (l : List Key) (s s1 : ADS_set Key), Wf hash s → l.Nodup →
      (∀ k ∈ l, k ∉ keys s) → reinsert (insert_ N hash fuel) l s = some s1 →
      Wf hash s1 ∧ (keys s1).Perm (l ++ keys s) := by
  intro l
  induction l with
  | nil =>
      intro s s1 hwf _ _ hr
      rw [reinsert] at hr
      obtain rfl := Option.some.inj hr
      exact ⟨hwf, List.Perm.refl _⟩
  | cons k l ih =>
      intro s s1 hwf hnd hdisj hr
      rw [reinsert] at hr
      cases hins : insert_ N hash fuel s k with
      | none => rw [hins] at hr; simp at hr
      | some s2 =>
          rw [hins] at hr
          simp only at hr
          have hs2 := insert__result N hash hwf k fuel s2 hins
          have hk : k ∉ keys s := hdisj k (List.mem_cons_self _ _)
          obtain ⟨hwf2, hperm2⟩ := insert_result_wf N hash hwf k hk
          rw [← hs2] at hwf2 hperm2
          have hnd2 := List.nodup_cons.mp hnd
          have hdisj2 : ∀ x ∈ l, x ∉ keys s2 := by
            intro x hx hmem
            rcases List.mem_cons.mp (hperm2.subset hmem) with rfl | hmem1
            · exact hnd2.1 hx
            · exact hdisj x (List.mem_cons_of_mem _ hx) hmem1
          obtain ⟨hwf3, hperm3⟩ := ih s2 s1 hwf2 hnd2.2 hdisj2 hr
          refine ⟨hwf3, hperm3.trans ?_⟩
          refine (List.Perm.append_left l hperm2).trans ?_
          simp

theorem insert_range_wf (fuel : Nat) :
    ∀ (ks : List Key) (s s1 : ADS_set Key), Wf hash s →
      insert_range N hash fuel ks s = some s1 → Wf hash s1 := by
  intro ks
  induction ks with
  | nil =>
      intro s s1 hwf hr
      rw [insert_range] at hr
      obtain rfl := Option.some.inj hr
      exact hwf
  | cons k ks ih =>
      intro s s1 hwf hr
      rw [insert_range, count_eq hash hwf] at hr
      by_cases hk : k ∈ keys s
      · simp only [hk, if_true, one_ne_zero, if_false] at hr
        exact ih s s1 hwf hr
      · simp only [hk, if_false, if_true] at hr
        cases hins : insert_ N hash fuel s k with
        | none => rw [hins] at hr; simp at hr
        | some s2 =>
            rw [hins] at hr
            simp only at hr
            have hs2 := insert__result N hash hwf k fuel s2 hins
            have hwf2 := (insert_result_wf N hash hwf k hk).1
            rw [← hs2] at hwf2
            exact ih s2 s1 hwf2 hr

theorem copy_wf (hN : 0 < N) (fuel steps : Nat) (other c : ADS_set Key)
    (hother : Wf hash other) (hc : copy N hash fuel steps other = some c) :
    Wf hash c ∧ (keys c).Perm (keys other) := by
  unfold copy at hc
  rw [ctor_eq] at hc
  simp only at hc
  rw [rehash_fresh] at hc
  simp only at hc
  obtain ⟨hv, hr⟩ := begin_spec other hother.len
  have hre := copy_loop_some N hash fuel steps (keys other) (begin other) _ c hv hr hc
  obtain ⟨hwf1, hperm⟩ := reinsert_wf N hash fuel (keys other) _ c (fresh_wf hash N hN)
    hother.nodup (by intro k _; rw [fresh_keys]; simp) hre
  rw [fresh_keys, List.append_nil] at hperm
  exact ⟨hwf1, hperm⟩

/-- Claim C16: with `N ≥ 1`, in every reachable state every entry of the chain of
bucket `i` has a key with `hash(key) mod table_size = i`, no key is stored
twice, and `curr_size` is the number of entries of all chains; and `insert`,
range `insert`, `erase`, `clear` and the copy constructor turn every state that
satisfies the table invariant (these three conditions for a bucket array of
`table_size ≥ 1` slots) into a state that satisfies it, whenever they return. -/
theorem C16_table_invariant (hN : 0 < N) :
    (∀ s : ADS_set Key, Reachable N hash s →
      (∀ i k, k ∈ bucket s.table i → hash k % s.table_size = i) ∧
      (s.table.flatten).Nodup ∧
      s.curr_size = (s.table.map List.length).sum) ∧
    (∀ s : ADS_set Key, Wf hash s → ∀ fuel steps : Nat,
      (∀ k r, insert N hash fuel s k = some r → Wf hash r.1) ∧
      (∀ ks s1, insert_range N hash fuel ks s = some s1 → Wf hash s1) ∧
      (∀ k, Wf hash (erase hash s k).1) ∧
      (∀ s1, clear N hash fuel s = some s1 → Wf hash s1) ∧
      (∀ c, copy N hash fuel steps s = some c → Wf hash c)) := by
  constructor
  · intro s hr
    have hwf := (reachable_inv N hash hN hr).wf
    refine ⟨hwf.home, hwf.nodup, ?_⟩
    rw [hwf.card, keys, List.length_flatten]
  · intro s hwf fuel steps
    refine ⟨fun k r hr => insert_wf N hash hwf k fuel r hr,
      fun ks s1 hr => insert_range_wf N hash fuel ks s s1 hwf hr,
      fun k => erase_wf hash hwf k, fun s1 hc => ?_,
      fun c hc => (copy_wf N hash hN fuel steps s c hwf hc).1⟩
    rw [(clear_some N hash fuel s s1 hc).1]
    exact fresh_wf hash N hN

/-- Instance of C16: the three conditions on the sample set, and the invariant
after `erase(1)` on it. -/
theorem C16_table_invariant_witness :
    (0 < 7 ∧ Reachable 7 (fun k : Nat => k) sample_set) ∧
    ((∀ i k, k ∈ bucket sample_set.table i → (fun k : Nat => k) k % sample_set.table_size = i) ∧
      (sample_set.table.flatten).Nodup ∧
      sample_set.curr_size = (sample_set.table.map List.length).sum) ∧
    Wf (fun k : Nat => k) (erase (fun k : Nat => k) sample_set 1).1 :=
  ⟨⟨by decide, sample_set_reachable⟩,
    (C16_table_invariant 7 (fun k : Nat => k) (by decide)).1 sample_set sample_set_reachable,
    ((C16_table_invariant 7 (fun k : Nat => k) (by decide)).2 sample_set
      (reachable_inv 7 (fun k : Nat => k) (by decide) sample_set_reachable).wf 2 4).2.2.1 1⟩

end Claims16
section Claims17

variable {Key : Type} [DecidableEq Key] (N : Nat) (hash : Key → Nat)

/-- The reinsertion loop of `rehash(n)` on a state whose `curr_size` counts the
collected entries: with one level of `insert_` every collected key is pushed to
the head of its bucket in the new array. -/
theorem rehash_reinsert_eq (s : ADS_set Key) (hcount : (collect s).length = s.curr_size)
    (n fuel : Nat) (hfuel : 1 ≤ fuel) :
    reinsert (insert_ N hash fuel) (collect s) (fresh (max N (max n s.curr_size))) =
      some (push_all hash (fresh (max N (max n s.curr_size))) (collect s)) := by
  obtain ⟨f, rfl⟩ : ∃ f, fuel = f + 1 := ⟨fuel - 1, by omega⟩
  apply reinsert_push
  show 0 + (collect s).length ≤ 2 * max N (max n s.curr_size)
  have : s.curr_size ≤ max N (max n s.curr_size) :=
    le_trans (le_max_right _ _) (le_max_right _ _)
  omega

/-- The result of `rehash(n)`: a fresh table when the old table holds no node, and
none when it holds one, because the old chains are freed with a read after
`delete`. -/
theorem rehash_eq (s : ADS_set Key) (n fuel : Nat) :
    rehash N hash fuel s n =
      if collect s = [] then some (fresh (max N (max n s.curr_size))) else none := by
  unfold rehash rehash_with
  simp only
  by_cases hnil : collect s = []
  · rw [if_pos hnil, hnil, reinsert, free_table_eq, if_pos hnil]
  · rw [if_neg hnil]
    cases reinsert (insert_ N hash fuel) (collect s) (fresh (max N (max n s.curr_size))) with
    | none => rfl
    | some s1 => simp [free_table_eq, hnil]

theorem push_all_length (s : ADS_set Key) (v : List Key) :
    (push_all hash s v).table.length = s.table.length := by
  induction v generalizing s with
  | nil => rfl
  | cons k v ih => rw [push_all_cons, ih, push_head_length]

theorem push_all_keys_perm (v : List Key) :
    ∀ (s : ADS_set Key), s.table.length = s.table_size → 0 < s.table_size →
      (keys (push_all hash s v)).Perm (v ++ keys s) := by
  induction v with
  | nil => intro s _ _; exact List.Perm.refl _
  | cons k v ih =>
      intro s hlen hpos
      rw [push_all_cons]
      refine (ih (push_head hash s k) (by rw [push_head_length, push_head_table_size]; exact hlen)
        (by rw [push_head_table_size]; exact hpos)).trans ?_
      refine (List.Perm.append_left v (push_head_keys_perm hash s k hlen hpos)).trans ?_
      simp

theorem bucket_fresh (m i : Nat) : bucket (fresh m : ADS_set Key).table i = [] := by
  by_contra hne
  obtain ⟨x, hx⟩ := List.exists_mem_of_ne_nil _ hne
  have hmem : x ∈ keys (fresh m : ADS_set Key) := (mem_flatten_iff_bucket _ x).mpr ⟨i, hx⟩
  rw [fresh_keys] at hmem
  simp at hmem

/-- The part of C17 that the code delivers: on every state that satisfies the
table invariant and for every requested size `n`, the reinsertion loop of
`rehash(n)` returns (with one level of `insert_`) a table of capacity
`max(N, n, curr_size)` with the same `curr_size`, the same `count(k)` for every
key and the same keys up to order, in which every key sits in the bucket of its
hash modulo the new capacity; this is the table `rehash` holds when it starts to
free the old chains. -/
theorem rehash_reinsertion_keeps_the_keys (s : ADS_set Key) (hwf : Wf hash s) (n fuel : Nat)
    (hfuel : 1 ≤ fuel) :
    ∃ s1, reinsert (insert_ N hash fuel) (collect s) (fresh (max N (max n s.curr_size))) =
        some s1 ∧
      s1.table_size = max N (max n s.curr_size) ∧
      s1.curr_size = s.curr_size ∧
      (∀ k, count hash s1 k = count hash s k) ∧
      (keys s1).Perm (keys s) ∧ (keys s1).Nodup ∧
      (∀ i k, k ∈ bucket s1.table i → hash k % s1.table_size = i) ∧
      s1.curr_size = (keys s1).length := by
  have hcol : collect s = keys s := collect_eq s hwf.len
  have hcount : (collect s).length = s.curr_size := by rw [hcol, hwf.card]
  refine ⟨_, rehash_reinsert_eq N hash s hcount n fuel hfuel, push_all_table_size hash _ _, ?_,
    ?_⟩
  · rw [push_all_curr_size, hcount]
    exact Nat.zero_add _
  · rw [hcol]
    by_cases hm : 0 < max N (max n s.curr_size)
    · obtain ⟨hwf1, hperm⟩ := push_all_wf hash (fresh_wf hash _ hm) (keys s) hwf.nodup
        (by intro k _; rw [fresh_keys]; simp)
      rw [fresh_keys, List.append_nil] at hperm
      exact ⟨(count_eq_iff_mem hash hwf1 hwf).mpr (fun k => hperm.mem_iff), hperm,
        hwf1.nodup, hwf1.home, hwf1.card⟩
    · have h0 : s.curr_size = 0 := by
        have : s.curr_size ≤ max N (max n s.curr_size) :=
          le_trans (le_max_right _ _) (le_max_right _ _)
        omega
      have hk : keys s = [] := by
        apply List.eq_nil_of_length_eq_zero
        rw [← hwf.card, h0]
      rw [hk, push_all_nil]
      refine ⟨fun k => ?_, ?_, ?_, ?_, ?_⟩
      · rw [count_fresh, count_eq hash hwf, hk]
        simp
      · rw [fresh_keys]
      · rw [fresh_keys]; exact List.nodup_nil
      · intro i k hmem
        rw [bucket_fresh] at hmem
        simp at hmem
      · rw [fresh_keys]; rfl

/-- Claim C17, where the code fails it: the state on which `insert(9)` into
`full_set` (`N = 1`, identity hash) calls `rehash(3)` satisfies the table
invariant and holds the keys 9, 5, 4 in its one bucket; the reinsertion loop
builds the table with three buckets that the claim describes, but `rehash(3)`
then frees the old chain with a read after `delete` and has no defined result,
whatever the fuel. -/
theorem C17_rehash_of_nonempty_table_has_no_result :
    Wf (fun k : Nat => k) (push_head (fun k : Nat => k) full_set 9) ∧
    push_head (fun k : Nat => k) full_set 9 =
      { table := [[9, 5, 4]], table_size := 1, curr_size := 3 } ∧
    reinsert (insert_ 1 (fun k : Nat => k) 1)
        (collect (push_head (fun k : Nat => k) full_set 9)) (fresh 3) =
      some { table := [[9], [4], [5]], table_size := 3, curr_size := 3 } ∧
    free_table (push_head (fun k : Nat => k) full_set 9).table 1 = none ∧
    ∀ fuel, rehash 1 (fun k : Nat => k) fuel (push_head (fun k : Nat => k) full_set 9) 3 = none :=
  ⟨push_head_wf (fun k : Nat => k)
      (reachable_inv 1 (fun k : Nat => k) (by decide) full_set_reachable).wf 9 (by decide),
    by decide, by decide, by decide,
    fun fuel => by rw [rehash_eq]; rfl⟩

/-- Claim C19: on every state whose `curr_size` is the number of entries that
`rehash` collects, and for every `n`: the reinsertion loop of `rehash(n)` returns
with a single level of `insert_` (fuel 1 leaves none for a nested one), and its
result is the collected keys pushed one by one to the heads of their buckets in
the new array; at every reinsertion the test `curr_size > 2 * table_size` of
`reserve` is false, so `reserve` returns without calling `rehash`; and the new
table holds exactly the collected keys, each once. -/
theorem C19_no_nested_rehash (s : ADS_set Key) (hcount : (collect s).length = s.curr_size)
    (n : Nat) :
    (∀ fuel, 1 ≤ fuel →
      reinsert (insert_ N hash fuel) (collect s) (fresh (max N (max n s.curr_size))) =
        some (push_all hash (fresh (max N (max n s.curr_size))) (collect s))) ∧
    (∀ v1 k v2, collect s = v1 ++ k :: v2 →
      ¬ (push_head hash (push_all hash (fresh (max N (max n s.curr_size))) v1) k).curr_size >
          (push_head hash (push_all hash (fresh (max N (max n s.curr_size))) v1) k).table_size
            * 2 ∧
      ∀ ins, reserve_with N ins
          (push_head hash (push_all hash (fresh (max N (max n s.curr_size))) v1) k)
          (push_head hash (push_all hash (fresh (max N (max n s.curr_size))) v1) k).curr_size =
        some (push_head hash (push_all hash (fresh (max N (max n s.curr_size))) v1) k)) ∧
    (keys (push_all hash (fresh (max N (max n s.curr_size))) (collect s))).Perm (collect s) := by
  have hm : s.curr_size ≤ max N (max n s.curr_size) :=
    le_trans (le_max_right _ _) (le_max_right _ _)
  have hstep : ∀ v1 k v2, collect s = v1 ++ k :: v2 →
      ¬ (push_head hash (push_all hash (fresh (max N (max n s.curr_size))) v1) k).curr_size >
          (push_head hash (push_all hash (fresh (max N (max n s.curr_size))) v1) k).table_size
            * 2 := by
    intro v1 k v2 hsplit
    rw [push_head_curr_size, push_head_table_size, push_all_curr_size, push_all_table_size]
    have hlen : v1.length + 1 ≤ s.curr_size := by
      rw [← hcount, hsplit]
      simp
    show ¬ 0 + v1.length + 1 > max N (max n s.curr_size) * 2
    omega
  refine ⟨fun fuel hfuel => rehash_reinsert_eq N hash s hcount n fuel hfuel,
    fun v1 k v2 hsplit => ?_, ?_⟩
  · refine ⟨hstep v1 k v2 hsplit, fun ins => ?_⟩
    unfold reserve_with
    rw [if_neg (hstep v1 k v2 hsplit)]
  · by_cases hv : collect s = []
    · rw [hv, push_all_nil, fresh_keys]
    · have hpos : 0 < max N (max n s.curr_size) := by
        have : 0 < (collect s).length := List.length_pos.mpr hv
        omega
      have := push_all_keys_perm hash (collect s) (fresh (max N (max n s.curr_size)))
        (by simp [fresh]) hpos
      rw [fresh_keys, List.append_nil] at this
      exact this

/-- Instance of C19: the reinsertion loop on the state on which the insertion of 9
into the full sample set calls `rehash(3)`. -/
theorem C19_no_nested_rehash_witness :
    (collect (push_head (fun k : Nat => k) full_set 9)).length =
      (push_head (fun k : Nat => k) full_set 9).curr_size ∧
    reinsert (insert_ 1 (fun k : Nat => k) 1)
        (collect (push_head (fun k : Nat => k) full_set 9)) (fresh 3) =
      some { table := [[9], [4], [5]], table_size := 3, curr_size := 3 } :=
  ⟨by decide,
    ((C19_no_nested_rehash 1 (fun k : Nat => k) (push_head (fun k : Nat => k) full_set 9)
      (by decide) 3).1 1 (by decide)).trans (by decide)⟩

end Claims17
section Claims18

variable {Key : Type} [DecidableEq Key] (N : Nat) (hash : Key → Nat)

theorem reachable_capacity_shape (hN : 0 < N) {s : ADS_set Key} (hr : Reachable N hash s) :
    ∃ j, s.table_size + 1 = (N + 1) * 2 ^ j :=
  ⟨0, by rw [reachable_capacity_eq N hash hN hr]; simp⟩

/-- Claim C18: in every reachable state (with `N ≥ 1`) the capacity `c` satisfies
`c + 1 = (N + 1) * 2^j` for some `j`; whenever `insert` returns, the capacity is
`c` or `2c + 1`; and when the insertion of a new key has to grow the table
(`curr_size + 1 > 2c`), the size that `reserve` requests is `2c + 1`, one step
of the sequence, it equals the new `curr_size`, the `max` in `rehash` leaves it
as it is, and the table that `rehash` fills by reinsertion (with one level of
`insert_`) has that capacity and that `curr_size`.  (The `insert` itself does
not return in that case, see C10.) -/
theorem C18_capacity_shape_and_single_step (hN : 0 < N) (s : ADS_set Key)
    (hr : Reachable N hash s) (k : Key) (fuel : Nat) :
    (∃ j, s.table_size + 1 = (N + 1) * 2 ^ j) ∧
    (∀ r, insert N hash fuel s k = some r →
      r.1.table_size = s.table_size ∨ r.1.table_size = 2 * s.table_size + 1) ∧
    (count hash s k = 0 → ¬ s.curr_size + 1 ≤ 2 * s.table_size →
      grow_loop (s.curr_size + 1) (s.curr_size + 1) s.table_size = 2 * s.table_size + 1 ∧
      2 * s.table_size + 1 = s.curr_size + 1 ∧
      max N (max (grow_loop (s.curr_size + 1) (s.curr_size + 1) s.table_size)
        (s.curr_size + 1)) =
        grow_loop (s.curr_size + 1) (s.curr_size + 1) s.table_size ∧
      ∃ st, reinsert (insert_ N hash 1) (collect (push_head hash s k))
          (fresh (2 * s.table_size + 1)) = some st ∧
        st.table_size = 2 * s.table_size + 1 ∧ st.curr_size = s.curr_size + 1) := by
  have hinv := reachable_inv N hash hN hr
  have hwf := hinv.wf
  refine ⟨reachable_capacity_shape N hash hN hr, fun r hins => ?_, fun hc hfull => ?_⟩
  · left
    exact (capacity_after_returning_insert N hash hN s hr k fuel r hins).1
  · have hload := hinv.load
    have hcap := hinv.cap
    have hfull2 : s.curr_size = 2 * s.table_size := by omega
    have hgl : grow_loop (s.curr_size + 1) (s.curr_size + 1) s.table_size =
        2 * s.table_size + 1 := by
      rw [hfull2]; exact grow_loop_once s.table_size
    have hcount : (collect (push_head hash s k)).length = (push_head hash s k).curr_size := by
      rw [collect_push_head_length hash hwf.len hwf.pos k, push_head_curr_size, hwf.card]
    have hre := rehash_reinsert_eq N hash (push_head hash s k) hcount (2 * s.table_size + 1) 1
      (by decide)
    have hmax : max N (max (2 * s.table_size + 1) (push_head hash s k).curr_size) =
        2 * s.table_size + 1 := by
      rw [push_head_curr_size, hfull2]
      simp
      omega
    rw [hmax] at hre
    refine ⟨hgl, by omega, ?_, _, hre, push_all_table_size hash _ _, ?_⟩
    · rw [hgl, hfull2]
      simp
      omega
    · rw [push_all_curr_size, hcount, push_head_curr_size]
      exact Nat.zero_add _

/-- Instance of C18: the full sample set, for which the insertion of 9 requests
three buckets, and the sample set with seven buckets, into which 10 is inserted
without growth. -/
theorem C18_capacity_shape_and_single_step_witness :
    (0 < 1 ∧ Reachable 1 (fun k : Nat => k) full_set) ∧
    ((∃ j, full_set.table_size + 1 = (1 + 1) * 2 ^ j) ∧
    (∀ r, insert 1 (fun k : Nat => k) 1 full_set 9 = some r →
      r.1.table_size = full_set.table_size ∨ r.1.table_size = 2 * full_set.table_size + 1) ∧
    (count (fun k : Nat => k) full_set 9 = 0 →
      ¬ full_set.curr_size + 1 ≤ 2 * full_set.table_size →
      grow_loop (full_set.curr_size + 1) (full_set.curr_size + 1) full_set.table_size =
        2 * full_set.table_size + 1 ∧
      2 * full_set.table_size + 1 = full_set.curr_size + 1 ∧
      max 1 (max (grow_loop (full_set.curr_size + 1) (full_set.curr_size + 1)
        full_set.table_size) (full_set.curr_size + 1)) =
        grow_loop (full_set.curr_size + 1) (full_set.curr_size + 1) full_set.table_size ∧
      ∃ st, reinsert (insert_ 1 (fun k : Nat => k) 1)
          (collect (push_head (fun k : Nat => k) full_set 9))
          (fresh (2 * full_set.table_size + 1)) = some st ∧
        st.table_size = 2 * full_set.table_size + 1 ∧
        st.curr_size = full_set.curr_size + 1)) ∧
    (count (fun k : Nat => k) full_set 9 = 0 ∧
      ¬ full_set.curr_size + 1 ≤ 2 * full_set.table_size) ∧
    (0 < 7 ∧ Reachable 7 (fun k : Nat => k) sample_set) ∧
    (∀ r, insert 7 (fun k : Nat => k) 1 sample_set 10 = some r →
      r.1.table_size = sample_set.table_size ∨
        r.1.table_size = 2 * sample_set.table_size + 1) ∧
    (∃ r, insert 7 (fun k : Nat => k) 1 sample_set 10 = some r ∧ r.1.table_size = 7) :=
  ⟨⟨by decide, full_set_reachable⟩,
    C18_capacity_shape_and_single_step 1 (fun k : Nat => k) (by decide) full_set
      full_set_reachable 9 1,
    ⟨by decide, by decide⟩,
    ⟨by decide, sample_set_reachable⟩,
    (C18_capacity_shape_and_single_step 7 (fun k : Nat => k) (by decide) sample_set
      sample_set_reachable 10 1).2.1,
    ⟨_, rfl, rfl⟩⟩

end Claims18
section Claims20

variable {Key : Type} [DecidableEq Key] (N : Nat) (hash : Key → Nat)

theorem begin_loop_accesses_lt (s : ADS_set Key) :
    ∀ (fuel i : Nat), fuel + i = s.table_size →
      ∀ x ∈ begin_loop_accesses s fuel i, x < s.table_size := by
  intro fuel
  induction fuel with
  | zero => intro i _ x hx; simp [begin_loop_accesses] at hx
  | succ fuel ih =>
      intro i hi x hx
      rw [begin_loop_accesses] at hx
      rcases List.mem_cons.mp hx with rfl | hx
      · omega
      · by_cases hb : bucket s.table i = []
        · simp only [hb, ne_eq, not_true_eq_false, if_false] at hx
          exact ih (i + 1) (by omega) x hx
        · simp [hb] at hx

theorem inc_loop_accesses_lt :
    ∀ (fuel : Nat) (it : Iterator Key), ∀ x ∈ Iterator.inc_loop_accesses fuel it,
      x < it.table_size := by
  intro fuel
  induction fuel with
  | zero => intro it x hx; simp [Iterator.inc_loop_accesses] at hx
  | succ fuel ih =>
      intro it x hx
      rw [Iterator.inc_loop_accesses] at hx
      by_cases hlt : it.idx < it.table_size
      · rw [if_pos hlt] at hx
        by_cases htl : it.pos.tail = []
        · simp only [htl, ne_eq, not_true_eq_false, if_false] at hx
          by_cases he : it.idx + 1 = it.table_size
          · simp [he] at hx
          · rw [if_neg he] at hx
            rcases List.mem_cons.mp hx with rfl | hx
            · omega
            · by_cases hb : bucket it.table (it.idx + 1) = []
              · simp only [hb, not_true_eq_false, if_false] at hx
                exact ih { it with idx := it.idx + 1 } x hx
              · simp [hb] at hx
        · simp [htl] at hx
      · simp [hlt] at hx

/-- Claim C20: with `N ≥ 1`, every reachable state has `table_size ≥ N ≥ 1` and a
bucket array of `table_size` slots, so the modulus of `h` is not zero and the
index `h(key)` that `find_`, `insert_` and `erase` use for `table[idx]` is in
bounds, also in the tables that `rehash` fills; every index that `begin` uses is
in bounds, and so is every index that `operator++` uses on a cursor of the
current table that is not `end()`. -/
theorem C20_table_accesses_in_bounds (hN : 0 < N) (s : ADS_set Key)
    (hr : Reachable N hash s) :
    N ≤ s.table_size ∧ 1 ≤ s.table_size ∧ h_defined s = true ∧
    s.table.length = s.table_size ∧
    (∀ k, h hash s k < s.table_size ∧ h hash s k < s.table.length) ∧
    (∀ n v k,
      h hash (push_all hash (fresh (max N (max n s.curr_size))) v) k <
        (push_all hash (fresh (max N (max n s.curr_size))) v).table.length) ∧
    (∀ i ∈ begin_accesses s, i < s.table.length) ∧
    (∀ it : Iterator Key, it.table = s.table → it.table_size = s.table_size → it.pos ≠ [] →
      ∀ i ∈ it.increment_accesses, i < s.table.length) := by
  have hinv := reachable_inv N hash hN hr
  have hwf := hinv.wf
  refine ⟨hinv.cap, hwf.pos, h_defined_of_wf hash hwf, hwf.len, fun k => ?_, fun n v k => ?_,
    fun i hi => ?_, fun it _ hts _ i hi => ?_⟩
  · have := h_lt hash s k hwf.pos
    exact ⟨this, by rw [hwf.len]; exact this⟩
  · have hm : 0 < max N (max n s.curr_size) := lt_of_lt_of_le hN (le_max_left _ _)
    rw [push_all_length]
    have hlt := h_lt hash (push_all hash (fresh (max N (max n s.curr_size))) v) k
      (by rw [push_all_table_size]; exact hm)
    rw [push_all_table_size] at hlt
    simpa [fresh] using hlt
  · rw [hwf.len]
    exact begin_loop_accesses_lt s s.table_size 0 (by omega) i hi
  · rw [hwf.len, ← hts]
    exact inc_loop_accesses_lt _ it i hi

/-- Instance of C20: the sample set and the cursor on its last entry of bucket 1. -/
theorem C20_table_accesses_in_bounds_witness :
    (0 < 7 ∧ Reachable 7 (fun k : Nat => k) sample_set) ∧
    (7 ≤ sample_set.table_size ∧ 1 ≤ sample_set.table_size ∧ h_defined sample_set = true ∧
    sample_set.table.length = sample_set.table_size ∧
    (∀ k, h (fun k : Nat => k) sample_set k < sample_set.table_size ∧
      h (fun k : Nat => k) sample_set k < sample_set.table.length) ∧
    (∀ n v k,
      h (fun k : Nat => k)
          (push_all (fun k : Nat => k) (fresh (max 7 (max n sample_set.curr_size))) v) k <
        (push_all (fun k : Nat => k)
          (fresh (max 7 (max n sample_set.curr_size))) v).table.length) ∧
    (∀ i ∈ begin_accesses sample_set, i < sample_set.table.length) ∧
    (∀ it : Iterator Nat, it.table = sample_set.table →
      it.table_size = sample_set.table_size → it.pos ≠ [] →
      ∀ i ∈ it.increment_accesses, i < sample_set.table.length)) ∧
    begin_accesses sample_set = [0, 1] ∧
    Iterator.increment_accesses
      { pos := [1], table := sample_set.table, idx := 1, table_size := 7 } = [2, 3] :=
  ⟨⟨by decide, sample_set_reachable⟩,
    C20_table_accesses_in_bounds 7 (fun k : Nat => k) (by decide) sample_set
      sample_set_reachable,
    by decide, by decide⟩

end Claims20
section RehashCallSites

variable {Key : Type} [DecidableEq Key] (N : Nat) (hash : Key → Nat)

/-- The states on which the code calls `rehash` have a `curr_size` that counts
the collected entries: the member initialisers (default constructor), a state
that satisfies the table invariant (copy constructor), and such a state after
the first statements of `insert_` (from `reserve`). -/
theorem count_matches_where_rehash_is_called :
    (collect (members_init : ADS_set Key)).length = (members_init : ADS_set Key).curr_size ∧
    (∀ s : ADS_set Key, Wf hash s → (collect s).length = s.curr_size) ∧
    (∀ (s : ADS_set Key) (key : Key), Wf hash s →
      (collect (push_head hash s key)).length = (push_head hash s key).curr_size) := by
  refine ⟨rfl, fun s hwf => ?_, fun s key hwf => ?_⟩
  · rw [collect_eq s hwf.len]
    exact hwf.card.symm
  · rw [collect_push_head_length hash hwf.len hwf.pos key, push_head_curr_size, hwf.card]

end RehashCallSites

end ADS
